import Mathlib

/-!
Bounded-buffer I/O relays of `libjava/io_util.c`.

A shallow embedding of `readBytes` and `writeBytes` from
`src/java.base/share/native/libjava/io_util.c`, and theorems about them.

* `jint` values are `Int`; every arithmetic operation the C code performs on a
  `jint` local is wrapped to 32 bits by `wrap32`.
* A `char` of the transfer buffer and a `jbyte` of the Java array are both
  represented by their octet, a `Nat` below 256.
* The collaborators that are not defined in `io_util.c` (`getFD`, `IO_Read`,
  `IO_Write`, `IO_Append`, `malloc`) are fields of `Ops`, over an arbitrary type
  `σ` of channel states.
* The JNI environment is the `World`: the Java byte array, the pending
  exception, and a chronological trace of the calls made so far.
* The two `while` loops are recursive functions on a fuel argument that counts
  evaluations of the loop condition; `none` means the fuel ran out.
-/

namespace IoUtil

/-! ## Machine integers -/

/-- Two's-complement wrap of an integer to the range of a `jint`. -/
def wrap32 (x : Int) : Int := (x + 2147483648) % 4294967296 - 2147483648

/-- The largest `jint`. -/
def JINT_MAX : Int := 2147483647

/-- The size of a stack-allocated buffer: `#define STACK_BUF_SIZE 8192`. -/
def STACK_BUF_SIZE : Int := 8192

/-- The maximum size of a dynamically allocated buffer:
`#define MAX_MALLOC_SIZE 65536`. -/
def MAX_MALLOC_SIZE : Int := 65536

/-! ## Environment -/

/-- The exceptions `io_util.c` can leave pending in the JNI environment. -/
inductive Exc
  /-- Thrown by `JNU_ThrowIOException(env, "Stream Closed")`. -/
  | StreamClosed
  /-- Thrown by `JNU_ThrowIOExceptionWithLastError(env, "Read error")`. -/
  | ReadError
  /-- Thrown by `JNU_ThrowIOExceptionWithLastError(env, "Write error")`. -/
  | WriteError
  /-- Thrown by `JNU_ThrowOutOfMemoryError(env, NULL)`. -/
  | OutOfMemory
  /-- The failure of `SetByteArrayRegion` / `GetByteArrayRegion`. -/
  | ArrayIndexOutOfBounds
  deriving DecidableEq, Repr

/-- One call made by the relays, with its arguments and its result. -/
inductive Event
  /-- Call `getFD(env, this, fid)` returned `fd`. -/
  | getFD (fd : Int)
  /-- Call `IO_Read(fd, buf, len)` returned `n`. -/
  | IO_Read (fd : Int) (len : Int) (n : Int)
  /-- Call `IO_Write(fd, buf, len)` returned `n`. -/
  | IO_Write (fd : Int) (buf : List Nat) (len : Int) (n : Int)
  /-- Call `IO_Append(fd, buf, len)` returned `n`. -/
  | IO_Append (fd : Int) (buf : List Nat) (len : Int) (n : Int)
  /-- Call `SetByteArrayRegion(env, bytes, off, n, buf)`. -/
  | SetByteArrayRegion (off : Int) (n : Int) (buf : List Nat)
  /-- Call `GetByteArrayRegion(env, bytes, off, n, buf)`. -/
  | GetByteArrayRegion (off : Int) (n : Int)
  /-- An exception was made pending. -/
  | throw (e : Exc)
  /-- Call `ExceptionClear(env)`. -/
  | ExceptionClear
  /-- Call `malloc(size)`; `ok` is `buf != NULL`. -/
  | malloc (size : Int) (ok : Bool)
  /-- Call `free(buf)`. -/
  | free
  deriving DecidableEq, Repr

/-- The state a call works on: the channel, the Java array `bytes`, the pending
exception of `env`, and the calls made so far, oldest first. -/
structure World (σ : Type) where
  chan : σ
  bytes : List Nat
  pending : Option Exc
  trace : List Event

/-- The collaborators declared outside `io_util.c`.

* `getFD s` is the descriptor (`-1` when the stream is closed) and the next
  channel state.
* `IO_Read fd len s` is the returned count, the contents of `buf` after the
  call, and the next channel state.
* `IO_Write fd buf len s` and `IO_Append fd buf len s` are the returned count and
  the next channel state; `buf` holds the first `len` chars of the buffer.
* `malloc size` tells whether the single allocation of the call succeeds. -/
structure Ops (σ : Type) where
  getFD : σ → Int × σ
  IO_Read : Int → Int → σ → (Int × List Nat) × σ
  IO_Write : Int → List Nat → Int → σ → Int × σ
  IO_Append : Int → List Nat → Int → σ → Int × σ
  malloc : Int → Bool

variable {σ : Type}

/-- Append one event to the trace. -/
def World.log (w : World σ) (e : Event) : World σ :=
  { w with trace := w.trace ++ [e] }

/-- Record a call `e` to a collaborator that left the channel in state `s`. -/
def World.call (w : World σ) (s : σ) (e : Event) : World σ :=
  { w with chan := s, trace := w.trace ++ [e] }

/-- Make `e` the pending exception (the `JNU_Throw...` helpers). -/
def throwExc (e : Exc) (w : World σ) : World σ :=
  { w with pending := some e, trace := w.trace ++ [Event.throw e] }

/-- The JNI call `(*env)->ExceptionClear(env)`. -/
def ExceptionClear (w : World σ) : World σ :=
  { w with pending := none, trace := w.trace ++ [Event.ExceptionClear] }

/-- That `off` and `n` specify a valid sub-range of an array of length `length`. -/
def validRange (length : Nat) (off n : Int) : Prop :=
  0 ≤ off ∧ 0 ≤ n ∧ off + n ≤ length

instance (length : Nat) (off n : Int) : Decidable (validRange length off n) := by
  unfold validRange; infer_instance

/-- The first `n` chars of `buf`; a char beyond the end of `buf` reads as `0`. -/
def bufPrefix (buf : List Nat) (n : Nat) : List Nat :=
  buf.take n ++ List.replicate (n - buf.length) 0

/-- Modelled from the spec: `copy_into_caller_range(buffer, caller_range,
dest_offset, n)`, the JNI function `SetByteArrayRegion`, which is not defined in
`io_util.c`. It fails, leaving `ArrayIndexOutOfBounds` pending and the array
untouched, when the sub-range is invalid; otherwise it stores the first `n`
chars of `buf` at `bytes[off .. off+n)`. -/
def SetByteArrayRegion (w : World σ) (off n : Int) (buf : List Nat) : World σ :=
  let w1 := w.log (Event.SetByteArrayRegion off n buf)
  if validRange w.bytes.length off n then
    { w1 with bytes := w.bytes.take off.toNat ++ bufPrefix buf n.toNat ++
                        w.bytes.drop (off.toNat + n.toNat) }
  else
    throwExc Exc.ArrayIndexOutOfBounds w1

/-- Modelled from the spec: `copy_from_caller_range(caller_range, src_offset,
buffer, n)`, the JNI function `GetByteArrayRegion`, which is not defined in
`io_util.c`. It fails, leaving `ArrayIndexOutOfBounds` pending, when the
sub-range is invalid; otherwise the second component is `bytes[off .. off+n)`,
the new contents of the buffer. On failure the buffer is not read afterwards
and the second component is `[]`. -/
def GetByteArrayRegion (w : World σ) (off n : Int) : World σ × List Nat :=
  let w1 := w.log (Event.GetByteArrayRegion off n)
  if validRange w.bytes.length off n then
    (w1, (w.bytes.drop off.toNat).take n.toNat)
  else
    (throwExc Exc.ArrayIndexOutOfBounds w1, [])

/-! ## `readBytes` -/

/-- The buffer chosen by a relay: its capacity, and whether `buf != stackBuf`. -/
structure BufSel where
  buf_size : Int
  heap : Bool
  deriving DecidableEq, Repr

/-- Lines 76–86: the buffer `readBytes` selects for a request of `len` bytes. -/
def readBytes_buf (len : Int) : BufSel :=
  if len > STACK_BUF_SIZE then
    { buf_size := if len < MAX_MALLOC_SIZE then len else MAX_MALLOC_SIZE, heap := true }
  else
    { buf_size := STACK_BUF_SIZE, heap := false }

/-- Lines 89–115: the `while (nread < len)` loop of `readBytes`, from the state
`(w, off, nread)` at a test of the loop condition. The result is the state
and the value of `nread` when the loop is left. -/
def readLoop (ops : Ops σ) (len buf_size : Int) :
    Nat → World σ → Int → Int → Option (World σ × Int)
  | 0, _, _, _ => none
  | fuel + 1, w, off, nread =>
    if nread < len then
      let read_size0 := wrap32 (len - nread)
      let read_size := if read_size0 > buf_size then buf_size else read_size0
      let r := ops.getFD w.chan
      let fd := r.1
      let w1 := w.call r.2 (Event.getFD fd)
      if fd = -1 then
        some (throwExc Exc.StreamClosed w1, -1)
      else
        let rd := ops.IO_Read fd read_size r.2
        let n := rd.1.1
        let w2 := w1.call rd.2 (Event.IO_Read fd read_size n)
        if n > 0 then
          let w3 := SetByteArrayRegion w2 off n rd.1.2
          let nread1 := wrap32 (nread + n)
          if n < read_size then
            some (w3, nread1)
          else
            readLoop ops len buf_size fuel w3 (wrap32 (off + n)) nread1
        else if n = -1 then
          some (throwExc Exc.ReadError w2, nread)
        else
          some (w2, if nread = 0 then -1 else nread)
    else
      some (w, nread)

/-- The function `readBytes(env, this, bytes, off, len, fid)`: the final state
and the returned `jint`. -/
def readBytes (ops : Ops σ) (fuel : Nat) (w : World σ) (off len : Int) :
    Option (World σ × Int) :=
  let sel := readBytes_buf len
  if sel.heap then
    if ops.malloc sel.buf_size then
      match readLoop ops len sel.buf_size fuel (w.log (Event.malloc sel.buf_size true)) off 0 with
      | none => none
      | some (w1, nread) => some (w1.log Event.free, nread)
    else
      some (throwExc Exc.OutOfMemory (w.log (Event.malloc sel.buf_size false)), 0)
  else
    readLoop ops len sel.buf_size fuel w off 0

/-! ## `writeBytes` -/

/-- Lines 157–167: the buffer `writeBytes` selects for a request of `len` bytes. -/
def writeBytes_buf (len : Int) : BufSel :=
  if len > STACK_BUF_SIZE then
    { buf_size := if len < MAX_MALLOC_SIZE then len else MAX_MALLOC_SIZE, heap := true }
  else
    { buf_size := STACK_BUF_SIZE, heap := false }

/-- Lines 169–193: the `while (len > 0)` loop of `writeBytes`, from the state
`(w, off, len)` at a test of the loop condition. `append` is
`append == JNI_TRUE`. -/
def writeLoop (ops : Ops σ) (append : Bool) (buf_size : Int) :
    Nat → World σ → Int → Int → Option (World σ)
  | 0, _, _, _ => none
  | fuel + 1, w, off, len =>
    if len > 0 then
      let write_size := if len < buf_size then len else buf_size
      let g := GetByteArrayRegion w off write_size
      if g.1.pending = none then
        let r := ops.getFD g.1.chan
        let fd := r.1
        let w1 := g.1.call r.2 (Event.getFD fd)
        if fd = -1 then
          some (throwExc Exc.StreamClosed w1)
        else
          let wr := if append then ops.IO_Append fd g.2 write_size r.2
                    else ops.IO_Write fd g.2 write_size r.2
          let n := wr.1
          let w2 := w1.call wr.2 (if append then Event.IO_Append fd g.2 write_size n
                                  else Event.IO_Write fd g.2 write_size n)
          if n = -1 then
            some (throwExc Exc.WriteError w2)
          else
            writeLoop ops append buf_size fuel w2 (wrap32 (off + n)) (wrap32 (len - n))
      else
        some (ExceptionClear g.1)
    else
      some w

/-- The function `writeBytes(env, this, bytes, off, len, append, fid)`: the final
state. -/
def writeBytes (ops : Ops σ) (fuel : Nat) (w : World σ) (off len : Int) (append : Bool) :
    Option (World σ) :=
  let sel := writeBytes_buf len
  if sel.heap then
    if ops.malloc sel.buf_size then
      match writeLoop ops append sel.buf_size fuel (w.log (Event.malloc sel.buf_size true))
          off len with
      | none => none
      | some w1 => some (w1.log Event.free)
    else
      some (throwExc Exc.OutOfMemory (w.log (Event.malloc sel.buf_size false)))
  else
    writeLoop ops append sel.buf_size fuel w off len

/-! ## A channel that is a byte queue -/

/-- A channel backed by a queue of bytes: it is always open (descriptor `3`),
every write or append is accepted in full at the tail of the queue, every read
takes `min(requested, available)` bytes from the head, and allocation
succeeds. -/
def queueOps : Ops (List Nat) where
  getFD q := (3, q)
  IO_Read _ len q := (((q.take len.toNat).length, q.take len.toNat), q.drop len.toNat)
  IO_Write _ buf len q := (len, q ++ buf.take len.toNat)
  IO_Append _ buf len q := (len, q ++ buf.take len.toNat)
  malloc _ := true

/-- The world of a fresh call: no exception pending, nothing traced. -/
def World.init (chan : σ) (bytes : List Nat) : World σ :=
  { chan := chan, bytes := bytes, pending := none, trace := [] }

/-! ## Specification vocabulary -/

/-- The world in which the loop of a relay starts: `malloc` succeeded when the
buffer is on the heap. -/
def BufSel.enter (sel : BufSel) (w : World σ) : World σ :=
  if sel.heap then w.log (Event.malloc sel.buf_size true) else w

/-- The world in which a relay returns after its loop: the heap buffer is freed. -/
def BufSel.leave (sel : BufSel) (w : World σ) : World σ :=
  if sel.heap then w.log Event.free else w

/-- The calls to the channel in a trace: resolutions and single-shot reads,
writes and appends. -/
def channelCalls (t : List Event) : List Event :=
  t.filter fun e =>
    match e with
    | Event.getFD _ => true
    | Event.IO_Read _ _ _ => true
    | Event.IO_Write _ _ _ _ => true
    | Event.IO_Append _ _ _ _ => true
    | _ => false

/-- The state of a scripted channel: the answers its next resolutions and its
next single-shot calls will give. -/
structure Script where
  fds : List Int
  counts : List Int
  deriving DecidableEq, Repr

/-- A channel that replays a script: `getFD` answers the next entry of `fds`
(`-1` when there is none left), a single-shot read answers the next entry `n`
of `counts` (`0` when there is none left) and leaves `n` chars `65` in the
buffer, a single-shot write or append answers the next entry of `counts` (the
requested length when there is none left), and allocation succeeds. -/
def scriptOps : Ops Script where
  getFD s :=
    match s.fds with
    | [] => (-1, s)
    | fd :: rest => (fd, { s with fds := rest })
  IO_Read _ _ s :=
    match s.counts with
    | [] => ((0, []), s)
    | n :: rest => ((n, List.replicate n.toNat 65), { s with counts := rest })
  IO_Write _ _ len s :=
    match s.counts with
    | [] => (len, s)
    | n :: rest => (n, { s with counts := rest })
  IO_Append _ _ len s :=
    match s.counts with
    | [] => (len, s)
    | n :: rest => (n, { s with counts := rest })
  malloc _ := true

/-- The single-shot primitive `writeBytes` uses: `IO_Append` when
`append == JNI_TRUE`, else `IO_Write`. -/
def Ops.put (ops : Ops σ) (append : Bool) (fd : Int) (buf : List Nat) (len : Int) (s : σ) :
    Int × σ :=
  if append then ops.IO_Append fd buf len s else ops.IO_Write fd buf len s

/-- The event of a call of the primitive `Ops.put`. -/
def putEvent (append : Bool) (fd : Int) (buf : List Nat) (len n : Int) : Event :=
  if append then Event.IO_Append fd buf len n else Event.IO_Write fd buf len n

/-- The bytes the channel accepted in a trace: for each single-shot write or
append that returned `n`, the first `n` bytes of its chunk, in order. -/
def acceptedBytes : List Event → List Nat
  | [] => []
  | Event.IO_Write _ buf _ n :: t => buf.take n.toNat ++ acceptedBytes t
  | Event.IO_Append _ buf _ n :: t => buf.take n.toNat ++ acceptedBytes t
  | _ :: t => acceptedBytes t

/-- The chunk sizes requested by the single-shot writes and appends of a
trace, in order. -/
def writeSizes : List Event → List Int
  | [] => []
  | Event.IO_Write _ _ len _ :: t => len :: writeSizes t
  | Event.IO_Append _ _ len _ :: t => len :: writeSizes t
  | _ :: t => writeSizes t

/-- The sub-range `bytes[off .. off+len)` of an array. -/
def slice (bytes : List Nat) (off len : Int) : List Nat :=
  (bytes.drop off.toNat).take len.toNat

/-- A byte-queue channel that accepts at most 3 bytes per single-shot write or
append (and says so in the count it returns); otherwise as `queueOps`. -/
def trickleOps : Ops (List Nat) where
  getFD q := (3, q)
  IO_Read _ len q := (((q.take len.toNat).length, q.take len.toNat), q.drop len.toNat)
  IO_Write _ buf len q := (min len 3, q ++ buf.take (min len 3).toNat)
  IO_Append _ buf len q := (min len 3, q ++ buf.take (min len 3).toNat)
  malloc _ := true

/-- The allocation events of a trace: calls of `malloc`, and `OutOfMemory`
being thrown. -/
def allocEvents (t : List Event) : List Event :=
  t.filter fun e =>
    match e with
    | Event.malloc _ _ => true
    | Event.throw Exc.OutOfMemory => true
    | _ => false

/-- The scripted channel with an allocator that always fails. -/
def oomOps : Ops Script :=
  { scriptOps with malloc := fun _ => false }

/-! ## `readSingle` and `writeSingle` -/

/-- The function `readSingle(env, this, fid)`: the final state and the returned
`jint`. The second component of the answer of `IO_Read` is the contents of
the one-char buffer `ret` after the call (`0` stands for a buffer the answer
leaves empty), and `ret & 0xFF` is its octet. -/
def readSingle (ops : Ops σ) (w : World σ) : World σ × Int :=
  let r := ops.getFD w.chan
  let fd := r.1
  let w1 := w.call r.2 (Event.getFD fd)
  if fd = -1 then
    (throwExc Exc.StreamClosed w1, -1)
  else
    let rd := ops.IO_Read fd 1 r.2
    let nread := rd.1.1
    let ret := rd.1.2.getD 0 0
    let w2 := w1.call rd.2 (Event.IO_Read fd 1 nread)
    if nread = 0 then
      (w2, -1)
    else
      let w3 := if nread = -1 then throwExc Exc.ReadError w2 else w2
      (w3, ((ret % 256 : Nat) : Int))

/-- The function `writeSingle(env, this, byte, append, fid)`: the final state.
The char `c = (char) byte` is the octet of the low 8 bits of `byte`. -/
def writeSingle (ops : Ops σ) (w : World σ) (byte : Int) (append : Bool) : World σ :=
  let c := (byte % 256).toNat
  let r := ops.getFD w.chan
  let fd := r.1
  let w1 := w.call r.2 (Event.getFD fd)
  if fd = -1 then
    throwExc Exc.StreamClosed w1
  else
    let wr := if append then ops.IO_Append fd [c] 1 r.2 else ops.IO_Write fd [c] 1 r.2
    let n := wr.1
    let w2 := w1.call wr.2 (if append then Event.IO_Append fd [c] 1 n
                            else Event.IO_Write fd [c] 1 n)
    if n = -1 then
      throwExc Exc.WriteError w2
    else
      w2

/-- A sequence of calls to the channel in which every single-shot call is
issued right after a resolution of its own, on the descriptor that resolution
returned (which is not `-1`), and a resolution that reported closed is the
last call of all. -/
def freshPairs : List Event → Bool
  | [] => true
  | [Event.getFD fd] => decide (fd = -1)
  | Event.getFD fd :: Event.IO_Read fd' _ _ :: t =>
      decide (fd ≠ -1) && decide (fd' = fd) && freshPairs t
  | Event.getFD fd :: Event.IO_Write fd' _ _ _ :: t =>
      decide (fd ≠ -1) && decide (fd' = fd) && freshPairs t
  | Event.getFD fd :: Event.IO_Append fd' _ _ _ :: t =>
      decide (fd ≠ -1) && decide (fd' = fd) && freshPairs t
  | _ => false

/-- The number of channel resolutions in a trace. -/
def resolutions (t : List Event) : Nat :=
  (t.filter fun e =>
    match e with
    | Event.getFD _ => true
    | _ => false).length

/-- The number of single-shot reads, writes and appends in a trace. -/
def singleShots (t : List Event) : Nat :=
  (t.filter fun e =>
    match e with
    | Event.IO_Read _ _ _ => true
    | Event.IO_Write _ _ _ _ => true
    | Event.IO_Append _ _ _ _ => true
    | _ => false).length

/-! ## A channel that records what its reads deliver -/

/-- The channel `ops` made to keep, next to its own state, a record of the
bytes its single-shot reads deliver: a read that returns `n` appends to the
record the first `n` chars it left in the buffer (nothing when `n ≤ 0`). It
answers every call exactly as `ops` does. -/
def recording (ops : Ops σ) : Ops (σ × List Nat) where
  getFD s := ((ops.getFD s.1).1, ((ops.getFD s.1).2, s.2))
  IO_Read fd len s :=
    ((ops.IO_Read fd len s.1).1,
      ((ops.IO_Read fd len s.1).2,
        s.2 ++ bufPrefix (ops.IO_Read fd len s.1).1.2 (ops.IO_Read fd len s.1).1.1.toNat))
  IO_Write fd buf len s := ((ops.IO_Write fd buf len s.1).1, ((ops.IO_Write fd buf len s.1).2, s.2))
  IO_Append fd buf len s :=
    ((ops.IO_Append fd buf len s.1).1, ((ops.IO_Append fd buf len s.1).2, s.2))
  malloc := ops.malloc

/-- The world `w` over the recording channel, with the record `log` so far. -/
def World.withRecord (w : World σ) (log : List Nat) : World (σ × List Nat) :=
  { chan := (w.chan, log), bytes := w.bytes, pending := w.pending, trace := w.trace }

/-- A world over a recording channel, without the record. -/
def World.plain (w : World (σ × List Nat)) : World σ :=
  { chan := w.chan.1, bytes := w.bytes, pending := w.pending, trace := w.trace }

/-! # Theorems -/

/-! ## Basic facts -/

theorem wrap32_of_range {x : Int} (h1 : -2147483648 ≤ x) (h2 : x ≤ 2147483647) :
    wrap32 x = x := by
  unfold wrap32; omega

theorem readBytes_buf_pos (len : Int) : 0 < (readBytes_buf len).buf_size := by
  unfold readBytes_buf STACK_BUF_SIZE MAX_MALLOC_SIZE
  split_ifs <;> simp only [] <;> omega

theorem readBytes_buf_heap (len : Int) : (readBytes_buf len).heap = decide (len > 8192) := by
  unfold readBytes_buf STACK_BUF_SIZE
  split_ifs <;> simp [*]

theorem read_size_eq (len buf_size nread : Int) (hmax : len ≤ JINT_MAX) (h0 : 0 ≤ nread)
    (hlt : nread < len) :
    (if wrap32 (len - nread) > buf_size then buf_size else wrap32 (len - nread)) =
      min (len - nread) buf_size := by
  unfold JINT_MAX at hmax
  rw [wrap32_of_range (by omega) (by omega)]
  split_ifs <;> omega

/-- The relay in terms of its loop, when the allocation (if any) succeeds. -/
theorem readBytes_eq_loop (ops : Ops σ) (fuel : Nat) (w : World σ) (off len : Int)
    (hm : (readBytes_buf len).heap = true → ops.malloc (readBytes_buf len).buf_size = true) :
    readBytes ops fuel w off len =
      (readLoop ops len (readBytes_buf len).buf_size fuel ((readBytes_buf len).enter w) off 0).map
        fun p => ((readBytes_buf len).leave p.1, p.2) := by
  unfold readBytes BufSel.enter BufSel.leave
  by_cases hh : (readBytes_buf len).heap = true
  · simp only [hh, hm hh, if_true]
    cases readLoop ops len (readBytes_buf len).buf_size fuel
      (w.log (Event.malloc (readBytes_buf len).buf_size true)) off 0 <;> rfl
  · have hf : (readBytes_buf len).heap = false := by simpa using hh
    simp [hf]

/-! ## One iteration of the read loop -/

section ReadStep
variable (ops : Ops σ) (len buf_size : Int) (fuel : Nat) (w : World σ) (off nread : Int)
variable (fd : Int) (s1 s2 : σ) (n : Int) (buf : List Nat)

theorem readLoop_done (h : ¬ nread < len) :
    readLoop ops len buf_size (fuel + 1) w off nread = some (w, nread) := by
  simp [readLoop, h]

theorem readLoop_closed (hlt : nread < len) (hfd : ops.getFD w.chan = (fd, s1)) (hc : fd = -1) :
    readLoop ops len buf_size (fuel + 1) w off nread =
      some (throwExc Exc.StreamClosed (w.call s1 (Event.getFD fd)), -1) := by
  simp [readLoop, hlt, hfd, hc]

theorem readLoop_eof (hmax : len ≤ JINT_MAX) (h0 : 0 ≤ nread) (hlt : nread < len)
    (hfd : ops.getFD w.chan = (fd, s1)) (hc : fd ≠ -1)
    (hrd : ops.IO_Read fd (min (len - nread) buf_size) s1 = ((n, buf), s2))
    (hn : n ≤ 0) (hn1 : n ≠ -1) :
    readLoop ops len buf_size (fuel + 1) w off nread =
      some ((w.call s1 (Event.getFD fd)).call s2
              (Event.IO_Read fd (min (len - nread) buf_size) n),
            if nread = 0 then -1 else nread) := by
  have hn' : ¬ n > 0 := by omega
  simp only [readLoop, hlt, if_true, read_size_eq len buf_size nread hmax h0 hlt, hfd, hrd, hc,
    hn', hn1, if_false]

theorem readLoop_error (hmax : len ≤ JINT_MAX) (h0 : 0 ≤ nread) (hlt : nread < len)
    (hfd : ops.getFD w.chan = (fd, s1)) (hc : fd ≠ -1)
    (hrd : ops.IO_Read fd (min (len - nread) buf_size) s1 = ((n, buf), s2))
    (hn : n = -1) :
    readLoop ops len buf_size (fuel + 1) w off nread =
      some (throwExc Exc.ReadError ((w.call s1 (Event.getFD fd)).call s2
              (Event.IO_Read fd (min (len - nread) buf_size) n)), nread) := by
  subst hn
  simp [readLoop, hlt, read_size_eq len buf_size nread hmax h0 hlt, hfd, hrd, hc]

theorem readLoop_short (hmax : len ≤ JINT_MAX) (h0 : 0 ≤ nread) (hlt : nread < len)
    (hfd : ops.getFD w.chan = (fd, s1)) (hc : fd ≠ -1)
    (hrd : ops.IO_Read fd (min (len - nread) buf_size) s1 = ((n, buf), s2))
    (hn : 0 < n) (hs : n < min (len - nread) buf_size) :
    readLoop ops len buf_size (fuel + 1) w off nread =
      some (SetByteArrayRegion ((w.call s1 (Event.getFD fd)).call s2
              (Event.IO_Read fd (min (len - nread) buf_size) n)) off n buf, nread + n) := by
  have hn' : n > 0 := hn
  have hw : wrap32 (nread + n) = nread + n := by
    unfold JINT_MAX at hmax
    exact wrap32_of_range (by omega) (by omega)
  simp only [readLoop, hlt, if_true, read_size_eq len buf_size nread hmax h0 hlt, hfd, hrd, hc,
    hn', hs, if_false, hw]

theorem readLoop_full (hmax : len ≤ JINT_MAX) (h0 : 0 ≤ nread) (hlt : nread < len)
    (hfd : ops.getFD w.chan = (fd, s1)) (hc : fd ≠ -1)
    (hrd : ops.IO_Read fd (min (len - nread) buf_size) s1 = ((n, buf), s2))
    (hn : 0 < n) (hs : ¬ n < min (len - nread) buf_size) :
    readLoop ops len buf_size (fuel + 1) w off nread =
      readLoop ops len buf_size fuel
        (SetByteArrayRegion ((w.call s1 (Event.getFD fd)).call s2
              (Event.IO_Read fd (min (len - nread) buf_size) n)) off n buf)
        (wrap32 (off + n)) (wrap32 (nread + n)) := by
  have hn' : n > 0 := hn
  simp only [readLoop, hlt, if_true, read_size_eq len buf_size nread hmax h0 hlt, hfd, hrd, hc,
    hn', hs, if_false]

end ReadStep

theorem queueOps_read_le (fd sz : Int) (q : List Nat) (h : 0 < sz) :
    (queueOps.IO_Read fd sz q).1.1 ≤ sz := by
  simp only [queueOps, List.length_take]
  omega

theorem readLoop_le_len (ops : Ops σ) (len buf_size : Int) (hmax : len ≤ JINT_MAX)
    (hb : 0 < buf_size)
    (hread : ∀ fd sz s, 0 < sz → (ops.IO_Read fd sz s).1.1 ≤ sz) :
    ∀ (fuel : Nat) (w : World σ) (off nread : Int), 0 ≤ nread → nread ≤ len →
      (len - nread).toNat < fuel →
      ∃ w' r, readLoop ops len buf_size fuel w off nread = some (w', r) ∧
        (r = -1 ∨ (0 ≤ r ∧ r ≤ len)) := by
  intro fuel
  induction fuel with
  | zero => intro w off nread _ _ h; omega
  | succ fuel ih =>
    intro w off nread h0 h1 hf
    by_cases hlt : nread < len
    · rcases hfd : ops.getFD w.chan with ⟨fd, s1⟩
      by_cases hc : fd = -1
      · exact ⟨_, _, readLoop_closed ops len buf_size fuel w off nread fd s1 hlt hfd hc,
          Or.inl rfl⟩
      · rcases hrd : ops.IO_Read fd (min (len - nread) buf_size) s1 with ⟨⟨n, buf⟩, s2⟩
        have hn : n ≤ min (len - nread) buf_size := by
          have := hread fd (min (len - nread) buf_size) s1 (by omega)
          rwa [hrd] at this
        by_cases hpos : 0 < n
        · by_cases hs : n < min (len - nread) buf_size
          · exact ⟨_, _, readLoop_short ops len buf_size fuel w off nread fd s1 s2 n buf hmax h0
              hlt hfd hc hrd hpos hs, Or.inr (by omega)⟩
          · rw [readLoop_full ops len buf_size fuel w off nread fd s1 s2 n buf hmax h0 hlt hfd hc
              hrd hpos hs]
            have hw : wrap32 (nread + n) = nread + n := by
              unfold JINT_MAX at hmax
              exact wrap32_of_range (by omega) (by omega)
            rw [hw]
            exact ih _ _ _ (by omega) (by omega) (by omega)
        · by_cases he : n = -1
          · exact ⟨_, _, readLoop_error ops len buf_size fuel w off nread fd s1 s2 n buf hmax h0
              hlt hfd hc hrd he, Or.inr ⟨h0, h1⟩⟩
          · refine ⟨_, _, readLoop_eof ops len buf_size fuel w off nread fd s1 s2 n buf hmax h0
              hlt hfd hc hrd (by omega) he, ?_⟩
            split_ifs
            · exact Or.inl rfl
            · exact Or.inr ⟨h0, h1⟩
    · exact ⟨_, _, readLoop_done ops len buf_size fuel w off nread hlt, Or.inr ⟨h0, h1⟩⟩

/-- C1 (no overrun on read). For every `len ≥ 1` (a `jint`) and every channel
whose single-shot read never returns more than the positive chunk size it was
asked for, `readBytes` returns, and the value it returns is `-1` or a count in
`0..len`, whatever the allocation, the resolutions and the reads do. -/
theorem readBytes_no_overrun (ops : Ops σ) (fuel : Nat) (w : World σ) (off len : Int)
    (hlen : 1 ≤ len) (hmax : len ≤ JINT_MAX)
    (hread : ∀ fd sz s, 0 < sz → (ops.IO_Read fd sz s).1.1 ≤ sz)
    (hfuel : len.toNat < fuel) :
    ∃ w' r, readBytes ops fuel w off len = some (w', r) ∧ (r = -1 ∨ (0 ≤ r ∧ r ≤ len)) := by
  unfold readBytes
  simp only
  split_ifs with hh hm
  · obtain ⟨w', r, h, hr⟩ := readLoop_le_len ops len (readBytes_buf len).buf_size hmax
      (readBytes_buf_pos len) hread fuel
      (w.log (Event.malloc (readBytes_buf len).buf_size true)) off 0 (le_refl 0) (by omega)
      (by simpa using hfuel)
    rw [h]
    exact ⟨_, _, rfl, hr⟩
  · exact ⟨_, _, rfl, Or.inr ⟨le_refl 0, by omega⟩⟩
  · exact readLoop_le_len ops len _ hmax (readBytes_buf_pos len) hread fuel w off 0 (le_refl 0)
      (by omega) (by simpa using hfuel)

/-- Witness of C1: a read of 10 bytes from a queue holding 4. -/
theorem readBytes_no_overrun_witness :
    ∃ w' r, readBytes queueOps 11 (World.init [1, 2, 3, 4] (List.replicate 10 0)) 0 10
        = some (w', r) ∧ (r = -1 ∨ (0 ≤ r ∧ r ≤ 10)) :=
  readBytes_no_overrun queueOps 11 (World.init [1, 2, 3, 4] (List.replicate 10 0)) 0 10
    (by decide) (by decide) queueOps_read_le (by decide)

/-- C2 (EOF at start). For every `len ≥ 1`, if the first resolution gives a
descriptor `fd ≠ -1` and the first single-shot read returns `0`, then `readBytes`
returns the sentinel `-1`; it leaves the pending exception and the array as
they were, and the only calls it makes to the channel are that resolution and
that read (around them, only the allocation and release of a heap buffer). -/
theorem readBytes_eof_at_start (ops : Ops σ) (fuel : Nat) (w : World σ) (off len : Int)
    (fd : Int) (s1 s2 : σ) (buf : List Nat)
    (hlen : 1 ≤ len) (hmax : len ≤ JINT_MAX)
    (hm : (readBytes_buf len).heap = true → ops.malloc (readBytes_buf len).buf_size = true)
    (hfd : ops.getFD w.chan = (fd, s1)) (hopen : fd ≠ -1)
    (hrd : ops.IO_Read fd (min len (readBytes_buf len).buf_size) s1 = ((0, buf), s2)) :
    ∃ w', readBytes ops (fuel + 1) w off len = some (w', -1) ∧
      w'.pending = w.pending ∧ w'.bytes = w.bytes ∧ w'.chan = s2 ∧
      w'.trace = ((readBytes_buf len).enter w).trace ++
        [Event.getFD fd, Event.IO_Read fd (min len (readBytes_buf len).buf_size) 0] ++
        (if (readBytes_buf len).heap then [Event.free] else []) := by
  have hchan : ((readBytes_buf len).enter w).chan = w.chan := by
    unfold BufSel.enter; split_ifs <;> rfl
  have hloop := readLoop_eof ops len (readBytes_buf len).buf_size fuel ((readBytes_buf len).enter w)
    off 0 fd s1 s2 0 buf hmax (le_refl 0) (by omega) (by rw [hchan]; exact hfd) hopen
    (by simpa using hrd) (le_refl 0) (by decide)
  rw [readBytes_eq_loop ops _ w off len hm, hloop]
  refine ⟨_, rfl, ?_⟩
  unfold BufSel.leave BufSel.enter
  split_ifs <;> simp [World.call, World.log]

/-- Witness of C2: a read of 10 bytes from an empty queue. -/
theorem readBytes_eof_at_start_witness :
    ∃ w', readBytes queueOps 1 (World.init [] (List.replicate 10 0)) 0 10 = some (w', -1) ∧
      w'.pending = none ∧ w'.bytes = List.replicate 10 0 ∧ w'.chan = [] ∧
      w'.trace = [Event.getFD 3, Event.IO_Read 3 10 0] :=
  readBytes_eof_at_start queueOps 0 (World.init [] (List.replicate 10 0)) 0 10 3 [] [] []
    (by decide) (by decide) (by decide) rfl (by decide) rfl

theorem channelCalls_append (t u : List Event) :
    channelCalls (t ++ u) = channelCalls t ++ channelCalls u := by
  simp [channelCalls]

theorem SetByteArrayRegion_chan (w : World σ) (off n : Int) (buf : List Nat) :
    (SetByteArrayRegion w off n buf).chan = w.chan := by
  unfold SetByteArrayRegion
  split_ifs <;> rfl

theorem SetByteArrayRegion_channelCalls (w : World σ) (off n : Int) (buf : List Nat) :
    channelCalls (SetByteArrayRegion w off n buf).trace = channelCalls w.trace := by
  unfold SetByteArrayRegion
  split_ifs <;> simp [channelCalls, throwExc, World.log]

/-- The read loop over a byte queue that holds fewer bytes than are still
wanted: it returns the bytes read so far plus the whole queue. -/
theorem readLoop_queue_drain (len buf_size : Int) (hmax : len ≤ JINT_MAX) (hb : 0 < buf_size) :
    ∀ (fuel : Nat) (w : World (List Nat)) (off nread : Int), 0 ≤ nread →
      nread + w.chan.length < len → (0 < nread ∨ 0 < w.chan.length) → w.chan.length < fuel →
      ∃ w', readLoop queueOps len buf_size fuel w off nread = some (w', nread + w.chan.length) := by
  intro fuel
  induction fuel with
  | zero => intro w off nread _ _ _ h; omega
  | succ fuel ih =>
    intro w off nread h0 hk hpos hf
    have hlt : nread < len := by omega
    have hfd : queueOps.getFD w.chan = (3, w.chan) := rfl
    have hrd : queueOps.IO_Read 3 (min (len - nread) buf_size) w.chan =
        ((((w.chan.take (min (len - nread) buf_size).toNat).length : Int),
          w.chan.take (min (len - nread) buf_size).toNat),
          w.chan.drop (min (len - nread) buf_size).toNat) := rfl
    have hlen : ((w.chan.take (min (len - nread) buf_size).toNat).length : Int) =
        min (min (len - nread) buf_size) w.chan.length := by
      rw [List.length_take]; omega
    by_cases hq : w.chan.length = 0
    · rw [readLoop_eof queueOps len buf_size fuel w off nread 3 _ _ _ _ hmax h0 hlt hfd
        (by decide) hrd (by omega) (by omega)]
      have hq' : (w.chan.length : Int) = 0 := by omega
      rw [if_neg (show nread ≠ 0 by omega), hq', add_zero]
      exact ⟨_, rfl⟩
    · by_cases hs : (w.chan.length : Int) < min (len - nread) buf_size
      · rw [readLoop_short queueOps len buf_size fuel w off nread 3 _ _ _ _ hmax h0 hlt hfd
          (by decide) hrd (by omega) (by omega)]
        have : ((w.chan.take (min (len - nread) buf_size).toNat).length : Int) = w.chan.length := by
          omega
        rw [this]
        exact ⟨_, rfl⟩
      · rw [readLoop_full queueOps len buf_size fuel w off nread 3 _ _ _ _ hmax h0 hlt hfd
          (by decide) hrd (by omega) (by omega)]
        have hn : ((w.chan.take (min (len - nread) buf_size).toNat).length : Int) =
            min (len - nread) buf_size := by omega
        have hw : wrap32 (nread + min (len - nread) buf_size) = nread + min (len - nread) buf_size := by
          unfold JINT_MAX at hmax
          exact wrap32_of_range (by omega) (by omega)
        rw [hn, hw]
        have hd : (w.chan.drop (min (len - nread) buf_size).toNat).length =
            w.chan.length - (min (len - nread) buf_size).toNat := List.length_drop _ _
        obtain ⟨w', hw'⟩ := ih
          (SetByteArrayRegion ((w.call w.chan (Event.getFD 3)).call
            (w.chan.drop (min (len - nread) buf_size).toNat)
            (Event.IO_Read 3 (min (len - nread) buf_size) (min (len - nread) buf_size))) off
            (min (len - nread) buf_size) (w.chan.take (min (len - nread) buf_size).toNat))
          (wrap32 (off + min (len - nread) buf_size)) (nread + min (len - nread) buf_size)
          (by omega)
          (by rw [SetByteArrayRegion_chan]; simp only [World.call]; omega)
          (Or.inl (by omega))
          (by rw [SetByteArrayRegion_chan]; simp only [World.call]; omega)
        refine ⟨w', ?_⟩
        rw [hw', SetByteArrayRegion_chan]
        simp only [World.call]
        congr 2
        omega

/-- C3 (partial progress is preserved on EOF after data). For every `len`
(a `jint`) and every byte queue holding `k` bytes with `0 < k < len`, served by reads of
`min(requested, available)` bytes and then EOF, `readBytes` returns `k`, not
the sentinel `-1`. -/
theorem readBytes_partial_then_eof (fuel : Nat) (w : World (List Nat)) (off len : Int)
    (hmax : len ≤ JINT_MAX)
    (hk0 : 0 < w.chan.length) (hk : (w.chan.length : Int) < len)
    (hfuel : w.chan.length < fuel) :
    ∃ w', readBytes queueOps fuel w off len = some (w', (w.chan.length : Int)) ∧
      (w.chan.length : Int) ≠ -1 := by
  have hchan : ((readBytes_buf len).enter w).chan = w.chan := by
    unfold BufSel.enter; split_ifs <;> rfl
  obtain ⟨w', hw'⟩ := readLoop_queue_drain len (readBytes_buf len).buf_size hmax
    (readBytes_buf_pos len) fuel ((readBytes_buf len).enter w) off 0 (le_refl 0)
    (by rw [hchan]; omega) (Or.inr (by rw [hchan]; exact hk0)) (by rw [hchan]; exact hfuel)
  rw [readBytes_eq_loop queueOps fuel w off len (fun _ => rfl), hw', hchan]
  refine ⟨(readBytes_buf len).leave w', ?_, by omega⟩
  simp

/-- Witness of C3, the instance of the specification: `len = 10`, `k = 4`. -/
theorem readBytes_partial_then_eof_witness :
    ∃ w', readBytes queueOps 5 (World.init [1, 2, 3, 4] (List.replicate 10 0)) 0 10
        = some (w', 4) ∧ (4 : Int) ≠ -1 :=
  readBytes_partial_then_eof 5 (World.init [1, 2, 3, 4] (List.replicate 10 0)) 0 10
    (by decide) (by decide) (by decide) (by decide)

/-- C4 (short-read stop). In any iteration of the loop of `readBytes` (any
state `(w, off, nread)` with `0 ≤ nread < len`), if the resolution succeeds and
the single-shot read returns `n` with `0 < n <` the chunk size requested in
that iteration, the loop is left at once: the value `readBytes` returns is
`nread + n`, the channel stays in the state the read left it in, and the only
calls to the channel after those before the iteration are that resolution
and that read. -/
theorem readLoop_short_read_stops (ops : Ops σ) (len buf_size : Int) (fuel : Nat) (w : World σ)
    (off nread fd : Int) (s1 s2 : σ) (n : Int) (buf : List Nat)
    (hmax : len ≤ JINT_MAX) (h0 : 0 ≤ nread) (hlt : nread < len)
    (hfd : ops.getFD w.chan = (fd, s1)) (hopen : fd ≠ -1)
    (hrd : ops.IO_Read fd (min (len - nread) buf_size) s1 = ((n, buf), s2))
    (hn : 0 < n) (hs : n < min (len - nread) buf_size) :
    ∃ w', readLoop ops len buf_size (fuel + 1) w off nread = some (w', nread + n) ∧
      w'.chan = s2 ∧
      channelCalls w'.trace = channelCalls w.trace ++
        [Event.getFD fd, Event.IO_Read fd (min (len - nread) buf_size) n] := by
  refine ⟨_, readLoop_short ops len buf_size fuel w off nread fd s1 s2 n buf hmax h0 hlt hfd
    hopen hrd hn hs, ?_, ?_⟩
  · rw [SetByteArrayRegion_chan]; rfl
  · rw [SetByteArrayRegion_channelCalls]
    simp [World.call, channelCalls]

/-- Witness of C4, the instance of the specification: a `readBytes` of
`len = 20` whose first read returns 5 bytes returns 5 after one read. -/
theorem readLoop_short_read_stops_witness :
    ∃ w', readBytes scriptOps 1 (World.init ⟨[3, 3], [5, 7]⟩ (List.replicate 20 0)) 0 20
        = some (w', 5) ∧
      w'.chan = ⟨[3], [7]⟩ ∧
      channelCalls w'.trace = [Event.getFD 3, Event.IO_Read 3 20 5] :=
  readLoop_short_read_stops scriptOps 20 8192 0 (World.init ⟨[3, 3], [5, 7]⟩ (List.replicate 20 0))
    0 0 3 ⟨[3], [5, 7]⟩ ⟨[3], [7]⟩ 5 (List.replicate 5 65)
    (by decide) (by decide) (by decide) rfl (by decide) rfl (by decide) (by decide)

/-- C10, as stated, fails: in a read of 65537 bytes whose first single-shot
read delivers a full chunk of 65536 bytes and whose second returns `-1`,
`readBytes` leaves the read error pending and returns 65536, the partial
progress. -/
theorem readBytes_error_reports_progress :
    (readBytes scriptOps 3 (World.init ⟨[3, 3], [65536, -1]⟩ (List.replicate 65537 0)) 0 65537).map
        (fun p => (p.2, p.1.pending, channelCalls p.1.trace)) =
      some (65536, some Exc.ReadError,
        [Event.getFD 3, Event.IO_Read 3 65536 65536, Event.getFD 3, Event.IO_Read 3 1 (-1)]) := by
  generalize List.replicate 65537 0 = arr
  have hsel : readBytes_buf 65537 = ⟨65536, true⟩ := by decide
  have h1 := readLoop_full scriptOps 65537 65536 2
    ((⟨65536, true⟩ : BufSel).enter (World.init ⟨[3, 3], [65536, -1]⟩ arr)) 0 0 3
    ⟨[3], [65536, -1]⟩ ⟨[3], [-1]⟩ 65536 (List.replicate (65536 : Int).toNat 65)
    (by decide) (by decide) (by decide) rfl (by decide) rfl (by decide) (by decide)
  have h2 := readLoop_error scriptOps 65537 65536 1
    (SetByteArrayRegion ((((⟨65536, true⟩ : BufSel).enter
      (World.init ⟨[3, 3], [65536, -1]⟩ arr)).call ⟨[3], [65536, -1]⟩ (Event.getFD 3)).call
      ⟨[3], [-1]⟩ (Event.IO_Read 3 (min (65537 - 0) 65536) 65536)) 0 65536
      (List.replicate (65536 : Int).toNat 65))
    (wrap32 (0 + 65536)) 65536 3 ⟨[], [-1]⟩ ⟨[], []⟩ (-1) [] (by decide) (by decide) (by decide)
    (by rw [SetByteArrayRegion_chan]; rfl) (by decide) rfl rfl
  rw [show wrap32 (0 + 65536) = 65536 by decide] at h1 h2
  rw [readBytes_eq_loop scriptOps 3 _ 0 65537 (fun _ => rfl), hsel, h1, h2]
  simp only [Option.map_some', BufSel.leave, BufSel.enter, World.log, throwExc, if_true,
    channelCalls_append, SetByteArrayRegion_channelCalls, World.call, World.init]
  rfl

/-- C10, amended. In any iteration of the loop of `readBytes` entered with
`k = nread > 0` bytes already transferred, if the resolution succeeds and the
single-shot read returns the error sentinel `-1` or `0` (EOF), the loop is
left at once and the value `readBytes` returns is `k` in both cases; the two
cases differ only in that the error leaves the read `IOError` pending, the EOF
leaves the pending exception as it was. No further call is made. -/
theorem readLoop_error_returns_progress (ops : Ops σ) (len buf_size : Int) (fuel : Nat)
    (w : World σ) (off nread fd : Int) (s1 s2 : σ) (n : Int) (buf : List Nat)
    (hmax : len ≤ JINT_MAX) (hk : 0 < nread) (hlt : nread < len)
    (hfd : ops.getFD w.chan = (fd, s1)) (hopen : fd ≠ -1)
    (hrd : ops.IO_Read fd (min (len - nread) buf_size) s1 = ((n, buf), s2))
    (hn : n = -1 ∨ n = 0) :
    ∃ w', readLoop ops len buf_size (fuel + 1) w off nread = some (w', nread) ∧
      w'.bytes = w.bytes ∧ w'.chan = s2 ∧
      (n = -1 → w'.pending = some Exc.ReadError ∧
        w'.trace = w.trace ++ [Event.getFD fd,
          Event.IO_Read fd (min (len - nread) buf_size) (-1), Event.throw Exc.ReadError]) ∧
      (n = 0 → w'.pending = w.pending ∧
        w'.trace = w.trace ++ [Event.getFD fd,
          Event.IO_Read fd (min (len - nread) buf_size) 0]) := by
  rcases hn with hn | hn
  · subst hn
    refine ⟨_, readLoop_error ops len buf_size fuel w off nread fd s1 s2 (-1) buf hmax
      (le_of_lt hk) hlt hfd hopen hrd rfl, rfl, rfl, fun _ => ⟨rfl, ?_⟩, fun h => absurd h (by decide)⟩
    simp [throwExc, World.call]
  · subst hn
    rw [readLoop_eof ops len buf_size fuel w off nread fd s1 s2 0 buf hmax
      (le_of_lt hk) hlt hfd hopen hrd (le_refl 0) (by decide), if_neg (ne_of_gt hk)]
    refine ⟨_, rfl, rfl, rfl, fun h => absurd h (by decide), fun _ => ⟨rfl, ?_⟩⟩
    simp [World.call]

/-- Witness of C10 amended: the second iteration of a read of 65537 bytes,
entered with 65536 bytes transferred, in which the read returns `-1`. -/
theorem readLoop_error_returns_progress_witness :
    ∃ w', readLoop scriptOps 65537 65536 1 (World.init ⟨[3], [-1]⟩ []) 65536 65536
        = some (w', 65536) ∧
      w'.bytes = [] ∧ w'.chan = ⟨[], []⟩ ∧
      ((-1 : Int) = -1 → w'.pending = some Exc.ReadError ∧
        w'.trace = [] ++ [Event.getFD 3, Event.IO_Read 3 (min (65537 - 65536) 65536) (-1),
          Event.throw Exc.ReadError]) ∧
      ((-1 : Int) = 0 → w'.pending = none ∧
        w'.trace = [] ++ [Event.getFD 3, Event.IO_Read 3 (min (65537 - 65536) 65536) 0]) :=
  readLoop_error_returns_progress scriptOps 65537 65536 0 (World.init ⟨[3], [-1]⟩ []) 65536 65536
    3 ⟨[], [-1]⟩ ⟨[], []⟩ (-1) [] (by decide) (by decide) (by decide) rfl (by decide) rfl
    (Or.inl rfl)

/-! ## One iteration of the write loop -/

theorem writeBytes_buf_pos (len : Int) : 0 < (writeBytes_buf len).buf_size := by
  unfold writeBytes_buf STACK_BUF_SIZE MAX_MALLOC_SIZE
  split_ifs <;> simp only [] <;> omega

theorem writeBytes_buf_le (len : Int) : (writeBytes_buf len).buf_size ≤ 65536 := by
  unfold writeBytes_buf STACK_BUF_SIZE MAX_MALLOC_SIZE
  split_ifs <;> simp only [] <;> omega

/-- The relay in terms of its loop, when the allocation (if any) succeeds. -/
theorem writeBytes_eq_loop (ops : Ops σ) (fuel : Nat) (w : World σ) (off len : Int)
    (append : Bool)
    (hm : (writeBytes_buf len).heap = true → ops.malloc (writeBytes_buf len).buf_size = true) :
    writeBytes ops fuel w off len append =
      (writeLoop ops append (writeBytes_buf len).buf_size fuel ((writeBytes_buf len).enter w)
        off len).map (writeBytes_buf len).leave := by
  unfold writeBytes BufSel.enter BufSel.leave
  by_cases hh : (writeBytes_buf len).heap = true
  · simp only [hh, hm hh, if_true]
    cases writeLoop ops append (writeBytes_buf len).buf_size fuel
      (w.log (Event.malloc (writeBytes_buf len).buf_size true)) off len <;> rfl
  · have hf : (writeBytes_buf len).heap = false := by simpa using hh
    simp [hf]

theorem write_size_eq (len buf_size : Int) :
    (if len < buf_size then len else buf_size) = min len buf_size := by
  split_ifs <;> omega

theorem GetByteArrayRegion_valid (w : World σ) (off n : Int)
    (h : validRange w.bytes.length off n) :
    GetByteArrayRegion w off n = (w.log (Event.GetByteArrayRegion off n), slice w.bytes off n) := by
  simp [GetByteArrayRegion, h, slice]

theorem GetByteArrayRegion_invalid (w : World σ) (off n : Int)
    (h : ¬ validRange w.bytes.length off n) :
    GetByteArrayRegion w off n =
      (throwExc Exc.ArrayIndexOutOfBounds (w.log (Event.GetByteArrayRegion off n)), []) := by
  simp [GetByteArrayRegion, h]

section WriteStep
variable (ops : Ops σ) (append : Bool) (buf_size : Int) (fuel : Nat) (w w1 : World σ)
variable (off len fd : Int) (s1 s2 : σ) (n : Int) (chunk : List Nat)

theorem writeLoop_done (h : ¬ len > 0) :
    writeLoop ops append buf_size (fuel + 1) w off len = some w := by
  simp [writeLoop, h]

theorem writeLoop_bounds (hlen : 0 < len)
    (hg : GetByteArrayRegion w off (min len buf_size) = (w1, chunk)) (hp : w1.pending ≠ none) :
    writeLoop ops append buf_size (fuel + 1) w off len = some (ExceptionClear w1) := by
  have hlen' : len > 0 := hlen
  simp only [writeLoop, hlen', if_true, write_size_eq, hg, hp, if_false]

theorem writeLoop_closed (hlen : 0 < len)
    (hg : GetByteArrayRegion w off (min len buf_size) = (w1, chunk)) (hp : w1.pending = none)
    (hfd : ops.getFD w1.chan = (fd, s1)) (hc : fd = -1) :
    writeLoop ops append buf_size (fuel + 1) w off len =
      some (throwExc Exc.StreamClosed (w1.call s1 (Event.getFD fd))) := by
  have hlen' : len > 0 := hlen
  simp only [writeLoop, hlen', if_true, write_size_eq, hg, hp, hfd, hc]

theorem writeLoop_error (hlen : 0 < len)
    (hg : GetByteArrayRegion w off (min len buf_size) = (w1, chunk)) (hp : w1.pending = none)
    (hfd : ops.getFD w1.chan = (fd, s1)) (hc : fd ≠ -1)
    (hwr : ops.put append fd chunk (min len buf_size) s1 = (n, s2)) (hn : n = -1) :
    writeLoop ops append buf_size (fuel + 1) w off len =
      some (throwExc Exc.WriteError ((w1.call s1 (Event.getFD fd)).call s2
        (putEvent append fd chunk (min len buf_size) n))) := by
  have hlen' : len > 0 := hlen
  unfold Ops.put at hwr
  simp only [writeLoop, hlen', if_true, write_size_eq, hg, hp, hfd, hc, if_false, hwr, hn,
    putEvent]

theorem writeLoop_next (hlen : 0 < len)
    (hg : GetByteArrayRegion w off (min len buf_size) = (w1, chunk)) (hp : w1.pending = none)
    (hfd : ops.getFD w1.chan = (fd, s1)) (hc : fd ≠ -1)
    (hwr : ops.put append fd chunk (min len buf_size) s1 = (n, s2)) (hn : n ≠ -1) :
    writeLoop ops append buf_size (fuel + 1) w off len =
      writeLoop ops append buf_size fuel ((w1.call s1 (Event.getFD fd)).call s2
        (putEvent append fd chunk (min len buf_size) n)) (wrap32 (off + n)) (wrap32 (len - n)) := by
  have hlen' : len > 0 := hlen
  unfold Ops.put at hwr
  simp only [writeLoop, hlen', if_true, write_size_eq, hg, hp, hfd, hc, if_false, hwr, hn,
    putEvent]

end WriteStep

/-- C9 (write error is terminal). In any iteration of the loop of `writeBytes`
(any state `(w, off, len)` with `len ≥ 1`) in which the copy out of the caller's
range succeeds and the resolution gives `fd ≠ -1`, if the single-shot write (or
append) returns `-1`, the loop is left at once: the write `IOError` is pending,
the channel stays in the state the failed call left it in, and the calls of
the iteration are exactly the copy, the resolution, the failed call and the
throw, with nothing after them. -/
theorem writeLoop_error_terminal (ops : Ops σ) (append : Bool) (buf_size : Int) (fuel : Nat)
    (w w1 : World σ) (off len fd : Int) (s1 s2 : σ) (chunk : List Nat)
    (hlen : 1 ≤ len)
    (hg : GetByteArrayRegion w off (min len buf_size) = (w1, chunk)) (hp : w1.pending = none)
    (hfd : ops.getFD w1.chan = (fd, s1)) (hopen : fd ≠ -1)
    (hwr : ops.put append fd chunk (min len buf_size) s1 = (-1, s2)) :
    ∃ w', writeLoop ops append buf_size (fuel + 1) w off len = some w' ∧
      w'.pending = some Exc.WriteError ∧ w'.chan = s2 ∧ w'.bytes = w.bytes ∧
      w'.trace = w.trace ++ [Event.GetByteArrayRegion off (min len buf_size), Event.getFD fd,
        putEvent append fd chunk (min len buf_size) (-1), Event.throw Exc.WriteError] := by
  refine ⟨_, writeLoop_error ops append buf_size fuel w w1 off len fd s1 s2 (-1) chunk
    (by omega) hg hp hfd hopen hwr rfl, rfl, rfl, ?_, ?_⟩
  · by_cases hv : validRange w.bytes.length off (min len buf_size)
    · rw [GetByteArrayRegion_valid w _ _ hv] at hg
      cases hg
      rfl
    · rw [GetByteArrayRegion_invalid w _ _ hv] at hg
      cases hg
      simp [throwExc] at hp
  · by_cases hv : validRange w.bytes.length off (min len buf_size)
    · rw [GetByteArrayRegion_valid w _ _ hv] at hg
      cases hg
      simp [throwExc, World.call, World.log]
    · rw [GetByteArrayRegion_invalid w _ _ hv] at hg
      cases hg
      simp [throwExc] at hp

/-- Witness of C9, the instance of the specification: a `writeBytes` of
`len = 50` whose first single-shot write fails makes exactly one such call. -/
theorem writeLoop_error_terminal_witness :
    ∃ w', writeBytes scriptOps 1 (World.init ⟨[3, 3], [-1, 50]⟩ (List.replicate 50 7)) 0 50 false
        = some w' ∧
      w'.pending = some Exc.WriteError ∧ w'.chan = ⟨[3], [50]⟩ ∧
      w'.bytes = List.replicate 50 7 ∧
      w'.trace = [] ++ [Event.GetByteArrayRegion 0 (min 50 8192), Event.getFD 3,
        putEvent false 3 (List.replicate 50 7) (min 50 8192) (-1),
        Event.throw Exc.WriteError] :=
  writeLoop_error_terminal scriptOps false 8192 0
    (World.init ⟨[3, 3], [-1, 50]⟩ (List.replicate 50 7))
    ((World.init ⟨[3, 3], [-1, 50]⟩ (List.replicate 50 7)).log (Event.GetByteArrayRegion 0 50))
    0 50 3 ⟨[3], [-1, 50]⟩ ⟨[3], [50]⟩ (List.replicate 50 7)
    (by decide) rfl rfl rfl (by decide) rfl

/-- C8 (buffer strategy). For every requested length `L`, `readBytes` and
`writeBytes` select the capacity `8192` on the stack when `L ≤ 8192` and
`min(L, 65536)` on the heap when `L > 8192`; so `L = 8192` takes the fast path,
`L = 8193` takes the large path with capacity `8193`, and the capacity is
positive in every case. The relays allocate exactly on the large path and run
their loops with the selected capacity. -/
theorem buffer_strategy (L : Int) :
    (L ≤ 8192 → readBytes_buf L = ⟨8192, false⟩ ∧ writeBytes_buf L = ⟨8192, false⟩) ∧
    (L > 8192 → readBytes_buf L = ⟨min L 65536, true⟩ ∧
      writeBytes_buf L = ⟨min L 65536, true⟩) ∧
    readBytes_buf 8192 = ⟨8192, false⟩ ∧ writeBytes_buf 8192 = ⟨8192, false⟩ ∧
    readBytes_buf 8193 = ⟨8193, true⟩ ∧ writeBytes_buf 8193 = ⟨8193, true⟩ ∧
    0 < (readBytes_buf L).buf_size ∧ 0 < (writeBytes_buf L).buf_size ∧
    (∀ (τ : Type) (ops : Ops τ) (fuel : Nat) (w : World τ) (off : Int),
      readBytes ops fuel w off L =
        if L ≤ 8192 then readLoop ops L 8192 fuel w off 0
        else if ops.malloc (min L 65536) then
          (readLoop ops L (min L 65536) fuel (w.log (Event.malloc (min L 65536) true)) off 0).map
            fun p => (p.1.log Event.free, p.2)
        else some (throwExc Exc.OutOfMemory (w.log (Event.malloc (min L 65536) false)), 0)) ∧
    (∀ (τ : Type) (ops : Ops τ) (fuel : Nat) (w : World τ) (off : Int) (append : Bool),
      writeBytes ops fuel w off L append =
        if L ≤ 8192 then writeLoop ops append 8192 fuel w off L
        else if ops.malloc (min L 65536) then
          (writeLoop ops append (min L 65536) fuel (w.log (Event.malloc (min L 65536) true))
            off L).map fun w1 => w1.log Event.free
        else some (throwExc Exc.OutOfMemory (w.log (Event.malloc (min L 65536) false)))) := by
  have hr1 : L ≤ 8192 → readBytes_buf L = ⟨8192, false⟩ := by
    intro h
    have : ¬ L > 8192 := by omega
    simp [readBytes_buf, STACK_BUF_SIZE, this]
  have hw1 : L ≤ 8192 → writeBytes_buf L = ⟨8192, false⟩ := by
    intro h
    have : ¬ L > 8192 := by omega
    simp [writeBytes_buf, STACK_BUF_SIZE, this]
  have hm : (if L < 65536 then L else 65536) = min L 65536 := by split_ifs <;> omega
  have hr2 : L > 8192 → readBytes_buf L = ⟨min L 65536, true⟩ := by
    intro h
    simp only [readBytes_buf, STACK_BUF_SIZE, MAX_MALLOC_SIZE, h, if_true, hm]
  have hw2 : L > 8192 → writeBytes_buf L = ⟨min L 65536, true⟩ := by
    intro h
    simp only [writeBytes_buf, STACK_BUF_SIZE, MAX_MALLOC_SIZE, h, if_true, hm]
  refine ⟨fun h => ⟨hr1 h, hw1 h⟩, fun h => ⟨hr2 h, hw2 h⟩, by decide, by decide, by decide,
    by decide, readBytes_buf_pos L, writeBytes_buf_pos L, ?_, ?_⟩
  · intro τ ops fuel w off
    by_cases h : L ≤ 8192
    · simp [readBytes, hr1 h, h]
    · have h' : L > 8192 := by omega
      simp only [readBytes, hr2 h', h, if_true, if_false]
      split_ifs
      · cases readLoop ops L (min L 65536) fuel (w.log (Event.malloc (min L 65536) true)) off 0 <;>
          rfl
      · rfl
  · intro τ ops fuel w off append
    by_cases h : L ≤ 8192
    · simp [writeBytes, hw1 h, h]
    · have h' : L > 8192 := by omega
      simp only [writeBytes, hw2 h', h, if_true, if_false]
      split_ifs
      · cases writeLoop ops append (min L 65536) fuel (w.log (Event.malloc (min L 65536) true))
          off L <;> rfl
      · rfl

/-! ## Traces and slices -/

theorem acceptedBytes_append (t u : List Event) :
    acceptedBytes (t ++ u) = acceptedBytes t ++ acceptedBytes u := by
  induction t with
  | nil => rfl
  | cons e t ih => cases e <;> simp [acceptedBytes, ih]

theorem acceptedBytes_putEvent (append : Bool) (fd : Int) (buf : List Nat) (len n : Int) :
    acceptedBytes [putEvent append fd buf len n] = buf.take n.toNat := by
  cases append <;> simp [putEvent, acceptedBytes]

theorem slice_zero (bytes : List Nat) (off len : Int) (h : len ≤ 0) : slice bytes off len = [] := by
  have : len.toNat = 0 := by omega
  simp [slice, this]

theorem slice_split (bytes : List Nat) (off n ws len : Int) (hoff : 0 ≤ off) (hn : 0 ≤ n)
    (hws : n ≤ ws) (hlen : n ≤ len) :
    (slice bytes off ws).take n.toNat ++ slice bytes (off + n) (len - n) = slice bytes off len := by
  unfold slice
  have h1 : (off + n).toNat = off.toNat + n.toNat := by omega
  have h2 : len.toNat = n.toNat + (len - n).toNat := by omega
  have h3 : min n.toNat ws.toNat = n.toNat := by omega
  rw [List.take_take, h3, h1, ← List.drop_drop, h2, List.take_add]

theorem validRange_chunk {length : Nat} {off len ws : Int} (h : validRange length off len)
    (h0 : 0 ≤ ws) (h1 : ws ≤ len) : validRange length off ws := by
  unfold validRange at *
  omega

/-- The world after one iteration of the write loop that goes on. -/
theorem writeLoop_step_valid (ops : Ops σ) (append : Bool) (buf_size : Int) (fuel : Nat)
    (w : World σ) (off len : Int) (hb : 0 < buf_size) (hlen : 0 < len)
    (hv : validRange w.bytes.length off len) (hp : w.pending = none)
    (hopen : (ops.getFD w.chan).1 ≠ -1)
    (hn : (ops.put append (ops.getFD w.chan).1 (slice w.bytes off (min len buf_size))
      (min len buf_size) (ops.getFD w.chan).2).1 ≠ -1) :
    writeLoop ops append buf_size (fuel + 1) w off len =
      writeLoop ops append buf_size fuel
        { chan := (ops.put append (ops.getFD w.chan).1 (slice w.bytes off (min len buf_size))
            (min len buf_size) (ops.getFD w.chan).2).2
          bytes := w.bytes
          pending := none
          trace := w.trace ++ [Event.GetByteArrayRegion off (min len buf_size),
            Event.getFD (ops.getFD w.chan).1,
            putEvent append (ops.getFD w.chan).1 (slice w.bytes off (min len buf_size))
              (min len buf_size) (ops.put append (ops.getFD w.chan).1
                (slice w.bytes off (min len buf_size)) (min len buf_size) (ops.getFD w.chan).2).1] }
        (wrap32 (off + (ops.put append (ops.getFD w.chan).1 (slice w.bytes off (min len buf_size))
            (min len buf_size) (ops.getFD w.chan).2).1))
        (wrap32 (len - (ops.put append (ops.getFD w.chan).1 (slice w.bytes off (min len buf_size))
            (min len buf_size) (ops.getFD w.chan).2).1)) := by
  have hv' : validRange w.bytes.length off (min len buf_size) :=
    validRange_chunk hv (by omega) (by omega)
  rw [writeLoop_next ops append buf_size fuel w (w.log (Event.GetByteArrayRegion off
    (min len buf_size))) off len (ops.getFD w.chan).1 (ops.getFD w.chan).2
    (ops.put append (ops.getFD w.chan).1 (slice w.bytes off (min len buf_size))
      (min len buf_size) (ops.getFD w.chan).2).2
    (ops.put append (ops.getFD w.chan).1 (slice w.bytes off (min len buf_size))
      (min len buf_size) (ops.getFD w.chan).2).1
    (slice w.bytes off (min len buf_size)) hlen
    (GetByteArrayRegion_valid w off _ hv') hp rfl hopen rfl hn]
  simp [World.call, World.log, hp]

/-- The write loop over a channel that stays open and accepts between one byte
and the whole chunk on every call: it returns, and in total the channel has
accepted exactly the bytes of the range. -/
theorem writeLoop_delivers (ops : Ops σ) (append : Bool) (buf_size : Int) (hb : 0 < buf_size)
    (hopen : ∀ s, (ops.getFD s).1 ≠ -1)
    (hacc : ∀ fd buf sz s, 0 < sz →
      1 ≤ (ops.put append fd buf sz s).1 ∧ (ops.put append fd buf sz s).1 ≤ sz) :
    ∀ (fuel : Nat) (w : World σ) (off len : Int), 0 ≤ len →
      validRange w.bytes.length off len → (w.bytes.length : Int) ≤ JINT_MAX → w.pending = none →
      len.toNat < fuel →
      ∃ w', writeLoop ops append buf_size fuel w off len = some w' ∧ w'.pending = none ∧
        w'.bytes = w.bytes ∧
        acceptedBytes w'.trace = acceptedBytes w.trace ++ slice w.bytes off len := by
  intro fuel
  induction fuel with
  | zero => intro w off len _ _ _ _ h; omega
  | succ fuel ih =>
    intro w off len h0 hv hmax hp hf
    by_cases hlen : 0 < len
    · have hws : 0 < min len buf_size := by omega
      have hn := hacc (ops.getFD w.chan).1 (slice w.bytes off (min len buf_size))
        (min len buf_size) (ops.getFD w.chan).2 hws
      rw [writeLoop_step_valid ops append buf_size fuel w off len hb hlen hv hp (hopen _)
        (by omega)]
      generalize (ops.put append (ops.getFD w.chan).1 (slice w.bytes off (min len buf_size))
        (min len buf_size) (ops.getFD w.chan).2) = r at hn ⊢
      have hv0 := hv
      unfold validRange at hv
      unfold JINT_MAX at hmax
      rw [wrap32_of_range (x := off + r.1) (by omega) (by omega),
        wrap32_of_range (x := len - r.1) (by omega) (by omega)]
      obtain ⟨w', hw', hp', hb', ha'⟩ := ih
        { chan := r.2, bytes := w.bytes, pending := none,
          trace := w.trace ++ [Event.GetByteArrayRegion off (min len buf_size),
            Event.getFD (ops.getFD w.chan).1,
            putEvent append (ops.getFD w.chan).1 (slice w.bytes off (min len buf_size))
              (min len buf_size) r.1] }
        (off + r.1) (len - r.1) (by omega) (by unfold validRange; simp only; omega)
        (by unfold JINT_MAX; simp only; omega) rfl (by omega)
      refine ⟨w', hw', hp', hb', ?_⟩
      rw [ha']
      simp only [acceptedBytes_append]
      rw [show [Event.GetByteArrayRegion off (min len buf_size),
            Event.getFD (ops.getFD w.chan).1,
            putEvent append (ops.getFD w.chan).1 (slice w.bytes off (min len buf_size))
              (min len buf_size) r.1] =
          [Event.GetByteArrayRegion off (min len buf_size), Event.getFD (ops.getFD w.chan).1] ++
            [putEvent append (ops.getFD w.chan).1 (slice w.bytes off (min len buf_size))
              (min len buf_size) r.1] from rfl, acceptedBytes_append, acceptedBytes_putEvent]
      simp only [acceptedBytes, List.nil_append, List.append_assoc]
      rw [slice_split w.bytes off r.1 (min len buf_size) len (by omega) (by omega) (by omega)
        (by omega)]
    · rw [writeLoop_done ops append buf_size fuel w off len (by omega)]
      exact ⟨w, rfl, hp, rfl, by rw [slice_zero _ _ _ (by omega), List.append_nil]⟩

theorem acceptedBytes_enter (sel : BufSel) (w : World σ) :
    acceptedBytes (sel.enter w).trace = acceptedBytes w.trace := by
  unfold BufSel.enter World.log
  split_ifs
  · simp [acceptedBytes_append, acceptedBytes]
  · rfl

theorem acceptedBytes_leave (sel : BufSel) (w : World σ) :
    acceptedBytes (sel.leave w).trace = acceptedBytes w.trace := by
  unfold BufSel.leave World.log
  split_ifs
  · simp [acceptedBytes_append, acceptedBytes]
  · rfl

theorem BufSel.enter_fields (sel : BufSel) (w : World σ) :
    (sel.enter w).chan = w.chan ∧ (sel.enter w).bytes = w.bytes ∧
      (sel.enter w).pending = w.pending := by
  unfold BufSel.enter
  split_ifs <;> exact ⟨rfl, rfl, rfl⟩

theorem BufSel.leave_fields (sel : BufSel) (w : World σ) :
    (sel.leave w).chan = w.chan ∧ (sel.leave w).bytes = w.bytes ∧
      (sel.leave w).pending = w.pending := by
  unfold BufSel.leave
  split_ifs <;> exact ⟨rfl, rfl, rfl⟩

/-- C6 (exactly-once delivery under short writes). For every valid source
sub-range `(off, len)` with `len ≥ 1` of a Java array, and every channel that
stays open and on each single-shot write (or append) of a positive chunk size
accepts a count `n` with `1 ≤ n ≤` chunk size, `writeBytes` returns with no
exception pending, and the bytes accepted over all its single-shot calls (the
first `n` bytes of each chunk), concatenated, are exactly
`source[off .. off+len)`. -/
theorem writeBytes_exactly_once (ops : Ops σ) (fuel : Nat) (w : World σ) (off len : Int)
    (append : Bool)
    (hlen : 1 ≤ len) (hv : validRange w.bytes.length off len)
    (hmax : (w.bytes.length : Int) ≤ JINT_MAX) (hp : w.pending = none)
    (hm : (writeBytes_buf len).heap = true → ops.malloc (writeBytes_buf len).buf_size = true)
    (hopen : ∀ s, (ops.getFD s).1 ≠ -1)
    (hacc : ∀ fd buf sz s, 0 < sz →
      1 ≤ (ops.put append fd buf sz s).1 ∧ (ops.put append fd buf sz s).1 ≤ sz)
    (hfuel : len.toNat < fuel) :
    ∃ w', writeBytes ops fuel w off len append = some w' ∧ w'.pending = none ∧
      acceptedBytes w'.trace = acceptedBytes w.trace ++ slice w.bytes off len := by
  obtain ⟨hc, hb, hpe⟩ := (writeBytes_buf len).enter_fields w
  obtain ⟨w', hw', hp', _, ha'⟩ := writeLoop_delivers ops append (writeBytes_buf len).buf_size
    (writeBytes_buf_pos len) hopen hacc fuel ((writeBytes_buf len).enter w) off len (by omega)
    (by rw [hb]; exact hv) (by rw [hb]; exact hmax) (by rw [hpe]; exact hp) hfuel
  rw [writeBytes_eq_loop ops fuel w off len append hm, hw']
  refine ⟨(writeBytes_buf len).leave w', rfl, ?_, ?_⟩
  · rw [((writeBytes_buf len).leave_fields w').2.2, hp']
  · rw [acceptedBytes_leave, ha', acceptedBytes_enter, hb]

theorem trickleOps_put (append : Bool) (fd : Int) (buf : List Nat) (sz : Int) (q : List Nat)
    (h : 0 < sz) :
    1 ≤ (trickleOps.put append fd buf sz q).1 ∧ (trickleOps.put append fd buf sz q).1 ≤ sz := by
  cases append <;> simp only [Ops.put, trickleOps] <;> (constructor <;> simp; omega)

/-- Witness of C6: 5 bytes written to a channel that accepts 3 bytes at a time. -/
theorem writeBytes_exactly_once_witness :
    ∃ w', writeBytes trickleOps 6 (World.init [] [0, 72, 101, 108, 108, 111, 0]) 1 5 false
        = some w' ∧ w'.pending = none ∧
      acceptedBytes w'.trace = acceptedBytes [] ++ slice [0, 72, 101, 108, 108, 111, 0] 1 5 :=
  writeBytes_exactly_once trickleOps 6 (World.init [] [0, 72, 101, 108, 108, 111, 0]) 1 5 false
    (by decide) (by decide) (by decide) rfl (fun _ => rfl) (fun _ => by simp [trickleOps])
    (trickleOps_put false) (by decide)

theorem writeSizes_append (t u : List Event) :
    writeSizes (t ++ u) = writeSizes t ++ writeSizes u := by
  induction t with
  | nil => rfl
  | cons e t ih => cases e <;> simp [writeSizes, ih]

theorem writeSizes_iteration (append : Bool) (off ws fd fd' : Int) (buf : List Nat) (len n : Int) :
    writeSizes [Event.GetByteArrayRegion off ws, Event.getFD fd', putEvent append fd buf len n]
      = [len] := by
  cases append <;> simp [putEvent, writeSizes]

theorem writeSizes_enter (sel : BufSel) (w : World σ) :
    writeSizes (sel.enter w).trace = writeSizes w.trace := by
  unfold BufSel.enter World.log
  split_ifs
  · simp [writeSizes_append, writeSizes]
  · rfl

theorem writeSizes_leave (sel : BufSel) (w : World σ) :
    writeSizes (sel.leave w).trace = writeSizes w.trace := by
  unfold BufSel.leave World.log
  split_ifs
  · simp [writeSizes_append, writeSizes]
  · rfl

theorem ceil_div_step (len B : Int) (hb : 0 < B) :
    (len + B - 1) / B = (len - 1) / B + 1 := by
  have h : len + B - 1 = (len - 1) + 1 * B := by ring
  rw [h, Int.add_mul_ediv_right _ _ (ne_of_gt hb)]

/-- The write loop over a channel that stays open and accepts every chunk in
full: it returns after `⌈len / buf_size⌉` single-shot calls, whose sizes are
positive, at most `buf_size`, and sum to `len`. -/
theorem writeLoop_chunks (ops : Ops σ) (append : Bool) (buf_size : Int) (hb : 0 < buf_size)
    (hopen : ∀ s, (ops.getFD s).1 ≠ -1)
    (hfull : ∀ fd buf sz s, 0 < sz → (ops.put append fd buf sz s).1 = sz) :
    ∀ (fuel : Nat) (w : World σ) (off len : Int), 0 ≤ len →
      validRange w.bytes.length off len → (w.bytes.length : Int) ≤ JINT_MAX → w.pending = none →
      len.toNat < fuel →
      ∃ w' sizes, writeLoop ops append buf_size fuel w off len = some w' ∧ w'.pending = none ∧
        writeSizes w'.trace = writeSizes w.trace ++ sizes ∧
        (sizes.length : Int) = (len + buf_size - 1) / buf_size ∧
        (∀ x ∈ sizes, 0 < x ∧ x ≤ buf_size) ∧ sizes.sum = len := by
  intro fuel
  induction fuel with
  | zero => intro w off len _ _ _ _ h; omega
  | succ fuel ih =>
    intro w off len h0 hv hmax hp hf
    by_cases hlen : 0 < len
    · have hws : 0 < min len buf_size := by omega
      have hn := hfull (ops.getFD w.chan).1 (slice w.bytes off (min len buf_size))
        (min len buf_size) (ops.getFD w.chan).2 hws
      rw [writeLoop_step_valid ops append buf_size fuel w off len hb hlen hv hp (hopen _)
        (by omega)]
      generalize (ops.put append (ops.getFD w.chan).1 (slice w.bytes off (min len buf_size))
        (min len buf_size) (ops.getFD w.chan).2) = r at hn ⊢
      rw [hn]
      have hv0 := hv
      unfold validRange at hv
      unfold JINT_MAX at hmax
      rw [wrap32_of_range (x := off + min len buf_size) (by omega) (by omega),
        wrap32_of_range (x := len - min len buf_size) (by omega) (by omega)]
      obtain ⟨w', sizes, hw', hp', hs', hl', hx', hsum'⟩ := ih
        { chan := r.2, bytes := w.bytes, pending := none,
          trace := w.trace ++ [Event.GetByteArrayRegion off (min len buf_size),
            Event.getFD (ops.getFD w.chan).1,
            putEvent append (ops.getFD w.chan).1 (slice w.bytes off (min len buf_size))
              (min len buf_size) (min len buf_size)] }
        (off + min len buf_size) (len - min len buf_size) (by omega)
        (by unfold validRange; simp only; omega)
        (by unfold JINT_MAX; simp only; omega) rfl (by omega)
      refine ⟨w', min len buf_size :: sizes, hw', hp', ?_, ?_, ?_, ?_⟩
      · rw [hs']
        simp only [writeSizes_append, writeSizes_iteration, List.append_assoc,
          List.singleton_append]
      · rw [List.length_cons, Nat.cast_add, Nat.cast_one, hl', ceil_div_step len buf_size hb]
        by_cases hbig : buf_size ≤ len
        · rw [min_eq_right hbig, show len - buf_size + buf_size - 1 = len - 1 by omega]
        · have hlt : len < buf_size := by omega
          rw [min_eq_left (le_of_lt hlt), show len - len + buf_size - 1 = buf_size - 1 by omega,
            Int.ediv_eq_zero_of_lt (by omega) (by omega),
            Int.ediv_eq_zero_of_lt (by omega) (by omega)]
      · intro x hx
        rcases List.mem_cons.mp hx with hx | hx
        · subst hx
          omega
        · exact hx' x hx
      · rw [List.sum_cons, hsum']
        omega
    · rw [writeLoop_done ops append buf_size fuel w off len (by omega)]
      have hl0 : len = 0 := by omega
      subst hl0
      refine ⟨w, [], rfl, hp, by simp, ?_, by simp, by simp⟩
      rw [Int.ediv_eq_zero_of_lt (by omega) (by omega)]
      rfl

/-- C7 (write chunking). For every valid source sub-range `(off, len)` with
`len ≥ 1` and every channel that stays open and accepts every single-shot
write (or append) in full, `writeBytes` returns with no exception pending
after exactly `⌈len / B⌉` single-shot calls, where `B` is the selected buffer
capacity; every chunk is at most 65536 bytes and the chunk sizes sum to `len`.
For `len = 100000` that is exactly 2 calls, and for `len = 5` exactly one call
of 5 bytes. -/
theorem writeBytes_chunking (ops : Ops σ) (fuel : Nat) (w : World σ) (off len : Int)
    (append : Bool)
    (hlen : 1 ≤ len) (hv : validRange w.bytes.length off len)
    (hmax : (w.bytes.length : Int) ≤ JINT_MAX) (hp : w.pending = none)
    (hm : (writeBytes_buf len).heap = true → ops.malloc (writeBytes_buf len).buf_size = true)
    (hopen : ∀ s, (ops.getFD s).1 ≠ -1)
    (hfull : ∀ fd buf sz s, 0 < sz → (ops.put append fd buf sz s).1 = sz)
    (hfuel : len.toNat < fuel) :
    ∃ w' sizes, writeBytes ops fuel w off len append = some w' ∧ w'.pending = none ∧
      writeSizes w'.trace = writeSizes w.trace ++ sizes ∧
      (sizes.length : Int) =
        (len + (writeBytes_buf len).buf_size - 1) / (writeBytes_buf len).buf_size ∧
      (∀ x ∈ sizes, 0 < x ∧ x ≤ 65536) ∧ sizes.sum = len ∧
      (len = 100000 → sizes.length = 2) ∧ (len = 5 → sizes = [5]) := by
  obtain ⟨hc, hb, hpe⟩ := (writeBytes_buf len).enter_fields w
  obtain ⟨w', sizes, hw', hp', hs', hl', hx', hsum'⟩ := writeLoop_chunks ops append
    (writeBytes_buf len).buf_size (writeBytes_buf_pos len) hopen hfull fuel
    ((writeBytes_buf len).enter w) off len (by omega)
    (by rw [hb]; exact hv) (by rw [hb]; exact hmax) (by rw [hpe]; exact hp) hfuel
  rw [writeBytes_eq_loop ops fuel w off len append hm, hw']
  refine ⟨(writeBytes_buf len).leave w', sizes, rfl, ?_, ?_, hl', ?_, hsum', ?_, ?_⟩
  · rw [((writeBytes_buf len).leave_fields w').2.2, hp']
  · rw [writeSizes_leave, hs', writeSizes_enter]
  · intro x hx
    have := hx' x hx
    have := writeBytes_buf_le len
    omega
  · intro h
    subst h
    have h2 : (sizes.length : Int) = 2 := by rw [hl']; decide
    exact_mod_cast h2
  · intro h
    subst h
    have h1 : (sizes.length : Int) = 1 := by rw [hl']; decide
    have h1' : sizes.length = 1 := by exact_mod_cast h1
    obtain ⟨x, rfl⟩ := List.length_eq_one.mp h1'
    simp at hsum'
    rw [hsum']

/-- Witness of C7, the instance of the specification: 100000 bytes written to
a byte queue that accepts every write in full. -/
theorem writeBytes_chunking_witness :
    ∃ w' sizes, writeBytes queueOps 100001 (World.init [] (List.replicate 100000 0)) 0 100000
        false = some w' ∧ w'.pending = none ∧
      writeSizes w'.trace = writeSizes [] ++ sizes ∧
      (sizes.length : Int) =
        (100000 + (writeBytes_buf 100000).buf_size - 1) / (writeBytes_buf 100000).buf_size ∧
      (∀ x ∈ sizes, 0 < x ∧ x ≤ 65536) ∧ sizes.sum = 100000 ∧
      ((100000 : Int) = 100000 → sizes.length = 2) ∧ ((100000 : Int) = 5 → sizes = [5]) :=
  writeBytes_chunking queueOps 100001 (World.init [] (List.replicate 100000 0)) 0 100000 false
    (by decide)
    (by
      show validRange (List.replicate 100000 0).length 0 100000
      rw [List.length_replicate]
      decide)
    (by
      show ((List.replicate 100000 0).length : Int) ≤ JINT_MAX
      rw [List.length_replicate]
      decide)
    rfl
    (fun _ => rfl) (fun _ => by simp [queueOps])
    (fun fd buf sz s _ => by simp [Ops.put, queueOps]) (by decide)

/-! ## The byte queue -/

theorem queueOps_put (append : Bool) (fd : Int) (buf : List Nat) (sz : Int) (q : List Nat) :
    queueOps.put append fd buf sz q = (sz, q ++ buf.take sz.toNat) := by
  cases append <;> rfl

theorem slice_length (bytes : List Nat) (off len : Int)
    (h : validRange bytes.length off len) : ((slice bytes off len).length : Int) = len := by
  unfold validRange at h
  unfold slice
  rw [List.length_take, List.length_drop]
  omega

/-- The write loop over a byte queue: it returns and has appended the range to
the queue. -/
theorem writeLoop_queue (append : Bool) (buf_size : Int) (hb : 0 < buf_size) :
    ∀ (fuel : Nat) (w : World (List Nat)) (off len : Int), 0 ≤ len →
      validRange w.bytes.length off len → (w.bytes.length : Int) ≤ JINT_MAX → w.pending = none →
      len.toNat < fuel →
      ∃ w', writeLoop queueOps append buf_size fuel w off len = some w' ∧ w'.pending = none ∧
        w'.bytes = w.bytes ∧ w'.chan = w.chan ++ slice w.bytes off len := by
  intro fuel
  induction fuel with
  | zero => intro w off len _ _ _ _ h; omega
  | succ fuel ih =>
    intro w off len h0 hv hmax hp hf
    by_cases hlen : 0 < len
    · have hws : 0 < min len buf_size := by omega
      rw [writeLoop_step_valid queueOps append buf_size fuel w off len hb hlen hv hp
        (by simp [queueOps]) (by rw [queueOps_put]; simp only; omega)]
      rw [queueOps_put]
      simp only
      have hv0 := hv
      unfold validRange at hv
      unfold JINT_MAX at hmax
      rw [wrap32_of_range (x := off + min len buf_size) (by omega) (by omega),
        wrap32_of_range (x := len - min len buf_size) (by omega) (by omega)]
      obtain ⟨w', hw', hp', hb', hc'⟩ := ih
        { chan := (queueOps.getFD w.chan).2 ++
            (slice w.bytes off (min len buf_size)).take (min len buf_size).toNat,
          bytes := w.bytes, pending := none,
          trace := w.trace ++ [Event.GetByteArrayRegion off (min len buf_size),
            Event.getFD (queueOps.getFD w.chan).1,
            putEvent append (queueOps.getFD w.chan).1 (slice w.bytes off (min len buf_size))
              (min len buf_size) (min len buf_size)] }
        (off + min len buf_size) (len - min len buf_size) (by omega)
        (by unfold validRange; simp only; omega)
        (by unfold JINT_MAX; simp only; omega) rfl (by omega)
      refine ⟨w', hw', hp', hb', ?_⟩
      rw [hc']
      simp only [List.append_assoc]
      rw [slice_split w.bytes off (min len buf_size) (min len buf_size) len (by omega) (by omega)
        (le_refl _) (by omega)]
      rfl
    · rw [writeLoop_done queueOps append buf_size fuel w off len (by omega)]
      exact ⟨w, rfl, hp, rfl, by rw [slice_zero _ _ _ (by omega), List.append_nil]⟩

theorem SetByteArrayRegion_valid (w : World σ) (off n : Int) (buf : List Nat)
    (h : validRange w.bytes.length off n) (hbuf : n.toNat ≤ buf.length) :
    SetByteArrayRegion w off n buf =
      { chan := w.chan
        bytes := w.bytes.take off.toNat ++ buf.take n.toNat ++ w.bytes.drop (off.toNat + n.toNat)
        pending := w.pending
        trace := w.trace ++ [Event.SetByteArrayRegion off n buf] } := by
  have : n.toNat - buf.length = 0 := by omega
  simp [SetByteArrayRegion, h, bufPrefix, this, World.log]

/-- Storing `c` at `bytes[off .. off+|c|)` and then `d` right behind it stores
`c ++ d` at `off`. -/
theorem store_store (bytes c d : List Nat) (o : Nat) (h : o + c.length + d.length ≤ bytes.length) :
    (bytes.take o ++ c ++ bytes.drop (o + c.length)).take (o + c.length) ++ d ++
        (bytes.take o ++ c ++ bytes.drop (o + c.length)).drop (o + c.length + d.length) =
      bytes.take o ++ (c ++ d) ++ bytes.drop (o + (c ++ d).length) := by
  have hl : (bytes.take o ++ c).length = o + c.length := by
    rw [List.length_append, List.length_take]; omega
  rw [List.take_left' hl]
  have hd : (bytes.take o ++ c ++ bytes.drop (o + c.length)).drop (o + c.length + d.length) =
      bytes.drop (o + c.length + d.length) := by
    rw [List.drop_append_eq_append_drop, hl]
    have : List.drop (o + c.length + d.length) (bytes.take o ++ c) = [] :=
      List.drop_eq_nil_of_le (by omega)
    rw [this, List.nil_append, List.drop_drop]
    congr 1
    omega
  rw [hd, List.length_append]
  simp only [List.append_assoc, Nat.add_assoc]

theorem queueOps_read_full (fd sz : Int) (q : List Nat) (h : sz.toNat ≤ q.length)
    (h0 : 0 ≤ sz) :
    queueOps.IO_Read fd sz q = ((sz, q.take sz.toNat), q.drop sz.toNat) := by
  simp only [queueOps, List.length_take]
  congr 2
  omega

/-- The read loop over a byte queue that holds at least the bytes still wanted:
it returns `len`, having stored the head of the queue in the rest of the
destination range. -/
theorem readLoop_queue_fill (len buf_size : Int) (hmax : len ≤ JINT_MAX) (hb : 0 < buf_size) :
    ∀ (fuel : Nat) (w : World (List Nat)) (off nread : Int), 0 ≤ nread → nread ≤ len →
      (len - nread).toNat ≤ w.chan.length →
      validRange w.bytes.length off (len - nread) → (w.bytes.length : Int) ≤ JINT_MAX →
      (len - nread).toNat < fuel →
      ∃ w', readLoop queueOps len buf_size fuel w off nread = some (w', len) ∧
        w'.pending = w.pending ∧
        w'.bytes = w.bytes.take off.toNat ++ w.chan.take (len - nread).toNat ++
          w.bytes.drop (off.toNat + (w.chan.take (len - nread).toNat).length) ∧
        w'.chan = w.chan.drop (len - nread).toNat := by
  intro fuel
  induction fuel with
  | zero => intro w off nread _ _ _ _ _ h; omega
  | succ fuel ih =>
    intro w off nread h0 h1 hq hv hbmax hf
    by_cases hlt : nread < len
    · have hrs : 0 < min (len - nread) buf_size := by omega
      have hrd := queueOps_read_full 3 (min (len - nread) buf_size) w.chan (by omega) (by omega)
      rw [readLoop_full queueOps len buf_size fuel w off nread 3 w.chan _ _ _ hmax h0 hlt rfl
        (by decide) hrd hrs (lt_irrefl _)]
      have hv0 := hv
      unfold validRange at hv
      unfold JINT_MAX at hmax hbmax
      have hclen : (w.chan.take (min (len - nread) buf_size).toNat).length =
          (min (len - nread) buf_size).toNat := by
        rw [List.length_take]; omega
      rw [SetByteArrayRegion_valid _ _ _ _ (by unfold validRange; simp only [World.call]; omega)
        (by omega)]
      rw [wrap32_of_range (x := off + min (len - nread) buf_size) (by omega) (by omega),
        wrap32_of_range (x := nread + min (len - nread) buf_size) (by omega) (by omega)]
      simp only [World.call]
      generalize hc : w.chan.take (min (len - nread) buf_size).toNat = c at hclen ⊢
      have hcc : c.take (min (len - nread) buf_size).toNat = c := by
        rw [← hclen]; exact List.take_length c
      rw [hcc]
      obtain ⟨w', hw', hp', hb', hc'⟩ := ih
        { chan := w.chan.drop (min (len - nread) buf_size).toNat,
          bytes := w.bytes.take off.toNat ++ c ++
            w.bytes.drop (off.toNat + (min (len - nread) buf_size).toNat),
          pending := w.pending,
          trace := w.trace ++ [Event.getFD 3] ++
            [Event.IO_Read 3 (min (len - nread) buf_size) (min (len - nread) buf_size)] ++
            [Event.SetByteArrayRegion off (min (len - nread) buf_size) c] }
        (off + min (len - nread) buf_size) (nread + min (len - nread) buf_size)
        (by omega) (by omega)
        (by simp only [List.length_drop]; omega)
        (by
          unfold validRange
          simp only [List.length_append, List.length_take, List.length_drop]
          omega)
        (by
          unfold JINT_MAX
          simp only [List.length_append, List.length_take, List.length_drop]
          omega)
        (by omega)
      refine ⟨w', hw', hp', ?_, ?_⟩
      · rw [hb']
        simp only
        have e1 : (off + min (len - nread) buf_size).toNat = off.toNat + c.length := by omega
        have e2 : off.toNat + (min (len - nread) buf_size).toNat = off.toNat + c.length := by
          omega
        have e3 : (len - (nread + min (len - nread) buf_size)).toNat =
            (len - nread).toNat - c.length := by omega
        have hsplit : w.chan.take (len - nread).toNat =
            c ++ (w.chan.drop (min (len - nread) buf_size).toNat).take
              ((len - nread).toNat - c.length) := by
          calc w.chan.take (len - nread).toNat
              = w.chan.take ((min (len - nread) buf_size).toNat +
                  ((len - nread).toNat - c.length)) := by
                congr 1
                omega
            _ = w.chan.take (min (len - nread) buf_size).toNat ++
                  (w.chan.drop (min (len - nread) buf_size).toNat).take
                    ((len - nread).toNat - c.length) := List.take_add _ _ _
            _ = c ++ (w.chan.drop (min (len - nread) buf_size).toNat).take
                  ((len - nread).toNat - c.length) := by rw [hc]
        rw [e1, e2, e3, hsplit]
        generalize hd : (w.chan.drop (min (len - nread) buf_size).toNat).take
          ((len - nread).toNat - c.length) = d
        have hdlen : d.length = (len - nread).toNat - c.length := by
          rw [← hd, List.length_take, List.length_drop]; omega
        have := store_store w.bytes c d off.toNat (by omega)
        rw [← this]
      · rw [hc', List.drop_drop]
        congr 1
        omega
    · rw [readLoop_done queueOps len buf_size fuel w off nread hlt]
      have hz : (len - nread).toNat = 0 := by omega
      have hl : nread = len := by omega
      subst hl
      refine ⟨w, rfl, rfl, ?_, ?_⟩
      · simp [hz]
      · simp [hz]

theorem slice_store (bytes s : List Nat) (off len : Int) (h : validRange bytes.length off len)
    (hs : s.length = len.toNat) :
    slice (bytes.take off.toNat ++ s ++ bytes.drop (off.toNat + s.length)) off len = s := by
  unfold validRange at h
  unfold slice
  have hl : (bytes.take off.toNat).length = off.toNat := by
    rw [List.length_take]; omega
  rw [List.append_assoc, List.drop_left' hl, ← hs, List.take_left' rfl]

/-- C5 (write-then-read round trip). Over a channel that is an initially empty
byte queue (every single-shot write is accepted in full, every single-shot
read is served with `min(requested, available)` bytes), for every source
array, valid source sub-range `(off, len)` with `len ≥ 1` and valid
destination sub-range `(doff, len)`: `writeBytes` returns with no exception
pending, the following `readBytes` with the same `len` returns `len` with no
exception pending, and the destination range then equals the source range
byte for byte. -/
theorem write_then_read_round_trip (src dst : List Nat) (off doff len : Int) (append : Bool)
    (fuel : Nat)
    (hlen : 1 ≤ len) (hsrc : validRange src.length off len)
    (hdst : validRange dst.length doff len)
    (hsmax : (src.length : Int) ≤ JINT_MAX) (hdmax : (dst.length : Int) ≤ JINT_MAX)
    (hfuel : len.toNat < fuel) :
    ∃ w1 w2, writeBytes queueOps fuel (World.init [] src) off len append = some w1 ∧
      w1.pending = none ∧
      readBytes queueOps fuel (World.init w1.chan dst) doff len = some (w2, len) ∧
      w2.pending = none ∧ slice w2.bytes doff len = slice src off len := by
  have hlmax : len ≤ JINT_MAX := by
    unfold validRange at hsrc
    omega
  -- the write
  obtain ⟨hc, hb, hpe⟩ := (writeBytes_buf len).enter_fields (World.init ([] : List Nat) src)
  obtain ⟨w', hw', hp', _, hc'⟩ := writeLoop_queue append (writeBytes_buf len).buf_size
    (writeBytes_buf_pos len) fuel ((writeBytes_buf len).enter (World.init [] src)) off len
    (by omega) (by rw [hb]; exact hsrc) (by rw [hb]; exact hsmax) (by rw [hpe]; rfl) hfuel
  rw [hc, hb] at hc'
  have hchan : ((writeBytes_buf len).leave w').chan = slice src off len := by
    rw [((writeBytes_buf len).leave_fields w').1, hc']
    rfl
  have hslen := slice_length src off len hsrc
  -- the read
  obtain ⟨rc, rb, rpe⟩ := (readBytes_buf len).enter_fields
    (World.init ((writeBytes_buf len).leave w').chan dst)
  obtain ⟨w2, hw2, hp2, hb2, _⟩ := readLoop_queue_fill len (readBytes_buf len).buf_size hlmax
    (readBytes_buf_pos len) fuel
    ((readBytes_buf len).enter (World.init ((writeBytes_buf len).leave w').chan dst)) doff 0
    (le_refl 0) (by omega)
    (by rw [rc]; simp only [World.init, hchan, sub_zero]; omega)
    (by rw [rb, sub_zero]; exact hdst) (by rw [rb]; exact hdmax) (by simpa using hfuel)
  refine ⟨(writeBytes_buf len).leave w', (readBytes_buf len).leave w2, ?_, ?_, ?_, ?_, ?_⟩
  · rw [writeBytes_eq_loop queueOps fuel _ off len append (fun _ => rfl), hw']
    rfl
  · rw [((writeBytes_buf len).leave_fields w').2.2, hp']
  · rw [readBytes_eq_loop queueOps fuel _ doff len (fun _ => rfl), hw2]
    rfl
  · rw [((readBytes_buf len).leave_fields w2).2.2, hp2, rpe]
    rfl
  · rw [((readBytes_buf len).leave_fields w2).2.1, hb2, rc, rb]
    simp only [World.init, hchan, sub_zero]
    have ht : (slice src off len).take len.toNat = slice src off len := by
      apply List.take_of_length_le
      omega
    rw [ht]
    exact slice_store dst _ doff len hdst (by omega)

/-- Witness of C5, the scenario of the specification: the 5 bytes
`[72, 101, 108, 108, 111]` written and read back. -/
theorem write_then_read_round_trip_witness :
    ∃ w1 w2, writeBytes queueOps 6 (World.init [] [72, 101, 108, 108, 111]) 0 5 false = some w1 ∧
      w1.pending = none ∧
      readBytes queueOps 6 (World.init w1.chan [0, 0, 0, 0, 0]) 0 5 = some (w2, 5) ∧
      w2.pending = none ∧
      slice w2.bytes 0 5 = slice [72, 101, 108, 108, 111] 0 5 :=
  write_then_read_round_trip [72, 101, 108, 108, 111] [0, 0, 0, 0, 0] 0 0 5 false 6
    (by decide) (by decide) (by decide) (by decide) (by decide) (by decide)

theorem channelCalls_enter (sel : BufSel) (w : World σ) :
    channelCalls (sel.enter w).trace = channelCalls w.trace := by
  unfold BufSel.enter World.log
  split_ifs
  · simp [channelCalls]
  · rfl

theorem channelCalls_leave (sel : BufSel) (w : World σ) :
    channelCalls (sel.leave w).trace = channelCalls w.trace := by
  unfold BufSel.leave World.log
  split_ifs
  · simp [channelCalls]
  · rfl

theorem readBytes_20000_aux (arr : List Nat) (harr : arr.length = 20000) :
    (readBytes scriptOps 2 (World.init ⟨[3], [20000]⟩ arr) 0 20000).map
        (fun p => (p.2, p.1.pending, channelCalls p.1.trace)) =
      some (20000, none, [Event.getFD 3, Event.IO_Read 3 20000 20000]) ∧
    (readBytes scriptOps 2 (World.init ⟨[3], [8192]⟩ arr) 0 20000).map
        (fun p => (p.2, p.1.pending, channelCalls p.1.trace)) =
      some (8192, none, [Event.getFD 3, Event.IO_Read 3 20000 8192]) := by
  have hsel : readBytes_buf 20000 = ⟨20000, true⟩ := by decide
  have hv : ∀ n : Int, 0 ≤ n → n ≤ 20000 → validRange arr.length 0 n := by
    intro n h0 h1
    unfold validRange
    omega
  constructor
  · have h1 := readLoop_full scriptOps 20000 20000 1
      ((⟨20000, true⟩ : BufSel).enter (World.init ⟨[3], [20000]⟩ arr)) 0 0 3
      ⟨[], [20000]⟩ ⟨[], []⟩ 20000 (List.replicate (20000 : Int).toNat 65)
      (by decide) (by decide) (by decide) rfl (by decide) rfl (by decide) (by decide)
    have h2 := readLoop_done scriptOps 20000 20000 0
      (SetByteArrayRegion ((((⟨20000, true⟩ : BufSel).enter
        (World.init ⟨[3], [20000]⟩ arr)).call ⟨[], [20000]⟩
        (Event.getFD 3)).call ⟨[], []⟩ (Event.IO_Read 3 (min (20000 - 0) 20000) 20000)) 0 20000
        (List.replicate (20000 : Int).toNat 65)) (wrap32 (0 + 20000)) (wrap32 (0 + 20000))
      (by decide)
    rw [readBytes_eq_loop scriptOps 2 _ 0 20000 (fun _ => rfl), hsel, h1, h2]
    rw [SetByteArrayRegion_valid _ _ _ _ (hv 20000 (by decide) (by decide))
      (le_of_eq (List.length_replicate _ _).symm)]
    simp only [Option.map_some', BufSel.leave, BufSel.enter, World.log, if_true,
      channelCalls_append, World.call, World.init]
    rfl
  · have h1 := readLoop_short scriptOps 20000 20000 1
      ((⟨20000, true⟩ : BufSel).enter (World.init ⟨[3], [8192]⟩ arr)) 0 0 3
      ⟨[], [8192]⟩ ⟨[], []⟩ 8192 (List.replicate (8192 : Int).toNat 65)
      (by decide) (by decide) (by decide) rfl (by decide) rfl (by decide) (by decide)
    rw [readBytes_eq_loop scriptOps 2 _ 0 20000 (fun _ => rfl), hsel, h1]
    rw [SetByteArrayRegion_valid _ _ _ _ (hv 8192 (by decide) (by decide))
      (le_of_eq (List.length_replicate _ _).symm)]
    simp only [Option.map_some', BufSel.leave, BufSel.enter, World.log, if_true,
      channelCalls_append, World.call, World.init]
    rfl

/-- C11, as stated, fails: a read of length 20000 is one chunk of 20000 bytes.
Over a channel that resolves once and reports closed ever after, the read
whose single-shot read delivers 20000 bytes returns 20000, and the read whose
single-shot read delivers 8192 bytes returns 8192; in both the channel is
resolved once, and no `ClosedStream` is raised. -/
theorem readBytes_20000_is_one_chunk :
    (readBytes scriptOps 2 (World.init ⟨[3], [20000]⟩ (List.replicate 20000 0)) 0 20000).map
        (fun p => (p.2, p.1.pending, channelCalls p.1.trace)) =
      some (20000, none, [Event.getFD 3, Event.IO_Read 3 20000 20000]) ∧
    (readBytes scriptOps 2 (World.init ⟨[3], [8192]⟩ (List.replicate 20000 0)) 0 20000).map
        (fun p => (p.2, p.1.pending, channelCalls p.1.trace)) =
      some (8192, none, [Event.getFD 3, Event.IO_Read 3 20000 8192]) :=
  readBytes_20000_aux (List.replicate 20000 0) (List.length_replicate _ _)

/-- C11, amended. A read proceeds in more than one chunk only when
`len > 65536` (for `len = 20000` the selected capacity is 20000). In such a
read, when the channel resolves for chunk 1, the single-shot read delivers the
full 65536 bytes, and the resolution for chunk 2 reports closed, `readBytes`
raises `ClosedStream` and returns the sentinel `-1`, not the chunk-1 count;
the calls to the channel are the two resolutions and the one read. -/
theorem readBytes_closed_mid_transfer (ops : Ops σ) (fuel : Nat) (w : World σ) (off len fd : Int)
    (s1 s2 s3 : σ) (buf : List Nat)
    (hlen : 65536 < len) (hmax : len ≤ JINT_MAX) (hm : ops.malloc 65536 = true)
    (hfd : ops.getFD w.chan = (fd, s1)) (hopen : fd ≠ -1)
    (hrd : ops.IO_Read fd 65536 s1 = ((65536, buf), s2))
    (hcl : ops.getFD s2 = (-1, s3)) :
    ∃ w', readBytes ops (fuel + 2) w off len = some (w', -1) ∧
      w'.pending = some Exc.StreamClosed ∧ w'.chan = s3 ∧
      channelCalls w'.trace = channelCalls w.trace ++
        [Event.getFD fd, Event.IO_Read fd 65536 65536, Event.getFD (-1)] ∧
      (readBytes_buf 20000).buf_size = 20000 := by
  have hsel : readBytes_buf len = ⟨65536, true⟩ := by
    have h1 : len > 8192 := by omega
    have h2 : ¬ len < 65536 := by omega
    simp [readBytes_buf, STACK_BUF_SIZE, MAX_MALLOC_SIZE, h1, h2]
  have hmin : min (len - 0) 65536 = 65536 := by omega
  have h1 := readLoop_full ops len 65536 (fuel + 1) ((⟨65536, true⟩ : BufSel).enter w) off 0 fd
    s1 s2 65536 buf hmax (le_refl 0) (by omega) hfd hopen (by rw [hmin]; exact hrd) (by decide)
    (by omega)
  rw [hmin, show wrap32 (0 + 65536) = 65536 by decide] at h1
  have h2 := readLoop_closed ops len 65536 fuel
    (SetByteArrayRegion ((((⟨65536, true⟩ : BufSel).enter w).call s1 (Event.getFD fd)).call s2
      (Event.IO_Read fd 65536 65536)) off 65536 buf) (wrap32 (off + 65536)) 65536 (-1) s3
    (by omega) (by rw [SetByteArrayRegion_chan]; exact hcl) rfl
  rw [readBytes_eq_loop ops _ w off len (by rw [hsel]; exact fun _ => hm), hsel, h1, h2]
  refine ⟨_, rfl, ?_, ?_, ?_, by decide⟩
  · rfl
  · rfl
  · simp only [BufSel.leave, BufSel.enter, World.log, throwExc, if_true, channelCalls_append,
      SetByteArrayRegion_channelCalls, World.call]
    simp [channelCalls]

/-- Witness of C11 amended: a read of 70000 bytes from a channel that resolves
once, delivers 65536 bytes, and is closed at the second resolution. -/
theorem readBytes_closed_mid_transfer_witness :
    ∃ w', readBytes scriptOps 2 (World.init ⟨[3], [65536]⟩ (List.replicate 70000 0)) 0 70000
        = some (w', -1) ∧
      w'.pending = some Exc.StreamClosed ∧ w'.chan = ⟨[], []⟩ ∧
      channelCalls w'.trace = channelCalls [] ++
        [Event.getFD 3, Event.IO_Read 3 65536 65536, Event.getFD (-1)] ∧
      (readBytes_buf 20000).buf_size = 20000 :=
  readBytes_closed_mid_transfer scriptOps 0
    (World.init ⟨[3], [65536]⟩ (List.replicate 70000 0)) 0 70000 3
    ⟨[], [65536]⟩ ⟨[], []⟩ ⟨[], []⟩ (List.replicate (65536 : Int).toNat 65)
    (by decide) (by decide) rfl rfl (by decide) rfl rfl

/-- C12 (range-bounds failure in the write path is a silent stop). In any
iteration of the loop of `writeBytes` (any state `(w, off, len)` with
`len ≥ 1`), if the copy of the chunk out of the caller's range fails, the loop
is left at once with no exception pending: the calls of the iteration are the
failed copy, its `ArrayIndexOutOfBounds` and `ExceptionClear`, with no
resolution and no single-shot write; the channel is in the state the earlier
iterations left it in, and the bytes it accepted before stay accepted. -/
theorem writeLoop_bounds_failure_silent (ops : Ops σ) (append : Bool) (buf_size : Int)
    (fuel : Nat) (w : World σ) (off len : Int)
    (hlen : 1 ≤ len) (hbad : ¬ validRange w.bytes.length off (min len buf_size)) :
    ∃ w', writeLoop ops append buf_size (fuel + 1) w off len = some w' ∧
      w'.pending = none ∧ w'.chan = w.chan ∧ w'.bytes = w.bytes ∧
      w'.trace = w.trace ++ [Event.GetByteArrayRegion off (min len buf_size),
        Event.throw Exc.ArrayIndexOutOfBounds, Event.ExceptionClear] ∧
      channelCalls w'.trace = channelCalls w.trace ∧
      acceptedBytes w'.trace = acceptedBytes w.trace := by
  have h := writeLoop_bounds ops append buf_size fuel w _ off len _ (by omega)
    (GetByteArrayRegion_invalid w off (min len buf_size) hbad) (by simp [throwExc])
  refine ⟨_, h, rfl, rfl, rfl, ?_, ?_, ?_⟩
  · simp [ExceptionClear, throwExc, World.log]
  · simp [ExceptionClear, throwExc, World.log, channelCalls]
  · simp [ExceptionClear, throwExc, World.log, acceptedBytes_append, acceptedBytes]

/-- Witness of C12: a `writeBytes` of 5 bytes from an array of 3. -/
theorem writeLoop_bounds_failure_silent_witness :
    ∃ w', writeBytes scriptOps 1 (World.init ⟨[3], []⟩ [1, 2, 3]) 0 5 false = some w' ∧
      w'.pending = none ∧ w'.chan = ⟨[3], []⟩ ∧ w'.bytes = [1, 2, 3] ∧
      w'.trace = [] ++ [Event.GetByteArrayRegion 0 (min 5 8192),
        Event.throw Exc.ArrayIndexOutOfBounds, Event.ExceptionClear] ∧
      channelCalls w'.trace = channelCalls [] ∧
      acceptedBytes w'.trace = acceptedBytes [] :=
  writeLoop_bounds_failure_silent scriptOps false 8192 0 (World.init ⟨[3], []⟩ [1, 2, 3]) 0 5
    (by decide) (by decide)

/-! ## Relations kept by every step of a loop -/

/-- A relation between worlds that is reflexive, transitive and holds across
every primitive step of the read loop holds between the world before the loop
and the world after it. -/
theorem readLoop_rel (ops : Ops σ) (len buf_size : Int) (R : World σ → World σ → Prop)
    (hrefl : ∀ w, R w w) (htrans : ∀ a b c, R a b → R b c → R a c)
    (hcall : ∀ w s fd, R w (w.call s (Event.getFD fd)))
    (hrd : ∀ w s fd sz n, R w (w.call s (Event.IO_Read fd sz n)))
    (hset : ∀ w off n buf, R w (SetByteArrayRegion w off n buf))
    (hclosed : ∀ w, R w (throwExc Exc.StreamClosed w))
    (herr : ∀ w, R w (throwExc Exc.ReadError w)) :
    ∀ (fuel : Nat) (w : World σ) (off nread : Int) (w' : World σ) (r : Int),
      readLoop ops len buf_size fuel w off nread = some (w', r) → R w w' := by
  intro fuel
  induction fuel with
  | zero => intro w off nread w' r h; simp [readLoop] at h
  | succ fuel ih =>
    intro w off nread w' r h
    simp only [readLoop] at h
    have h2 := fun sz n => htrans _ _ _ (hcall w (ops.getFD w.chan).2 (ops.getFD w.chan).1)
      (hrd (w.call (ops.getFD w.chan).2 (Event.getFD (ops.getFD w.chan).1))
        (ops.IO_Read (ops.getFD w.chan).1 sz (ops.getFD w.chan).2).2 (ops.getFD w.chan).1 sz n)
    split_ifs at h
    all_goals first
      | (simp only [Option.some.injEq, Prod.mk.injEq] at h
         obtain ⟨h, -⟩ := h
         subst h
         first
           | exact hrefl _
           | exact htrans _ _ _ (hcall _ _ _) (hclosed _)
           | exact htrans _ _ _ (h2 _ _) (hset _ _ _ _)
           | exact htrans _ _ _ (h2 _ _) (herr _)
           | exact h2 _ _)
      | exact htrans _ _ _ (htrans _ _ _ (h2 _ _) (hset _ _ _ _)) (ih _ _ _ _ _ h)

/-- The same for the write loop. -/
theorem writeLoop_rel (ops : Ops σ) (append : Bool) (buf_size : Int)
    (R : World σ → World σ → Prop)
    (hrefl : ∀ w, R w w) (htrans : ∀ a b c, R a b → R b c → R a c)
    (hget : ∀ w off n, R w (GetByteArrayRegion w off n).1)
    (hcall : ∀ w s fd, R w (w.call s (Event.getFD fd)))
    (hput : ∀ w s fd buf sz n, R w (w.call s (putEvent append fd buf sz n)))
    (hclosed : ∀ w, R w (throwExc Exc.StreamClosed w))
    (herr : ∀ w, R w (throwExc Exc.WriteError w))
    (hclear : ∀ w, R w (ExceptionClear w)) :
    ∀ (fuel : Nat) (w : World σ) (off len : Int) (w' : World σ),
      writeLoop ops append buf_size fuel w off len = some w' → R w w' := by
  have hp := fun (w : World σ) s fd buf sz n => hput w s fd buf sz n
  intro fuel
  induction fuel with
  | zero => intro w off len w' h; simp [writeLoop] at h
  | succ fuel ih =>
    intro w off len w' h
    simp only [writeLoop] at h
    cases append
    all_goals
      simp only [putEvent, Bool.false_eq_true, if_false, if_true] at hp h
      split_ifs at h
      all_goals first
        | (simp only [Option.some.injEq] at h
           subst h
           first
             | exact hrefl _
             | exact htrans _ _ _ (hget _ _ _) (hclear _)
             | exact htrans _ _ _ (htrans _ _ _ (hget _ _ _) (hcall _ _ _)) (hclosed _)
             | exact htrans _ _ _ (htrans _ _ _ (htrans _ _ _ (hget _ _ _) (hcall _ _ _))
                 (hp _ _ _ _ _ _)) (herr _))
        | exact htrans _ _ _ (htrans _ _ _ (htrans _ _ _ (hget _ _ _) (hcall _ _ _))
                 (hp _ _ _ _ _ _)) (ih _ _ _ _ h)

theorem allocEvents_append (t u : List Event) :
    allocEvents (t ++ u) = allocEvents t ++ allocEvents u := by
  simp [allocEvents]

theorem readLoop_allocEvents (ops : Ops σ) (len buf_size : Int) (fuel : Nat) (w : World σ)
    (off nread : Int) (w' : World σ) (r : Int)
    (h : readLoop ops len buf_size fuel w off nread = some (w', r)) :
    allocEvents w'.trace = allocEvents w.trace := by
  refine readLoop_rel ops len buf_size (fun a b => allocEvents b.trace = allocEvents a.trace)
    (fun _ => rfl) (fun a b c h1 h2 => h2.trans h1) ?_ ?_ ?_ ?_ ?_ fuel w off nread w' r h
  · intro w s fd; simp [World.call, allocEvents]
  · intro w s fd sz n; simp [World.call, allocEvents]
  · intro w off n buf
    unfold SetByteArrayRegion
    split_ifs <;> simp [World.log, throwExc, allocEvents]
  · intro w; simp [throwExc, allocEvents]
  · intro w; simp [throwExc, allocEvents]

theorem writeLoop_allocEvents (ops : Ops σ) (append : Bool) (buf_size : Int) (fuel : Nat)
    (w : World σ) (off len : Int) (w' : World σ)
    (h : writeLoop ops append buf_size fuel w off len = some w') :
    allocEvents w'.trace = allocEvents w.trace := by
  refine writeLoop_rel ops append buf_size (fun a b => allocEvents b.trace = allocEvents a.trace)
    (fun _ => rfl) (fun a b c h1 h2 => h2.trans h1) ?_ ?_ ?_ ?_ ?_ ?_ fuel w off len w' h
  · intro w off n
    unfold GetByteArrayRegion
    split_ifs <;> simp [World.log, throwExc, allocEvents]
  · intro w s fd; simp [World.call, allocEvents]
  · intro w s fd buf sz n; cases append <;> simp [World.call, allocEvents, putEvent]
  · intro w; simp [throwExc, allocEvents]
  · intro w; simp [throwExc, allocEvents]
  · intro w; simp [ExceptionClear, allocEvents]

/-- C14 (allocation failure aborts before I/O). For every `len > 8192`, if the
allocation of the buffer of `min(len, 65536)` bytes fails, `readBytes` raises
`OutOfMemory` and returns 0, and `writeBytes` raises `OutOfMemory` and returns;
in both the only calls are the failed `malloc` and the throw, so the channel
and the caller's array are untouched. For `len ≤ 8192` no run of either relay
calls `malloc` or throws `OutOfMemory`. -/
theorem alloc_failure_aborts_before_io (ops : Ops σ) (fuel : Nat) (w : World σ) (off len : Int)
    (append : Bool) :
    (8192 < len → ops.malloc (min len 65536) = false →
      (∃ w', readBytes ops fuel w off len = some (w', 0) ∧
        w'.pending = some Exc.OutOfMemory ∧ w'.chan = w.chan ∧ w'.bytes = w.bytes ∧
        w'.trace = w.trace ++
          [Event.malloc (min len 65536) false, Event.throw Exc.OutOfMemory]) ∧
      (∃ w', writeBytes ops fuel w off len append = some w' ∧
        w'.pending = some Exc.OutOfMemory ∧ w'.chan = w.chan ∧ w'.bytes = w.bytes ∧
        w'.trace = w.trace ++
          [Event.malloc (min len 65536) false, Event.throw Exc.OutOfMemory])) ∧
    (len ≤ 8192 →
      (∀ w' r, readBytes ops fuel w off len = some (w', r) →
        allocEvents w'.trace = allocEvents w.trace) ∧
      (∀ w', writeBytes ops fuel w off len append = some w' →
        allocEvents w'.trace = allocEvents w.trace)) := by
  have hm : (if len < 65536 then len else 65536) = min len 65536 := by split_ifs <;> omega
  constructor
  · intro hlen hfail
    have hgt : len > 8192 := hlen
    constructor
    · refine ⟨throwExc Exc.OutOfMemory (w.log (Event.malloc (min len 65536) false)), ?_, rfl, rfl,
        rfl, ?_⟩
      · simp [readBytes, readBytes_buf, STACK_BUF_SIZE, MAX_MALLOC_SIZE, hgt, hm, hfail]
      · simp [throwExc, World.log]
    · refine ⟨throwExc Exc.OutOfMemory (w.log (Event.malloc (min len 65536) false)), ?_, rfl, rfl,
        rfl, ?_⟩
      · simp [writeBytes, writeBytes_buf, STACK_BUF_SIZE, MAX_MALLOC_SIZE, hgt, hm, hfail]
      · simp [throwExc, World.log]
  · intro hlen
    have hng : ¬ len > 8192 := by omega
    constructor
    · intro w' r h
      have h' : readLoop ops len 8192 fuel w off 0 = some (w', r) := by
        simpa [readBytes, readBytes_buf, STACK_BUF_SIZE, hng] using h
      exact readLoop_allocEvents ops len 8192 fuel w off 0 w' r h'
    · intro w' h
      have h' : writeLoop ops append 8192 fuel w off len = some w' := by
        simpa [writeBytes, writeBytes_buf, STACK_BUF_SIZE, hng] using h
      exact writeLoop_allocEvents ops append 8192 fuel w off len w' h'

/-- Witness of C14: a read and a write of 10000 bytes when `malloc` fails. -/
theorem alloc_failure_aborts_before_io_witness :
    (∃ w', readBytes oomOps 0 (World.init ⟨[3], []⟩ (List.replicate 10000 0)) 0 10000
        = some (w', 0) ∧
      w'.pending = some Exc.OutOfMemory ∧ w'.chan = ⟨[3], []⟩ ∧
      w'.bytes = List.replicate 10000 0 ∧
      w'.trace = [] ++ [Event.malloc (min 10000 65536) false, Event.throw Exc.OutOfMemory]) ∧
    (∃ w', writeBytes oomOps 0 (World.init ⟨[3], []⟩ (List.replicate 10000 0)) 0 10000 false
        = some w' ∧
      w'.pending = some Exc.OutOfMemory ∧ w'.chan = ⟨[3], []⟩ ∧
      w'.bytes = List.replicate 10000 0 ∧
      w'.trace = [] ++ [Event.malloc (min 10000 65536) false, Event.throw Exc.OutOfMemory]) :=
  (alloc_failure_aborts_before_io oomOps 0 (World.init ⟨[3], []⟩ (List.replicate 10000 0)) 0
    10000 false).1 (by decide) rfl

/-- C20 (`readSingle` result range). For every channel behaviour `readSingle`
returns a value in `-1..255`. It returns `-1` when the resolution reports
closed (`ClosedStream` is raised and no read is issued) and when the
single-shot read returns 0 (EOF, the pending exception is left as it was).
When the single-shot read delivers one byte `b` it returns `b & 0xFF`, a value
in `0..255`, so a delivered byte `0xFF` yields 255, not the sentinel `-1`. -/
theorem readSingle_result_range (ops : Ops σ) (w : World σ) :
    (-1 ≤ (readSingle ops w).2 ∧ (readSingle ops w).2 ≤ 255) ∧
    (∀ s1, ops.getFD w.chan = (-1, s1) →
      readSingle ops w = (throwExc Exc.StreamClosed (w.call s1 (Event.getFD (-1))), -1) ∧
      (readSingle ops w).1.pending = some Exc.StreamClosed ∧
      (readSingle ops w).1.trace = w.trace ++ [Event.getFD (-1), Event.throw Exc.StreamClosed]) ∧
    (∀ fd s1 s2 buf, ops.getFD w.chan = (fd, s1) → fd ≠ -1 →
      ops.IO_Read fd 1 s1 = ((0, buf), s2) →
      (readSingle ops w).2 = -1 ∧ (readSingle ops w).1.pending = w.pending ∧
      (readSingle ops w).1.trace = w.trace ++ [Event.getFD fd, Event.IO_Read fd 1 0]) ∧
    (∀ fd s1 s2 b, ops.getFD w.chan = (fd, s1) → fd ≠ -1 →
      ops.IO_Read fd 1 s1 = ((1, [b]), s2) →
      (readSingle ops w).2 = ((b % 256 : Nat) : Int) ∧
      0 ≤ (readSingle ops w).2 ∧ (readSingle ops w).2 ≤ 255 ∧
      (readSingle ops w).1.pending = w.pending ∧
      (b = 255 → (readSingle ops w).2 = 255)) := by
  refine ⟨?_, ?_, ?_, ?_⟩
  · unfold readSingle
    simp only
    split_ifs <;> simp only [] <;> omega
  · intro s1 hfd
    simp [readSingle, hfd, throwExc, World.call]
  · intro fd s1 s2 buf hfd hopen hrd
    simp [readSingle, hfd, hopen, hrd, World.call]
  · intro fd s1 s2 b hfd hopen hrd
    have hval : (readSingle ops w).2 = ((b % 256 : Nat) : Int) := by
      simp [readSingle, hfd, hopen, hrd]
    have hpen : (readSingle ops w).1.pending = w.pending := by
      simp [readSingle, hfd, hopen, hrd, World.call]
    refine ⟨hval, ?_, ?_, hpen, ?_⟩
    · rw [hval]; omega
    · rw [hval]; omega
    · intro hb
      rw [hval, hb]
      rfl

section WriteSingleStep
variable (ops : Ops σ) (w : World σ) (byte : Int) (append : Bool)
variable (fd : Int) (s1 s2 : σ) (n : Int)

theorem writeSingle_closed (hfd : ops.getFD w.chan = (fd, s1)) (hc : fd = -1) :
    writeSingle ops w byte append = throwExc Exc.StreamClosed (w.call s1 (Event.getFD fd)) := by
  simp [writeSingle, hfd, hc]

theorem writeSingle_error (hfd : ops.getFD w.chan = (fd, s1)) (hc : fd ≠ -1)
    (hwr : ops.put append fd [(byte % 256).toNat] 1 s1 = (n, s2)) (hn : n = -1) :
    writeSingle ops w byte append =
      throwExc Exc.WriteError ((w.call s1 (Event.getFD fd)).call s2
        (putEvent append fd [(byte % 256).toNat] 1 n)) := by
  unfold Ops.put at hwr
  simp only [writeSingle, hfd, hc, if_false, hwr, hn, putEvent, if_true]

theorem writeSingle_ok (hfd : ops.getFD w.chan = (fd, s1)) (hc : fd ≠ -1)
    (hwr : ops.put append fd [(byte % 256).toNat] 1 s1 = (n, s2)) (hn : n ≠ -1) :
    writeSingle ops w byte append =
      (w.call s1 (Event.getFD fd)).call s2 (putEvent append fd [(byte % 256).toNat] 1 n) := by
  unfold Ops.put at hwr
  simp only [writeSingle, hfd, hc, if_false, hwr, hn, putEvent]

end WriteSingleStep

theorem channelCalls_putEvent (append : Bool) (fd : Int) (buf : List Nat) (len n : Int) :
    channelCalls [putEvent append fd buf len n] = [putEvent append fd buf len n] := by
  cases append <;> simp [putEvent, channelCalls]

theorem channelCalls_getFD (fd : Int) : channelCalls [Event.getFD fd] = [Event.getFD fd] := by
  simp [channelCalls]

/-- C16 (`writeSingle` is the 1-byte case of the write relay). For every
`byte`, append flag and channel whose single-shot write of that byte returns
1 or `-1`, started with no exception pending, `writeBytes` on the one-element
array holding the low 8 bits of `byte`, with `off = 0` and `len = 1`, returns
and has made the same calls to the channel as `writeSingle(byte, append)`: one
resolution and, unless it reported closed, one call of the same primitive
with the same one byte, the low 8 bits of `byte`. Both leave the same
exception pending and the channel in the same state. -/
theorem writeSingle_is_writeBytes_of_one (ops : Ops σ) (w : World σ) (byte : Int)
    (append : Bool) (fd : Int) (s1 s2 : σ) (n : Int)
    (hp : w.pending = none)
    (hfd : ops.getFD w.chan = (fd, s1))
    (hwr : ops.put append fd [(byte % 256).toNat] 1 s1 = (n, s2))
    (hn : n = 1 ∨ n = -1) :
    ∃ w', writeBytes ops 2 { w with bytes := [(byte % 256).toNat] } 0 1 append = some w' ∧
      channelCalls w'.trace = channelCalls (writeSingle ops w byte append).trace ∧
      w'.pending = (writeSingle ops w byte append).pending ∧
      w'.chan = (writeSingle ops w byte append).chan ∧
      channelCalls (writeSingle ops w byte append).trace = channelCalls w.trace ++
        (Event.getFD fd ::
          if fd = -1 then [] else [putEvent append fd [(byte % 256).toNat] 1 n]) := by
  have hsel : writeBytes_buf 1 = ⟨8192, false⟩ := by decide
  have hg : GetByteArrayRegion { w with bytes := [(byte % 256).toNat] } 0 (min 1 8192) =
      (({ w with bytes := [(byte % 256).toNat] } : World σ).log
        (Event.GetByteArrayRegion 0 (min 1 8192)), [(byte % 256).toNat]) := by
    rw [GetByteArrayRegion_valid _ _ _ (by show validRange 1 0 (min 1 8192); decide)]
    rfl
  have hen : (⟨8192, false⟩ : BufSel).enter ({ w with bytes := [(byte % 256).toNat] } : World σ)
      = { w with bytes := [(byte % 256).toNat] } := rfl
  rw [writeBytes_eq_loop ops 2 _ 0 1 append (by rw [hsel]; intro h; cases h), hsel, hen]
  by_cases hc : fd = -1
  · rw [writeLoop_closed ops append 8192 1 _ _ 0 1 fd s1 _ (by decide) hg hp hfd hc,
      writeSingle_closed ops w byte append fd s1 hfd hc]
    refine ⟨_, rfl, ?_, rfl, rfl, ?_⟩
    · simp [BufSel.leave, throwExc, World.call, World.log, channelCalls]
    · simp [hc, throwExc, World.call, channelCalls]
  · rcases hn with h1 | h1
    · rw [writeLoop_next ops append 8192 1 _ _ 0 1 fd s1 s2 n _ (by decide) hg hp hfd hc hwr
          (by rw [h1]; decide),
        writeSingle_ok ops w byte append fd s1 s2 n hfd hc hwr (by rw [h1]; decide)]
      subst h1
      rw [show wrap32 (1 - 1) = 0 by decide, writeLoop_done ops append 8192 0 _ _ 0 (by decide)]
      refine ⟨_, rfl, ?_, ?_, rfl, ?_⟩
      · cases append <;>
          simp [BufSel.leave, World.call, World.log, channelCalls, putEvent]
      · simp [BufSel.leave, World.call, World.log, hp]
      · cases append <;> simp [hc, World.call, channelCalls, putEvent]
    · rw [writeLoop_error ops append 8192 1 _ _ 0 1 fd s1 s2 n _ (by decide) hg hp hfd hc hwr h1,
        writeSingle_error ops w byte append fd s1 s2 n hfd hc hwr h1]
      refine ⟨_, rfl, ?_, rfl, rfl, ?_⟩
      · cases append <;>
          simp [BufSel.leave, throwExc, World.call, World.log, channelCalls, putEvent]
      · cases append <;> simp [hc, throwExc, World.call, channelCalls, putEvent]

/-- Witness of C16: the `jint` 0x141 written to a byte queue as the byte 0x41. -/
theorem writeSingle_is_writeBytes_of_one_witness :
    ∃ w', writeBytes queueOps 2 { World.init [] [] with bytes := [((321 : Int) % 256).toNat] }
        0 1 false = some w' ∧
      channelCalls w'.trace = channelCalls (writeSingle queueOps (World.init [] []) 321 false).trace ∧
      w'.pending = (writeSingle queueOps (World.init [] []) 321 false).pending ∧
      w'.chan = (writeSingle queueOps (World.init [] []) 321 false).chan ∧
      channelCalls (writeSingle queueOps (World.init [] []) 321 false).trace = channelCalls [] ++
        (Event.getFD 3 ::
          if (3 : Int) = -1 then [] else [putEvent false 3 [((321 : Int) % 256).toNat] 1 1]) :=
  writeSingle_is_writeBytes_of_one queueOps (World.init [] []) 321 false 3 [] [65] 1 rfl rfl rfl
    (Or.inl rfl)

/-- C13, as stated, fails: over a channel that is closed at the first
resolution, `readBytes` returns `-1` although no single-shot read was issued
at all. -/
theorem readBytes_negative_when_closed :
    (readBytes scriptOps 1 (World.init ⟨[], []⟩ (List.replicate 10 0)) 0 10).map
        (fun p => (p.2, p.1.pending, channelCalls p.1.trace)) =
      some (-1, some Exc.StreamClosed, [Event.getFD (-1)]) := by
  decide

/-- When and how the read loop returns a negative value, for a channel whose
reads return `-1`, `0` or a count not above the size asked. -/
theorem readLoop_sign (ops : Ops σ) (len buf_size : Int) (hmax : len ≤ JINT_MAX)
    (hb : 0 < buf_size)
    (hread : ∀ fd sz s, 0 < sz → -1 ≤ (ops.IO_Read fd sz s).1.1 ∧ (ops.IO_Read fd sz s).1.1 ≤ sz) :
    ∀ (fuel : Nat) (w : World σ) (off nread : Int), 0 ≤ nread → nread ≤ len →
      (len - nread).toNat < fuel →
      ∃ w' r, readLoop ops len buf_size fuel w off nread = some (w', r) ∧
        (0 ≤ r ∨ (r = -1 ∧
          ((w'.pending = some Exc.StreamClosed ∧
              ∃ t, channelCalls w'.trace = t ++ [Event.getFD (-1)]) ∨
            (nread = 0 ∧ ∃ fd sz, fd ≠ -1 ∧
              channelCalls w'.trace = channelCalls w.trace ++
                [Event.getFD fd, Event.IO_Read fd sz 0])))) := by
  intro fuel
  induction fuel with
  | zero => intro w off nread _ _ h; omega
  | succ fuel ih =>
    intro w off nread h0 h1 hf
    by_cases hlt : nread < len
    · rcases hfd : ops.getFD w.chan with ⟨fd, s1⟩
      by_cases hc : fd = -1
      · refine ⟨_, _, readLoop_closed ops len buf_size fuel w off nread fd s1 hlt hfd hc,
          Or.inr ⟨rfl, Or.inl ⟨rfl, channelCalls w.trace, ?_⟩⟩⟩
        subst hc
        simp [throwExc, World.call, channelCalls]
      · rcases hrd : ops.IO_Read fd (min (len - nread) buf_size) s1 with ⟨⟨n, buf⟩, s2⟩
        have hn : -1 ≤ n ∧ n ≤ min (len - nread) buf_size := by
          have := hread fd (min (len - nread) buf_size) s1 (by omega)
          rwa [hrd] at this
        by_cases hpos : 0 < n
        · by_cases hs : n < min (len - nread) buf_size
          · exact ⟨_, _, readLoop_short ops len buf_size fuel w off nread fd s1 s2 n buf hmax h0
              hlt hfd hc hrd hpos hs, Or.inl (by omega)⟩
          · rw [readLoop_full ops len buf_size fuel w off nread fd s1 s2 n buf hmax h0 hlt hfd hc
              hrd hpos hs]
            have hw : wrap32 (nread + n) = nread + n := by
              unfold JINT_MAX at hmax
              exact wrap32_of_range (by omega) (by omega)
            rw [hw]
            obtain ⟨w', r, hw', hr⟩ := ih
              (SetByteArrayRegion ((w.call s1 (Event.getFD fd)).call s2
                (Event.IO_Read fd (min (len - nread) buf_size) n)) off n buf)
              (wrap32 (off + n)) (nread + n) (by omega) (by omega) (by omega)
            refine ⟨w', r, hw', ?_⟩
            rcases hr with hr | ⟨hr, hcl | ⟨hz, -⟩⟩
            · exact Or.inl hr
            · exact Or.inr ⟨hr, Or.inl hcl⟩
            · omega
        · by_cases he : n = -1
          · exact ⟨_, _, readLoop_error ops len buf_size fuel w off nread fd s1 s2 n buf hmax h0
              hlt hfd hc hrd he, Or.inl h0⟩
          · have hn0 : n = 0 := by omega
            subst hn0
            refine ⟨_, _, readLoop_eof ops len buf_size fuel w off nread fd s1 s2 0 buf hmax h0
              hlt hfd hc hrd (le_refl 0) he, ?_⟩
            by_cases hz : nread = 0
            · rw [if_pos hz]
              refine Or.inr ⟨rfl, Or.inr ⟨hz, fd, min (len - nread) buf_size, hc, ?_⟩⟩
              simp [World.call, channelCalls]
            · rw [if_neg hz]
              exact Or.inl h0
    · exact ⟨_, _, readLoop_done ops len buf_size fuel w off nread hlt, Or.inl h0⟩

/-- C13, amended. For every `len ≥ 1` and every channel whose single-shot read
returns `-1`, `0` or a count not above the size asked, `readBytes` returns,
and the value it returns is negative only as the sentinel `-1`, in two cases:
a resolution reported closed (`ClosedStream` is pending and that resolution is
the last call to the channel), or the first single-shot read of the call
returned 0 (EOF) before any byte was transferred and is the only read. -/
theorem readBytes_result_sign (ops : Ops σ) (fuel : Nat) (w : World σ) (off len : Int)
    (hlen : 1 ≤ len) (hmax : len ≤ JINT_MAX)
    (hread : ∀ fd sz s, 0 < sz → -1 ≤ (ops.IO_Read fd sz s).1.1 ∧ (ops.IO_Read fd sz s).1.1 ≤ sz)
    (hfuel : len.toNat < fuel) :
    ∃ w' r, readBytes ops fuel w off len = some (w', r) ∧
      (0 ≤ r ∨ (r = -1 ∧
        ((w'.pending = some Exc.StreamClosed ∧
            ∃ t, channelCalls w'.trace = t ++ [Event.getFD (-1)]) ∨
          (∃ fd sz, fd ≠ -1 ∧
            channelCalls w'.trace = channelCalls w.trace ++
              [Event.getFD fd, Event.IO_Read fd sz 0])))) := by
  by_cases hm : (readBytes_buf len).heap = true → ops.malloc (readBytes_buf len).buf_size = true
  · obtain ⟨w', r, hw', hr⟩ := readLoop_sign ops len (readBytes_buf len).buf_size hmax
      (readBytes_buf_pos len) hread fuel ((readBytes_buf len).enter w) off 0 (le_refl 0)
      (by omega) (by simpa using hfuel)
    rw [readBytes_eq_loop ops fuel w off len hm, hw']
    refine ⟨(readBytes_buf len).leave w', r, rfl, ?_⟩
    rcases hr with hr | ⟨hr, ⟨hp, t, ht⟩ | ⟨-, fd, sz, hfd, ht⟩⟩
    · exact Or.inl hr
    · refine Or.inr ⟨hr, Or.inl ⟨?_, t, ?_⟩⟩
      · rw [((readBytes_buf len).leave_fields w').2.2, hp]
      · rw [channelCalls_leave, ht]
    · refine Or.inr ⟨hr, Or.inr ⟨fd, sz, hfd, ?_⟩⟩
      rw [channelCalls_leave, ht, channelCalls_enter]
  · have hh : (readBytes_buf len).heap = true := by
      by_contra hh
      exact hm (fun h => absurd h hh)
    have hf : ¬ ops.malloc (readBytes_buf len).buf_size = true := fun h => hm (fun _ => h)
    refine ⟨throwExc Exc.OutOfMemory
      (w.log (Event.malloc (readBytes_buf len).buf_size false)), 0, ?_, Or.inl (le_refl 0)⟩
    have hf' : ops.malloc (readBytes_buf len).buf_size = false := by simpa using hf
    simp [readBytes, hh, hf']

/-- Witness of C13 amended: a read of 10 bytes from an empty byte queue, which
returns `-1` because its first read returned 0. -/
theorem readBytes_result_sign_witness :
    ∃ w' r, readBytes queueOps 11 (World.init [] (List.replicate 10 0)) 0 10 = some (w', r) ∧
      (0 ≤ r ∨ (r = -1 ∧
        ((w'.pending = some Exc.StreamClosed ∧
            ∃ t, channelCalls w'.trace = t ++ [Event.getFD (-1)]) ∨
          (∃ fd sz, fd ≠ -1 ∧
            channelCalls w'.trace = channelCalls [] ++
              [Event.getFD fd, Event.IO_Read fd sz 0])))) :=
  readBytes_result_sign queueOps 11 (World.init [] (List.replicate 10 0)) 0 10 (by decide)
    (by decide)
    (fun fd sz s h => by
      simp only [queueOps, List.length_take]
      omega)
    (by decide)

theorem SetByteArrayRegion_pending (w : World σ) (off n : Int) (buf : List Nat)
    (h : w.pending ≠ some Exc.StreamClosed) :
    (SetByteArrayRegion w off n buf).pending ≠ some Exc.StreamClosed := by
  unfold SetByteArrayRegion
  split_ifs
  · exact h
  · simp [throwExc]

/-- Inversion of one round of the read loop: how a result can come about. -/
theorem readLoop_inv (ops : Ops σ) (len buf_size : Int) (fuel : Nat) (w : World σ)
    (off nread : Int) (w' : World σ) (r : Int)
    (h : readLoop ops len buf_size (fuel + 1) w off nread = some (w', r)) :
    (¬ nread < len ∧ w' = w ∧ r = nread) ∨
    (nread < len ∧ (ops.getFD w.chan).1 = -1 ∧
      w' = throwExc Exc.StreamClosed
        (w.call (ops.getFD w.chan).2 (Event.getFD (ops.getFD w.chan).1)) ∧ r = -1) ∨
    (nread < len ∧ (ops.getFD w.chan).1 ≠ -1 ∧
      ∃ rs n buf s2,
        rs = (if wrap32 (len - nread) > buf_size then buf_size else wrap32 (len - nread)) ∧
        ops.IO_Read (ops.getFD w.chan).1 rs (ops.getFD w.chan).2 = ((n, buf), s2) ∧
        ((0 < n ∧ n < rs ∧ r = wrap32 (nread + n) ∧
            w' = SetByteArrayRegion ((w.call (ops.getFD w.chan).2
              (Event.getFD (ops.getFD w.chan).1)).call s2
              (Event.IO_Read (ops.getFD w.chan).1 rs n)) off n buf) ∨
          (0 < n ∧ ¬ n < rs ∧
            readLoop ops len buf_size fuel
              (SetByteArrayRegion ((w.call (ops.getFD w.chan).2
                (Event.getFD (ops.getFD w.chan).1)).call s2
                (Event.IO_Read (ops.getFD w.chan).1 rs n)) off n buf)
              (wrap32 (off + n)) (wrap32 (nread + n)) = some (w', r)) ∨
          (n = -1 ∧ r = nread ∧
            w' = throwExc Exc.ReadError ((w.call (ops.getFD w.chan).2
              (Event.getFD (ops.getFD w.chan).1)).call s2
              (Event.IO_Read (ops.getFD w.chan).1 rs n))) ∨
          (¬ 0 < n ∧ n ≠ -1 ∧ r = (if nread = 0 then -1 else nread) ∧
            w' = (w.call (ops.getFD w.chan).2
              (Event.getFD (ops.getFD w.chan).1)).call s2
              (Event.IO_Read (ops.getFD w.chan).1 rs n)))) := by
  simp only [readLoop] at h
  generalize (if wrap32 (len - nread) > buf_size then buf_size else wrap32 (len - nread)) = rs
    at h ⊢
  by_cases hlt : nread < len
  · simp only [hlt, if_true] at h
    by_cases hc : (ops.getFD w.chan).1 = -1
    · simp only [hc, if_true, Option.some.injEq, Prod.mk.injEq] at h
      refine Or.inr (Or.inl ⟨hlt, hc, ?_, h.2.symm⟩)
      rw [← h.1, hc]
    · simp only [hc, if_false] at h
      refine Or.inr (Or.inr ⟨hlt, hc, rs, _, _, _, rfl, rfl, ?_⟩)
      by_cases hn : (ops.IO_Read (ops.getFD w.chan).1 rs (ops.getFD w.chan).2).1.1 > 0
      · simp only [hn, if_true] at h
        by_cases hs : (ops.IO_Read (ops.getFD w.chan).1 rs (ops.getFD w.chan).2).1.1 < rs
        · simp only [hs, if_true, Option.some.injEq, Prod.mk.injEq] at h
          exact Or.inl ⟨hn, hs, h.2.symm, h.1.symm⟩
        · simp only [hs, if_false] at h
          exact Or.inr (Or.inl ⟨hn, hs, h⟩)
      · simp only [hn, if_false] at h
        by_cases he : (ops.IO_Read (ops.getFD w.chan).1 rs (ops.getFD w.chan).2).1.1 = -1
        · simp only [he, if_true, Option.some.injEq, Prod.mk.injEq] at h
          refine Or.inr (Or.inr (Or.inl ⟨he, h.2.symm, ?_⟩))
          rw [← h.1, he]
        · simp only [he, if_false, Option.some.injEq, Prod.mk.injEq] at h
          exact Or.inr (Or.inr (Or.inr ⟨hn, he, h.2.symm, h.1.symm⟩))
  · simp only [hlt, if_false, Option.some.injEq, Prod.mk.injEq] at h
    exact Or.inl ⟨hlt, h.1.symm, h.2.symm⟩

/-- Inversion of one round of the write loop: how a result can come about. -/
theorem writeLoop_inv (ops : Ops σ) (append : Bool) (buf_size : Int) (fuel : Nat) (w : World σ)
    (off len : Int) (w' : World σ)
    (h : writeLoop ops append buf_size (fuel + 1) w off len = some w') :
    (¬ 0 < len ∧ w' = w) ∨
    (0 < len ∧ (GetByteArrayRegion w off (min len buf_size)).1.pending ≠ none ∧
      w' = ExceptionClear (GetByteArrayRegion w off (min len buf_size)).1) ∨
    (0 < len ∧ (GetByteArrayRegion w off (min len buf_size)).1.pending = none ∧
      ∃ fd s1, ops.getFD (GetByteArrayRegion w off (min len buf_size)).1.chan = (fd, s1) ∧
        ((fd = -1 ∧ w' = throwExc Exc.StreamClosed
            ((GetByteArrayRegion w off (min len buf_size)).1.call s1 (Event.getFD fd))) ∨
          (fd ≠ -1 ∧ ∃ n s2,
            ops.put append fd (GetByteArrayRegion w off (min len buf_size)).2
              (min len buf_size) s1 = (n, s2) ∧
            ((n = -1 ∧ w' = throwExc Exc.WriteError
                (((GetByteArrayRegion w off (min len buf_size)).1.call s1 (Event.getFD fd)).call s2
                  (putEvent append fd (GetByteArrayRegion w off (min len buf_size)).2
                    (min len buf_size) n))) ∨
              (n ≠ -1 ∧ writeLoop ops append buf_size fuel
                (((GetByteArrayRegion w off (min len buf_size)).1.call s1 (Event.getFD fd)).call s2
                  (putEvent append fd (GetByteArrayRegion w off (min len buf_size)).2
                    (min len buf_size) n))
                (wrap32 (off + n)) (wrap32 (len - n)) = some w'))))) := by
  by_cases hlen : 0 < len
  · rcases hg : GetByteArrayRegion w off (min len buf_size) with ⟨w1, chunk⟩
    by_cases hp : w1.pending = none
    · rcases hfd : ops.getFD w1.chan with ⟨fd, s1⟩
      refine Or.inr (Or.inr ⟨hlen, hp, fd, s1, rfl, ?_⟩)
      by_cases hc : fd = -1
      · rw [writeLoop_closed ops append buf_size fuel w w1 off len fd s1 chunk hlen hg hp hfd hc]
          at h
        exact Or.inl ⟨hc, (Option.some.inj h).symm⟩
      · rcases hwr : ops.put append fd chunk (min len buf_size) s1 with ⟨n, s2⟩
        refine Or.inr ⟨hc, n, s2, rfl, ?_⟩
        by_cases hn : n = -1
        · rw [writeLoop_error ops append buf_size fuel w w1 off len fd s1 s2 n chunk hlen hg hp
            hfd hc hwr hn] at h
          exact Or.inl ⟨hn, (Option.some.inj h).symm⟩
        · rw [writeLoop_next ops append buf_size fuel w w1 off len fd s1 s2 n chunk hlen hg hp
            hfd hc hwr hn] at h
          exact Or.inr ⟨hn, h⟩
    · rw [writeLoop_bounds ops append buf_size fuel w w1 off len chunk hlen hg hp] at h
      exact Or.inr (Or.inl ⟨hlen, hp, (Option.some.inj h).symm⟩)
  · rw [writeLoop_done ops append buf_size fuel w off len hlen] at h
    exact Or.inl ⟨hlen, (Option.some.inj h).symm⟩

theorem GetByteArrayRegion_channelCalls (w : World σ) (off n : Int) :
    channelCalls (GetByteArrayRegion w off n).1.trace = channelCalls w.trace := by
  unfold GetByteArrayRegion
  split_ifs <;> simp [channelCalls, throwExc, World.log]

theorem freshPairs_pair_read (fd sz n : Int) (cs : List Event) (hc : fd ≠ -1)
    (h : freshPairs cs = true) :
    freshPairs (Event.getFD fd :: Event.IO_Read fd sz n :: cs) = true := by
  simp [freshPairs, hc, h]

theorem freshPairs_pair_put (append : Bool) (fd : Int) (buf : List Nat) (sz n : Int)
    (cs : List Event) (hc : fd ≠ -1) (h : freshPairs cs = true) :
    freshPairs (Event.getFD fd :: putEvent append fd buf sz n :: cs) = true := by
  cases append <;> simp [freshPairs, putEvent, hc, h]

theorem tally_pair_read (fd sz n : Int) (cs : List Event) :
    resolutions (Event.getFD fd :: Event.IO_Read fd sz n :: cs) = resolutions cs + 1 ∧
    singleShots (Event.getFD fd :: Event.IO_Read fd sz n :: cs) = singleShots cs + 1 := by
  simp [resolutions, singleShots]

theorem tally_pair_put (append : Bool) (fd : Int) (buf : List Nat) (sz n : Int)
    (cs : List Event) :
    resolutions (Event.getFD fd :: putEvent append fd buf sz n :: cs) = resolutions cs + 1 ∧
    singleShots (Event.getFD fd :: putEvent append fd buf sz n :: cs) = singleShots cs + 1 := by
  cases append <;> simp [resolutions, singleShots, putEvent]

/-- The calls to the channel made by the read loop come in fresh pairs. -/
theorem readLoop_fresh (ops : Ops σ) (len buf_size : Int) :
    ∀ (fuel : Nat) (w : World σ) (off nread : Int) (w' : World σ) (r : Int),
      readLoop ops len buf_size fuel w off nread = some (w', r) →
      w.pending ≠ some Exc.StreamClosed →
      ∃ cs, channelCalls w'.trace = channelCalls w.trace ++ cs ∧ freshPairs cs = true ∧
        resolutions cs = singleShots cs + (if w'.pending = some Exc.StreamClosed then 1 else 0) ∧
        (Event.getFD (-1) ∈ cs → w'.pending = some Exc.StreamClosed) := by
  intro fuel
  induction fuel with
  | zero => intro w off nread w' r h; simp [readLoop] at h
  | succ fuel ih =>
    intro w off nread w' r h hp
    rcases readLoop_inv ops len buf_size fuel w off nread w' r h with
      ⟨-, hw, -⟩ | ⟨-, hc, hw, -⟩ | ⟨-, hc, rs, n, buf, s2, -, -, hcase⟩
    · subst hw
      exact ⟨[], by simp, rfl, by simp [resolutions, singleShots, hp], by simp⟩
    · subst hw
      refine ⟨[Event.getFD (ops.getFD w.chan).1], ?_, ?_, ?_, fun _ => rfl⟩
      · simp [throwExc, World.call, channelCalls]
      · simp [freshPairs, hc]
      · simp [resolutions, singleShots, throwExc]
    · have hp2 : ((w.call (ops.getFD w.chan).2 (Event.getFD (ops.getFD w.chan).1)).call s2
          (Event.IO_Read (ops.getFD w.chan).1 rs n)).pending ≠ some Exc.StreamClosed := hp
      have hcc : channelCalls ((w.call (ops.getFD w.chan).2
          (Event.getFD (ops.getFD w.chan).1)).call s2
          (Event.IO_Read (ops.getFD w.chan).1 rs n)).trace =
          channelCalls w.trace ++
            [Event.getFD (ops.getFD w.chan).1, Event.IO_Read (ops.getFD w.chan).1 rs n] := by
        simp [World.call, channelCalls]
      have hone : resolutions [Event.getFD (ops.getFD w.chan).1,
            Event.IO_Read (ops.getFD w.chan).1 rs n] =
          singleShots [Event.getFD (ops.getFD w.chan).1,
            Event.IO_Read (ops.getFD w.chan).1 rs n] + 0 := by
        simp [resolutions, singleShots]
      have hfr := freshPairs_pair_read (ops.getFD w.chan).1 rs n [] hc rfl
      have hmem : ∀ cs : List Event, Event.getFD (-1) ∈
          Event.getFD (ops.getFD w.chan).1 :: Event.IO_Read (ops.getFD w.chan).1 rs n :: cs →
          Event.getFD (-1) ∈ cs := by
        intro cs hm
        rcases List.mem_cons.mp hm with hm | hm
        · exact absurd (Event.getFD.inj hm).symm hc
        · rcases List.mem_cons.mp hm with hm | hm
          · cases hm
          · exact hm
      have hnil : ∀ p : Prop, Event.getFD (-1) ∈
          [Event.getFD (ops.getFD w.chan).1, Event.IO_Read (ops.getFD w.chan).1 rs n] → p := by
        intro p hm
        have := hmem [] hm
        simp at this
      rcases hcase with ⟨-, -, -, hw⟩ | ⟨-, -, hrec⟩ | ⟨-, -, hw⟩ | ⟨-, -, -, hw⟩
      · subst hw
        refine ⟨_, by rw [SetByteArrayRegion_channelCalls, hcc], hfr, ?_, hnil _⟩
        rw [if_neg (SetByteArrayRegion_pending _ _ _ _ hp2)]
        exact hone
      · obtain ⟨cs, h1, h2, h3, h4⟩ := ih _ _ _ _ _ hrec
          (SetByteArrayRegion_pending _ _ _ _ hp2)
        refine ⟨Event.getFD (ops.getFD w.chan).1 :: Event.IO_Read (ops.getFD w.chan).1 rs n :: cs,
          ?_, freshPairs_pair_read _ _ _ _ hc h2, ?_, fun hm => h4 (hmem cs hm)⟩
        · rw [h1, SetByteArrayRegion_channelCalls, hcc]
          simp
        · rw [(tally_pair_read _ _ _ _).1, (tally_pair_read _ _ _ _).2, h3]
          omega
      · subst hw
        refine ⟨_, ?_, hfr, ?_, hnil _⟩
        · simp [throwExc, World.call, channelCalls]
        · simp [throwExc, resolutions, singleShots]
      · subst hw
        refine ⟨_, hcc, hfr, ?_, hnil _⟩
        rw [if_neg hp2]
        exact hone

/-- The calls to the channel made by the write loop come in fresh pairs. -/
theorem writeLoop_fresh (ops : Ops σ) (append : Bool) (buf_size : Int) :
    ∀ (fuel : Nat) (w : World σ) (off len : Int) (w' : World σ),
      writeLoop ops append buf_size fuel w off len = some w' →
      w.pending ≠ some Exc.StreamClosed →
      ∃ cs, channelCalls w'.trace = channelCalls w.trace ++ cs ∧ freshPairs cs = true ∧
        resolutions cs = singleShots cs + (if w'.pending = some Exc.StreamClosed then 1 else 0) ∧
        (Event.getFD (-1) ∈ cs → w'.pending = some Exc.StreamClosed) := by
  intro fuel
  induction fuel with
  | zero => intro w off len w' h; simp [writeLoop] at h
  | succ fuel ih =>
    intro w off len w' h hp
    rcases writeLoop_inv ops append buf_size fuel w off len w' h with
      ⟨-, hw⟩ | ⟨-, -, hw⟩ | ⟨-, hpn, fd, s1, hfd, hcase⟩
    · subst hw
      exact ⟨[], by simp, rfl, by simp [resolutions, singleShots, hp], by simp⟩
    · subst hw
      refine ⟨[], ?_, rfl, by simp [resolutions, singleShots, ExceptionClear], by simp⟩
      rw [List.append_nil, ← GetByteArrayRegion_channelCalls w off (min len buf_size)]
      simp [ExceptionClear, channelCalls]
    · rcases hcase with ⟨hc, hw⟩ | ⟨hc, n, s2, hwr, hcase⟩
      · subst hw
        refine ⟨[Event.getFD fd], ?_, ?_, ?_, fun _ => rfl⟩
        · rw [← GetByteArrayRegion_channelCalls w off (min len buf_size)]
          simp [throwExc, World.call, channelCalls]
        · simp [freshPairs, hc]
        · simp [resolutions, singleShots, throwExc]
      · have hcc : channelCalls
            (((GetByteArrayRegion w off (min len buf_size)).1.call s1 (Event.getFD fd)).call s2
              (putEvent append fd (GetByteArrayRegion w off (min len buf_size)).2
                (min len buf_size) n)).trace =
            channelCalls w.trace ++ [Event.getFD fd,
              putEvent append fd (GetByteArrayRegion w off (min len buf_size)).2
                (min len buf_size) n] := by
          rw [← GetByteArrayRegion_channelCalls w off (min len buf_size)]
          cases append <;> simp [World.call, channelCalls, putEvent]
        have hmem : ∀ cs : List Event, Event.getFD (-1) ∈
            Event.getFD fd :: putEvent append fd (GetByteArrayRegion w off (min len buf_size)).2
              (min len buf_size) n :: cs → Event.getFD (-1) ∈ cs := by
          intro cs hm
          rcases List.mem_cons.mp hm with hm | hm
          · exact absurd (Event.getFD.inj hm).symm hc
          · rcases List.mem_cons.mp hm with hm | hm
            · cases append <;> simp [putEvent] at hm
            · exact hm
        rcases hcase with ⟨-, hw⟩ | ⟨-, hrec⟩
        · subst hw
          refine ⟨[Event.getFD fd,
              putEvent append fd (GetByteArrayRegion w off (min len buf_size)).2
                (min len buf_size) n], ?_, freshPairs_pair_put append fd _ _ n [] hc rfl, ?_,
              fun hm => absurd (hmem [] hm) (by simp)⟩
          · rw [← hcc]
            simp [throwExc, channelCalls]
          · rw [(tally_pair_put _ _ _ _ _ _).1, (tally_pair_put _ _ _ _ _ _).2]
            simp [throwExc, resolutions, singleShots]
        · obtain ⟨cs, h1, h2, h3, h4⟩ := ih _ _ _ _ hrec (by
            show (GetByteArrayRegion w off (min len buf_size)).1.pending ≠ _
            rw [hpn]
            simp)
          refine ⟨Event.getFD fd ::
              putEvent append fd (GetByteArrayRegion w off (min len buf_size)).2
                (min len buf_size) n :: cs, ?_,
            freshPairs_pair_put append fd _ _ n cs hc h2, ?_, fun hm => h4 (hmem cs hm)⟩
          · rw [h1, hcc]
            simp
          · rw [(tally_pair_put _ _ _ _ _ _).1, (tally_pair_put _ _ _ _ _ _).2, h3]
            omega

/-- How a result of `readBytes` comes about: the allocation failed, or the
loop returned. -/
theorem readBytes_some (ops : Ops σ) (fuel : Nat) (w : World σ) (off len : Int) (w' : World σ)
    (r : Int) (h : readBytes ops fuel w off len = some (w', r)) :
    (w' = throwExc Exc.OutOfMemory (w.log (Event.malloc (readBytes_buf len).buf_size false)) ∧
      r = 0) ∨
    (∃ w1, readLoop ops len (readBytes_buf len).buf_size fuel ((readBytes_buf len).enter w) off 0
        = some (w1, r) ∧ w' = (readBytes_buf len).leave w1) := by
  by_cases hm : (readBytes_buf len).heap = true → ops.malloc (readBytes_buf len).buf_size = true
  · rw [readBytes_eq_loop ops fuel w off len hm] at h
    rcases hl : readLoop ops len (readBytes_buf len).buf_size fuel
      ((readBytes_buf len).enter w) off 0 with _ | ⟨w1, r1⟩
    · rw [hl] at h; cases h
    · rw [hl] at h
      simp only [Option.map_some', Option.some.injEq, Prod.mk.injEq] at h
      exact Or.inr ⟨w1, by rw [h.2], h.1.symm⟩
  · have hh : (readBytes_buf len).heap = true := by
      by_contra hh
      exact hm (fun h => absurd h hh)
    have hf : ops.malloc (readBytes_buf len).buf_size = false := by
      by_contra hf
      exact hm (fun _ => by simpa using hf)
    simp only [readBytes, hh, hf, if_true, Bool.false_eq_true, if_false, Option.some.injEq,
      Prod.mk.injEq] at h
    exact Or.inl ⟨h.1.symm, h.2.symm⟩

/-- How a result of `writeBytes` comes about: the allocation failed, or the
loop returned. -/
theorem writeBytes_some (ops : Ops σ) (fuel : Nat) (w : World σ) (off len : Int)
    (append : Bool) (w' : World σ) (h : writeBytes ops fuel w off len append = some w') :
    w' = throwExc Exc.OutOfMemory (w.log (Event.malloc (writeBytes_buf len).buf_size false)) ∨
    (∃ w1, writeLoop ops append (writeBytes_buf len).buf_size fuel
        ((writeBytes_buf len).enter w) off len = some w1 ∧ w' = (writeBytes_buf len).leave w1) := by
  by_cases hm : (writeBytes_buf len).heap = true → ops.malloc (writeBytes_buf len).buf_size = true
  · rw [writeBytes_eq_loop ops fuel w off len append hm] at h
    rcases hl : writeLoop ops append (writeBytes_buf len).buf_size fuel
      ((writeBytes_buf len).enter w) off len with _ | w1
    · rw [hl] at h; cases h
    · rw [hl] at h
      simp only [Option.map_some', Option.some.injEq] at h
      exact Or.inr ⟨w1, rfl, h.symm⟩
  · have hh : (writeBytes_buf len).heap = true := by
      by_contra hh
      exact hm (fun h => absurd h hh)
    have hf : ops.malloc (writeBytes_buf len).buf_size = false := by
      by_contra hf
      exact hm (fun _ => by simpa using hf)
    simp only [writeBytes, hh, hf, if_true, Bool.false_eq_true, if_false, Option.some.injEq] at h
    exact Or.inl h.symm

/-- C15 (fresh resolution per chunk). In every run of `readBytes` and of
`writeBytes` that starts with no exception pending, the calls made to the
channel form fresh pairs: every single-shot read, write or append comes right
after a resolution of its own and is issued on the descriptor that
resolution returned; so the number of resolutions is the number of
single-shot calls, plus one exactly when the run ends with `ClosedStream`
pending. A resolution that reports closed, in whichever iteration, is the
last call to the channel and leaves `ClosedStream` pending. -/
theorem fresh_resolution_per_chunk (ops : Ops σ) (fuel : Nat) (w : World σ) (off len : Int)
    (append : Bool) (hp : w.pending = none) :
    (∀ w' r, readBytes ops fuel w off len = some (w', r) →
      ∃ cs, channelCalls w'.trace = channelCalls w.trace ++ cs ∧ freshPairs cs = true ∧
        resolutions cs = singleShots cs + (if w'.pending = some Exc.StreamClosed then 1 else 0) ∧
        (Event.getFD (-1) ∈ cs → w'.pending = some Exc.StreamClosed)) ∧
    (∀ w', writeBytes ops fuel w off len append = some w' →
      ∃ cs, channelCalls w'.trace = channelCalls w.trace ++ cs ∧ freshPairs cs = true ∧
        resolutions cs = singleShots cs + (if w'.pending = some Exc.StreamClosed then 1 else 0) ∧
        (Event.getFD (-1) ∈ cs → w'.pending = some Exc.StreamClosed)) := by
  constructor
  · intro w' r h
    rcases readBytes_some ops fuel w off len w' r h with ⟨hw, -⟩ | ⟨w1, hl, hw⟩
    · subst hw
      refine ⟨[], ?_, rfl, ?_, by simp⟩
      · simp [throwExc, World.log, channelCalls]
      · simp [throwExc, resolutions, singleShots]
    · obtain ⟨cs, h1, h2, h3, h4⟩ := readLoop_fresh ops len _ fuel _ off 0 w1 r hl
        (by rw [((readBytes_buf len).enter_fields w).2.2, hp]; simp)
      subst hw
      refine ⟨cs, ?_, h2, ?_, ?_⟩
      · rw [channelCalls_leave, h1, channelCalls_enter]
      · rw [((readBytes_buf len).leave_fields w1).2.2]; exact h3
      · rw [((readBytes_buf len).leave_fields w1).2.2]; exact h4
  · intro w' h
    rcases writeBytes_some ops fuel w off len append w' h with hw | ⟨w1, hl, hw⟩
    · subst hw
      refine ⟨[], ?_, rfl, ?_, by simp⟩
      · simp [throwExc, World.log, channelCalls]
      · simp [throwExc, resolutions, singleShots]
    · obtain ⟨cs, h1, h2, h3, h4⟩ := writeLoop_fresh ops append _ fuel _ off len w1 hl
        (by rw [((writeBytes_buf len).enter_fields w).2.2, hp]; simp)
      subst hw
      refine ⟨cs, ?_, h2, ?_, ?_⟩
      · rw [channelCalls_leave, h1, channelCalls_enter]
      · rw [((writeBytes_buf len).leave_fields w1).2.2]; exact h3
      · rw [((writeBytes_buf len).leave_fields w1).2.2]; exact h4

/-- Witness of C15: a read of 70000 bytes cut short by a close at the second
resolution, and a write of 70000 bytes over the same channel. -/
theorem fresh_resolution_per_chunk_witness :
    (∀ w' r, readBytes scriptOps 3 (World.init ⟨[3], [65536]⟩ (List.replicate 70000 0)) 0 70000
        = some (w', r) →
      ∃ cs, channelCalls w'.trace = channelCalls [] ++ cs ∧ freshPairs cs = true ∧
        resolutions cs = singleShots cs + (if w'.pending = some Exc.StreamClosed then 1 else 0) ∧
        (Event.getFD (-1) ∈ cs → w'.pending = some Exc.StreamClosed)) ∧
    (∀ w', writeBytes scriptOps 3 (World.init ⟨[3], [65536]⟩ (List.replicate 70000 0)) 0 70000
        false = some w' →
      ∃ cs, channelCalls w'.trace = channelCalls [] ++ cs ∧ freshPairs cs = true ∧
        resolutions cs = singleShots cs + (if w'.pending = some Exc.StreamClosed then 1 else 0) ∧
        (Event.getFD (-1) ∈ cs → w'.pending = some Exc.StreamClosed)) :=
  fresh_resolution_per_chunk scriptOps 3 (World.init ⟨[3], [65536]⟩ (List.replicate 70000 0)) 0
    70000 false rfl

theorem singleShots_append (t u : List Event) :
    singleShots (t ++ u) = singleShots t + singleShots u := by
  simp [singleShots]

theorem resolutions_append (t u : List Event) :
    resolutions (t ++ u) = resolutions t + resolutions u := by
  simp [resolutions]

theorem SetByteArrayRegion_tally (w : World σ) (off n : Int) (buf : List Nat) :
    singleShots (SetByteArrayRegion w off n buf).trace = singleShots w.trace ∧
    resolutions (SetByteArrayRegion w off n buf).trace = resolutions w.trace := by
  unfold SetByteArrayRegion
  split_ifs <;> simp [singleShots, resolutions, throwExc, World.log]

theorem tally_enter (sel : BufSel) (w : World σ) :
    singleShots (sel.enter w).trace = singleShots w.trace ∧
    resolutions (sel.enter w).trace = resolutions w.trace := by
  unfold BufSel.enter World.log
  split_ifs <;> simp [singleShots, resolutions]

theorem tally_leave (sel : BufSel) (w : World σ) :
    singleShots (sel.leave w).trace = singleShots w.trace ∧
    resolutions (sel.leave w).trace = resolutions w.trace := by
  unfold BufSel.leave World.log
  split_ifs <;> simp [singleShots, resolutions]

theorem readBytes_overflow_aux (arr : List Nat) :
    (readBytes scriptOps 4
        (World.init ⟨[3, 3, 3], [65536, 2147483647, 0]⟩ arr) 0 70000).map
        (fun p => (singleShots p.1.trace, p.2)) = some (3, -2147418113) := by
  have hsel : readBytes_buf 70000 = ⟨65536, true⟩ := by decide
  have h1 := readLoop_full scriptOps 70000 65536 3
    ((⟨65536, true⟩ : BufSel).enter (World.init ⟨[3, 3, 3], [65536, 2147483647, 0]⟩ arr)) 0 0 3
    ⟨[3, 3], [65536, 2147483647, 0]⟩ ⟨[3, 3], [2147483647, 0]⟩ 65536
    (List.replicate (65536 : Int).toNat 65)
    (by decide) (by decide) (by decide) rfl (by decide) rfl (by decide) (by decide)
  rw [show wrap32 (0 + 65536) = 65536 by decide] at h1
  rw [readBytes_eq_loop scriptOps 4 _ 0 70000 (fun _ => rfl), hsel, h1]
  have h2 := readLoop_full scriptOps 70000 65536 2
    (SetByteArrayRegion ((((⟨65536, true⟩ : BufSel).enter
      (World.init ⟨[3, 3, 3], [65536, 2147483647, 0]⟩ arr)).call
      ⟨[3, 3], [65536, 2147483647, 0]⟩ (Event.getFD 3)).call ⟨[3, 3], [2147483647, 0]⟩
      (Event.IO_Read 3 (min (70000 - 0) 65536) 65536)) 0 65536
      (List.replicate (65536 : Int).toNat 65))
    65536 65536 3 ⟨[3], [2147483647, 0]⟩ ⟨[3], [0]⟩ 2147483647
    (List.replicate (2147483647 : Int).toNat 65)
    (by decide) (by decide) (by decide) (by rw [SetByteArrayRegion_chan]; rfl) (by decide)
    rfl (by decide) (by decide)
  rw [show wrap32 (65536 + 2147483647) = -2147418113 by decide] at h2
  rw [h2]
  simp only [readLoop]
  rw [show wrap32 (70000 - -2147418113) = -2147479183 by decide]
  simp only [SetByteArrayRegion_chan, World.call, scriptOps]
  simp only [show ((-2147418113 : Int) < 70000) = True by decide,
    show ((-2147479183 : Int) > 65536) = False by decide,
    show ((3 : Int) = -1) = False by decide, show ((0 : Int) > 0) = False by decide,
    show ((0 : Int) = -1) = False by decide,
    show ((-2147418113 : Int) = 0) = False by decide, if_true, if_false, Option.map_some']
  simp only [BufSel.leave, if_true, World.log, singleShots_append,
    (SetByteArrayRegion_tally _ _ _ _).1, BufSel.enter, World.init]
  rfl

/-- C17, as stated, fails for a channel whose read may return more than it
was asked for. In a read of 70000 bytes (capacity 65536, so `⌈len / B⌉ = 2`)
the first read delivers 65536 bytes and the second, asked for 4464, answers
2147483647: the `jint` sum `nread += n` overflows to a negative value, the
loop condition still holds, and a third single-shot read is issued. -/
theorem readBytes_three_reads_for_two_chunks :
    (readBytes scriptOps 4
        (World.init ⟨[3, 3, 3], [65536, 2147483647, 0]⟩ (List.replicate 70000 0)) 0 70000).map
        (fun p => (singleShots p.1.trace, p.2)) = some (3, -2147418113) ∧
    (70000 + (readBytes_buf 70000).buf_size - 1) / (readBytes_buf 70000).buf_size = 2 :=
  ⟨readBytes_overflow_aux _, by decide⟩

theorem ceil_div_nonneg (x B : Int) (hx : 0 ≤ x) (hb : 0 < B) : 0 ≤ (x + B - 1) / B :=
  Int.ediv_nonneg (by omega) (le_of_lt hb)

theorem ceil_div_pos (x B : Int) (hx : 1 ≤ x) (hb : 0 < B) : 1 ≤ (x + B - 1) / B :=
  Int.le_ediv_of_mul_le hb (by omega)

theorem singleShots_read_step (w : World σ) (s1 s2 : σ) (fd rs n : Int) :
    singleShots ((w.call s1 (Event.getFD fd)).call s2 (Event.IO_Read fd rs n)).trace =
      singleShots w.trace + 1 := by
  simp [World.call, singleShots]

/-- The read loop over a channel whose reads return at most the size asked:
it returns after at most `⌈(len - nread) / buf_size⌉` single-shot reads. -/
theorem readLoop_reads_le (ops : Ops σ) (len buf_size : Int) (hmax : len ≤ JINT_MAX)
    (hb : 0 < buf_size)
    (hread : ∀ fd sz s, 0 < sz → (ops.IO_Read fd sz s).1.1 ≤ sz) :
    ∀ (fuel : Nat) (w : World σ) (off nread : Int), 0 ≤ nread → nread ≤ len →
      (len - nread).toNat < fuel →
      ∃ w' r, readLoop ops len buf_size fuel w off nread = some (w', r) ∧
        (singleShots w'.trace : Int) ≤
          singleShots w.trace + (len - nread + buf_size - 1) / buf_size := by
  intro fuel
  induction fuel with
  | zero => intro w off nread _ _ h; omega
  | succ fuel ih =>
    intro w off nread h0 h1 hf
    have hnn := ceil_div_nonneg (len - nread) buf_size (by omega) hb
    by_cases hlt : nread < len
    · have hone := ceil_div_pos (len - nread) buf_size (by omega) hb
      rcases hfd : ops.getFD w.chan with ⟨fd, s1⟩
      by_cases hc : fd = -1
      · refine ⟨_, _, readLoop_closed ops len buf_size fuel w off nread fd s1 hlt hfd hc, ?_⟩
        simp only [throwExc, World.call, singleShots_append]
        simp [singleShots]
        omega
      · rcases hrd : ops.IO_Read fd (min (len - nread) buf_size) s1 with ⟨⟨n, buf⟩, s2⟩
        have hn : n ≤ min (len - nread) buf_size := by
          have := hread fd (min (len - nread) buf_size) s1 (by omega)
          rwa [hrd] at this
        have hstep := singleShots_read_step w s1 s2 fd (min (len - nread) buf_size) n
        by_cases hpos : 0 < n
        · by_cases hs : n < min (len - nread) buf_size
          · refine ⟨_, _, readLoop_short ops len buf_size fuel w off nread fd s1 s2 n buf hmax h0
              hlt hfd hc hrd hpos hs, ?_⟩
            rw [(SetByteArrayRegion_tally _ _ _ _).1, hstep]
            push_cast
            omega
          · rw [readLoop_full ops len buf_size fuel w off nread fd s1 s2 n buf hmax h0 hlt hfd hc
              hrd hpos hs]
            have hw : wrap32 (nread + n) = nread + n := by
              unfold JINT_MAX at hmax
              exact wrap32_of_range (by omega) (by omega)
            rw [hw]
            obtain ⟨w', r, hw', hr⟩ := ih
              (SetByteArrayRegion ((w.call s1 (Event.getFD fd)).call s2
                (Event.IO_Read fd (min (len - nread) buf_size) n)) off n buf)
              (wrap32 (off + n)) (nread + n) (by omega) (by omega) (by omega)
            refine ⟨w', r, hw', ?_⟩
            rw [(SetByteArrayRegion_tally _ _ _ _).1, hstep] at hr
            push_cast at hr
            have hneq : n = min (len - nread) buf_size := by omega
            by_cases hbig : buf_size ≤ len - nread
            · have hnb : n = buf_size := by omega
              have e1 : (len - (nread + n) + buf_size - 1) / buf_size
                  = (len - nread - 1) / buf_size := by
                rw [hnb]
                congr 1
                omega
              have e2 := ceil_div_step (len - nread) buf_size hb
              rw [e1] at hr
              omega
            · have hnl : n = len - nread := by omega
              have e1 : (len - (nread + n) + buf_size - 1) / buf_size = 0 := by
                rw [hnl]
                exact Int.ediv_eq_zero_of_lt (by omega) (by omega)
              rw [e1] at hr
              omega
        · by_cases he : n = -1
          · refine ⟨_, _, readLoop_error ops len buf_size fuel w off nread fd s1 s2 n buf hmax h0
              hlt hfd hc hrd he, ?_⟩
            have : singleShots (throwExc Exc.ReadError ((w.call s1 (Event.getFD fd)).call s2
                (Event.IO_Read fd (min (len - nread) buf_size) n))).trace =
                singleShots w.trace + 1 := by
              simp [throwExc, World.call, singleShots]
            rw [this]
            push_cast
            omega
          · refine ⟨_, _, readLoop_eof ops len buf_size fuel w off nread fd s1 s2 n buf hmax h0
              hlt hfd hc hrd (by omega) he, ?_⟩
            rw [hstep]
            push_cast
            omega
    · refine ⟨_, _, readLoop_done ops len buf_size fuel w off nread hlt, ?_⟩
      omega

theorem tally_read_step (w : World σ) (s1 s2 : σ) (fd rs n : Int) :
    singleShots ((w.call s1 (Event.getFD fd)).call s2 (Event.IO_Read fd rs n)).trace =
      singleShots w.trace + 1 ∧
    resolutions ((w.call s1 (Event.getFD fd)).call s2 (Event.IO_Read fd rs n)).trace =
      resolutions w.trace + 1 := by
  simp [World.call, singleShots, resolutions]

/-- The read loop, entered with nothing read, for a request that fits the
buffer: whatever the channel answers, it returns after at most one resolution
and one single-shot read. -/
theorem readLoop_one_round (ops : Ops σ) (len buf_size : Int) (fuel : Nat) (w : World σ)
    (off : Int) (hlen : 1 ≤ len) (hmax : len ≤ JINT_MAX) (hfit : len ≤ buf_size)
    (hjint : ∀ fd sz s, sz ≤ JINT_MAX → (ops.IO_Read fd sz s).1.1 ≤ JINT_MAX) :
    ∃ w' r, readLoop ops len buf_size (fuel + 2) w off 0 = some (w', r) ∧
      resolutions w'.trace ≤ resolutions w.trace + 1 ∧
      singleShots w'.trace ≤ singleShots w.trace + 1 := by
  rcases hfd : ops.getFD w.chan with ⟨fd, s1⟩
  by_cases hc : fd = -1
  · refine ⟨_, _, readLoop_closed ops len buf_size (fuel + 1) w off 0 fd s1 (by omega) hfd hc,
      ?_, ?_⟩
    · simp [throwExc, World.call, resolutions]
    · simp [throwExc, World.call, singleShots]
  · rcases hrd : ops.IO_Read fd (min (len - 0) buf_size) s1 with ⟨⟨n, buf⟩, s2⟩
    have hn : n ≤ JINT_MAX := by
      have := hjint fd (min (len - 0) buf_size) s1 (by omega)
      rwa [hrd] at this
    have hstep := tally_read_step w s1 s2 fd (min (len - 0) buf_size) n
    by_cases hpos : 0 < n
    · by_cases hs : n < min (len - 0) buf_size
      · refine ⟨_, _, readLoop_short ops len buf_size (fuel + 1) w off 0 fd s1 s2 n buf hmax
          (le_refl 0) (by omega) hfd hc hrd hpos hs, ?_, ?_⟩
        · rw [(SetByteArrayRegion_tally _ _ _ _).2, hstep.2]
        · rw [(SetByteArrayRegion_tally _ _ _ _).1, hstep.1]
      · rw [readLoop_full ops len buf_size (fuel + 1) w off 0 fd s1 s2 n buf hmax (le_refl 0)
          (by omega) hfd hc hrd hpos hs]
        have hw : wrap32 (0 + n) = n := by
          unfold JINT_MAX at hn
          rw [zero_add]
          exact wrap32_of_range (by omega) (by omega)
        rw [hw, readLoop_done ops len buf_size fuel _ _ n (by omega)]
        refine ⟨_, _, rfl, ?_, ?_⟩
        · rw [(SetByteArrayRegion_tally _ _ _ _).2, hstep.2]
        · rw [(SetByteArrayRegion_tally _ _ _ _).1, hstep.1]
    · by_cases he : n = -1
      · refine ⟨_, _, readLoop_error ops len buf_size (fuel + 1) w off 0 fd s1 s2 n buf hmax
          (le_refl 0) (by omega) hfd hc hrd he, ?_, ?_⟩
        · simp [throwExc, World.call, resolutions]
        · simp [throwExc, World.call, singleShots]
      · refine ⟨_, _, readLoop_eof ops len buf_size (fuel + 1) w off 0 fd s1 s2 n buf hmax
          (le_refl 0) (by omega) hfd hc hrd (by omega) he, ?_, ?_⟩
        · rw [hstep.2]
        · rw [hstep.1]

/-- C17, amended. For every `len ≥ 1`: (a) over every channel whose
single-shot read never returns more than the size it was asked for, whatever
the resolutions and the allocation do, `readBytes` returns after at most
`⌈len / B⌉` single-shot reads, where `B` is the selected buffer capacity;
(b) when `len ≤ 65536`, over every channel whatsoever (any `jint` returned by
the single-shot read, any resolution outcome), `readBytes` returns after at
most one channel resolution and at most one single-shot read. -/
theorem readBytes_iteration_bound (ops : Ops σ) (fuel : Nat) (w : World σ) (off len : Int)
    (hlen : 1 ≤ len) (hmax : len ≤ JINT_MAX) :
    ((∀ fd sz s, 0 < sz → (ops.IO_Read fd sz s).1.1 ≤ sz) → len.toNat < fuel →
      ∃ w' r, readBytes ops fuel w off len = some (w', r) ∧
        (singleShots w'.trace : Int) ≤ singleShots w.trace +
          (len + (readBytes_buf len).buf_size - 1) / (readBytes_buf len).buf_size) ∧
    (len ≤ 65536 → (∀ fd sz s, sz ≤ JINT_MAX → (ops.IO_Read fd sz s).1.1 ≤ JINT_MAX) →
        2 ≤ fuel →
      ∃ w' r, readBytes ops fuel w off len = some (w', r) ∧
        resolutions w'.trace ≤ resolutions w.trace + 1 ∧
        singleShots w'.trace ≤ singleShots w.trace + 1) := by
  have hoom : ¬ ((readBytes_buf len).heap = true →
      ops.malloc (readBytes_buf len).buf_size = true) →
      readBytes ops fuel w off len = some (throwExc Exc.OutOfMemory
        (w.log (Event.malloc (readBytes_buf len).buf_size false)), 0) := by
    intro hm
    have hh : (readBytes_buf len).heap = true := by
      by_contra hh
      exact hm (fun h => absurd h hh)
    have hf : ops.malloc (readBytes_buf len).buf_size = false := by
      by_contra hf
      exact hm (fun _ => by simpa using hf)
    simp [readBytes, hh, hf]
  have htr : singleShots (throwExc Exc.OutOfMemory
        (w.log (Event.malloc (readBytes_buf len).buf_size false))).trace = singleShots w.trace ∧
      resolutions (throwExc Exc.OutOfMemory
        (w.log (Event.malloc (readBytes_buf len).buf_size false))).trace = resolutions w.trace := by
    simp [throwExc, World.log, singleShots, resolutions]
  constructor
  · intro hread hfuel
    by_cases hm : (readBytes_buf len).heap = true → ops.malloc (readBytes_buf len).buf_size = true
    · obtain ⟨w', r, hw', hr⟩ := readLoop_reads_le ops len (readBytes_buf len).buf_size hmax
        (readBytes_buf_pos len) hread fuel ((readBytes_buf len).enter w) off 0 (le_refl 0)
        (by omega) (by simpa using hfuel)
      rw [readBytes_eq_loop ops fuel w off len hm, hw']
      refine ⟨(readBytes_buf len).leave w', r, rfl, ?_⟩
      rw [(tally_leave _ _).1]
      rw [(tally_enter _ _).1, sub_zero] at hr
      exact hr
    · refine ⟨_, _, hoom hm, ?_⟩
      rw [htr.1]
      have := ceil_div_nonneg len (readBytes_buf len).buf_size (by omega) (readBytes_buf_pos len)
      omega
  · intro hsmall hjint hfuel
    by_cases hm : (readBytes_buf len).heap = true → ops.malloc (readBytes_buf len).buf_size = true
    · have hfit : len ≤ (readBytes_buf len).buf_size := by
        unfold readBytes_buf STACK_BUF_SIZE MAX_MALLOC_SIZE
        split_ifs <;> simp only [] <;> omega
      obtain ⟨k, hk⟩ : ∃ k, fuel = k + 2 := ⟨fuel - 2, by omega⟩
      subst hk
      obtain ⟨w', r, hw', hr1, hr2⟩ := readLoop_one_round ops len (readBytes_buf len).buf_size k
        ((readBytes_buf len).enter w) off hlen hmax hfit hjint
      rw [readBytes_eq_loop ops _ w off len hm, hw']
      refine ⟨(readBytes_buf len).leave w', r, rfl, ?_, ?_⟩
      · rw [(tally_leave _ _).2]
        rw [(tally_enter _ _).2] at hr1
        exact hr1
      · rw [(tally_leave _ _).1]
        rw [(tally_enter _ _).1] at hr2
        exact hr2
    · refine ⟨_, _, hoom hm, ?_, ?_⟩
      · rw [htr.2]; omega
      · rw [htr.1]; omega

/-- Witness of C17 amended: a read of 100000 bytes from a byte queue (at most
2 reads), and a read of 10 bytes (at most one resolution and one read). -/
theorem readBytes_iteration_bound_witness :
    (∃ w' r, readBytes queueOps 100001 (World.init [1, 2, 3] (List.replicate 100000 0)) 0 100000
        = some (w', r) ∧
      (singleShots w'.trace : Int) ≤ singleShots ([] : List Event) +
        (100000 + (readBytes_buf 100000).buf_size - 1) / (readBytes_buf 100000).buf_size) ∧
    (∃ w' r, readBytes queueOps 2 (World.init [1, 2, 3] (List.replicate 10 0)) 0 10
        = some (w', r) ∧
      resolutions w'.trace ≤ resolutions ([] : List Event) + 1 ∧
      singleShots w'.trace ≤ singleShots ([] : List Event) + 1) :=
  ⟨(readBytes_iteration_bound queueOps 100001 (World.init [1, 2, 3] (List.replicate 100000 0)) 0
      100000 (by decide) (by decide)).1 queueOps_read_le (by decide),
   (readBytes_iteration_bound queueOps 2 (World.init [1, 2, 3] (List.replicate 10 0)) 0
      10 (by decide) (by decide)).2 (by decide)
      (fun fd sz s h => by
        simp only [queueOps, List.length_take, JINT_MAX] at h ⊢
        omega)
      (by decide)⟩

theorem GetByteArrayRegion_tally (w : World σ) (off n : Int) :
    singleShots (GetByteArrayRegion w off n).1.trace = singleShots w.trace ∧
    resolutions (GetByteArrayRegion w off n).1.trace = resolutions w.trace := by
  unfold GetByteArrayRegion
  split_ifs <;> simp [singleShots, resolutions, throwExc, World.log]

theorem singleShots_put_step (w : World σ) (s1 s2 : σ) (append : Bool) (fd : Int)
    (buf : List Nat) (sz n : Int) :
    singleShots ((w.call s1 (Event.getFD fd)).call s2 (putEvent append fd buf sz n)).trace =
      singleShots w.trace + 1 := by
  cases append <;> simp [World.call, singleShots, putEvent]

/-- The write loop over a channel whose single-shot write returns `-1` or a
count between 1 and the chunk size: it returns after at most `len` single-shot
writes, whatever the copies and the resolutions do. -/
theorem writeLoop_terminates (ops : Ops σ) (append : Bool) (buf_size : Int) (hb : 0 < buf_size)
    (hacc : ∀ fd buf sz s, 0 < sz → (ops.put append fd buf sz s).1 = -1 ∨
      (1 ≤ (ops.put append fd buf sz s).1 ∧ (ops.put append fd buf sz s).1 ≤ sz)) :
    ∀ (fuel : Nat) (w : World σ) (off len : Int), 0 ≤ len → len ≤ JINT_MAX →
      len.toNat < fuel →
      ∃ w', writeLoop ops append buf_size fuel w off len = some w' ∧
        (singleShots w'.trace : Int) ≤ singleShots w.trace + len := by
  intro fuel
  induction fuel with
  | zero => intro w off len _ _ h; omega
  | succ fuel ih =>
    intro w off len h0 hmax hf
    by_cases hlen : 0 < len
    · rcases hg : GetByteArrayRegion w off (min len buf_size) with ⟨w1, chunk⟩
      have hgt : singleShots w1.trace = singleShots w.trace := by
        have := (GetByteArrayRegion_tally w off (min len buf_size)).1
        rwa [hg] at this
      by_cases hp : w1.pending = none
      · rcases hfd : ops.getFD w1.chan with ⟨fd, s1⟩
        by_cases hc : fd = -1
        · refine ⟨_, writeLoop_closed ops append buf_size fuel w w1 off len fd s1 chunk hlen hg hp
            hfd hc, ?_⟩
          have : singleShots (throwExc Exc.StreamClosed (w1.call s1 (Event.getFD fd))).trace =
              singleShots w1.trace := by
            simp [throwExc, World.call, singleShots]
          rw [this, hgt]
          omega
        · rcases hwr : ops.put append fd chunk (min len buf_size) s1 with ⟨n, s2⟩
          have hn := hacc fd chunk (min len buf_size) s1 (by omega)
          rw [hwr] at hn
          have hstep := singleShots_put_step w1 s1 s2 append fd chunk (min len buf_size) n
          by_cases he : n = -1
          · refine ⟨_, writeLoop_error ops append buf_size fuel w w1 off len fd s1 s2 n chunk hlen
              hg hp hfd hc hwr he, ?_⟩
            have : singleShots (throwExc Exc.WriteError ((w1.call s1 (Event.getFD fd)).call s2
                (putEvent append fd chunk (min len buf_size) n))).trace =
                singleShots ((w1.call s1 (Event.getFD fd)).call s2
                  (putEvent append fd chunk (min len buf_size) n)).trace := by
              simp [throwExc, singleShots]
            rw [this, hstep, hgt]
            push_cast
            omega
          · have hn' : 1 ≤ n ∧ n ≤ min len buf_size := by
              rcases hn with hn | hn
              · exact absurd hn he
              · exact hn
            rw [writeLoop_next ops append buf_size fuel w w1 off len fd s1 s2 n chunk hlen hg hp
              hfd hc hwr he]
            have hw : wrap32 (len - n) = len - n := by
              unfold JINT_MAX at hmax
              exact wrap32_of_range (by omega) (by omega)
            rw [hw]
            obtain ⟨w', hw', hr⟩ := ih ((w1.call s1 (Event.getFD fd)).call s2
              (putEvent append fd chunk (min len buf_size) n)) (wrap32 (off + n)) (len - n)
              (by omega) (by omega) (by omega)
            refine ⟨w', hw', ?_⟩
            rw [hstep, hgt] at hr
            push_cast at hr
            omega
      · refine ⟨_, writeLoop_bounds ops append buf_size fuel w w1 off len chunk hlen hg hp, ?_⟩
        have : singleShots (ExceptionClear w1).trace = singleShots w1.trace := by
          simp [ExceptionClear, singleShots]
        rw [this, hgt]
        omega
    · refine ⟨_, writeLoop_done ops append buf_size fuel w off len hlen, ?_⟩
      omega

/-- C18 (write termination). For every `len ≥ 1` and every channel whose
single-shot write (or append) of a positive chunk size returns `-1` or a count
`n` with `1 ≤ n ≤` chunk size, whatever the copies, the resolutions and the
allocation do: `writeBytes` returns after at most `len` single-shot writes;
and in every iteration that goes on (the copy and the resolution succeed and
the write returns `n ≠ -1`), the loop goes on with remaining length
`len - n`, which is not negative and strictly below the remaining length
`len` it was entered with. -/
theorem writeBytes_terminates (ops : Ops σ) (fuel : Nat) (w : World σ) (off len : Int)
    (append : Bool)
    (hlen : 1 ≤ len) (hmax : len ≤ JINT_MAX)
    (hacc : ∀ fd buf sz s, 0 < sz → (ops.put append fd buf sz s).1 = -1 ∨
      (1 ≤ (ops.put append fd buf sz s).1 ∧ (ops.put append fd buf sz s).1 ≤ sz))
    (hfuel : len.toNat < fuel) :
    (∃ w', writeBytes ops fuel w off len append = some w' ∧
      (singleShots w'.trace : Int) ≤ singleShots w.trace + len) ∧
    (∀ (k : Nat) (w0 w1 : World σ) (off0 rem fd : Int) (s1 s2 : σ) (n : Int) (chunk : List Nat)
      (buf_size : Int), 0 < buf_size → 1 ≤ rem → rem ≤ len →
      GetByteArrayRegion w0 off0 (min rem buf_size) = (w1, chunk) → w1.pending = none →
      ops.getFD w1.chan = (fd, s1) → fd ≠ -1 →
      ops.put append fd chunk (min rem buf_size) s1 = (n, s2) → n ≠ -1 →
      writeLoop ops append buf_size (k + 1) w0 off0 rem =
        writeLoop ops append buf_size k ((w1.call s1 (Event.getFD fd)).call s2
          (putEvent append fd chunk (min rem buf_size) n)) (wrap32 (off0 + n)) (rem - n) ∧
      0 ≤ rem - n ∧ rem - n < rem) := by
  constructor
  · by_cases hm : (writeBytes_buf len).heap = true →
        ops.malloc (writeBytes_buf len).buf_size = true
    · obtain ⟨w', hw', hr⟩ := writeLoop_terminates ops append (writeBytes_buf len).buf_size
        (writeBytes_buf_pos len) hacc fuel ((writeBytes_buf len).enter w) off len (by omega) hmax
        hfuel
      rw [writeBytes_eq_loop ops fuel w off len append hm, hw']
      refine ⟨(writeBytes_buf len).leave w', rfl, ?_⟩
      rw [(tally_leave _ _).1]
      rw [(tally_enter _ _).1] at hr
      exact hr
    · have hh : (writeBytes_buf len).heap = true := by
        by_contra hh
        exact hm (fun h => absurd h hh)
      have hf : ops.malloc (writeBytes_buf len).buf_size = false := by
        by_contra hf
        exact hm (fun _ => by simpa using hf)
      refine ⟨throwExc Exc.OutOfMemory
        (w.log (Event.malloc (writeBytes_buf len).buf_size false)), ?_, ?_⟩
      · simp [writeBytes, hh, hf]
      · have : singleShots (throwExc Exc.OutOfMemory
            (w.log (Event.malloc (writeBytes_buf len).buf_size false))).trace =
            singleShots w.trace := by
          simp [throwExc, World.log, singleShots]
        rw [this]
        omega
  · intro k w0 w1 off0 rem fd s1 s2 n chunk buf_size hb hr1 hr2 hg hp hfd hc hwr hn
    have hacc' := hacc fd chunk (min rem buf_size) s1 (by omega)
    rw [hwr] at hacc'
    have hn' : 1 ≤ n ∧ n ≤ min rem buf_size := by
      rcases hacc' with h | h
      · exact absurd h hn
      · exact h
    have hw : wrap32 (rem - n) = rem - n := by
      unfold JINT_MAX at hmax
      exact wrap32_of_range (by omega) (by omega)
    rw [writeLoop_next ops append buf_size k w0 w1 off0 rem fd s1 s2 n chunk (by omega) hg hp hfd
      hc hwr hn, hw]
    exact ⟨rfl, by omega, by omega⟩

/-- Witness of C18: 5 bytes written to a channel that accepts 3 bytes at a
time. -/
theorem writeBytes_terminates_witness :
    ∃ w', writeBytes trickleOps 6 (World.init [] [1, 2, 3, 4, 5]) 0 5 false = some w' ∧
      (singleShots w'.trace : Int) ≤ singleShots ([] : List Event) + 5 :=
  (writeBytes_terminates trickleOps 6 (World.init [] [1, 2, 3, 4, 5]) 0 5 false (by decide)
    (by decide) (fun fd buf sz s h => Or.inr (trickleOps_put false fd buf sz s h))
    (by decide)).1

/-! ## The recording channel -/

theorem SetByteArrayRegion_plain (w : World (σ × List Nat)) (off n : Int) (buf : List Nat) :
    (SetByteArrayRegion w off n buf).plain = SetByteArrayRegion w.plain off n buf := by
  unfold SetByteArrayRegion
  by_cases h : validRange w.bytes.length off n
  · have h' : validRange w.plain.bytes.length off n := h
    simp only [h, h', if_true]
    rfl
  · have h' : ¬ validRange w.plain.bytes.length off n := h
    simp only [h, h', if_false]
    rfl

/-- The read loop over the recording channel does what the read loop over the
channel itself does. -/
theorem readLoop_plain (ops : Ops σ) (len buf_size : Int) :
    ∀ (fuel : Nat) (w : World (σ × List Nat)) (off nread : Int),
      readLoop ops len buf_size fuel w.plain off nread =
        (readLoop (recording ops) len buf_size fuel w off nread).map
          fun p => (p.1.plain, p.2) := by
  intro fuel
  induction fuel with
  | zero => intro w off nread; rfl
  | succ fuel ih =>
    intro w off nread
    simp only [readLoop]
    generalize (if wrap32 (len - nread) > buf_size then buf_size else wrap32 (len - nread)) = rs
    have hfd : ((recording ops).getFD w.chan).1 = (ops.getFD w.plain.chan).1 := rfl
    have hrd : ((recording ops).IO_Read (ops.getFD w.plain.chan).1 rs
        ((recording ops).getFD w.chan).2).1 =
        (ops.IO_Read (ops.getFD w.plain.chan).1 rs (ops.getFD w.plain.chan).2).1 := rfl
    rw [hfd, hrd]
    split_ifs
    all_goals first
      | rfl
      | (rw [Option.map_some', SetByteArrayRegion_plain]; rfl)
      | (rw [← ih, SetByteArrayRegion_plain]; rfl)

/-- The relay over the recording channel does what the relay over the channel
itself does. -/
theorem readBytes_plain (ops : Ops σ) (fuel : Nat) (w : World (σ × List Nat)) (off len : Int) :
    readBytes ops fuel w.plain off len =
      (readBytes (recording ops) fuel w off len).map fun p => (p.1.plain, p.2) := by
  unfold readBytes
  have hm : (recording ops).malloc = ops.malloc := rfl
  simp only [hm]
  split_ifs
  · have := readLoop_plain ops len (readBytes_buf len).buf_size fuel
      (w.log (Event.malloc (readBytes_buf len).buf_size true)) off 0
    rw [show (w.log (Event.malloc (readBytes_buf len).buf_size true)).plain =
      w.plain.log (Event.malloc (readBytes_buf len).buf_size true) from rfl] at this
    rw [this]
    cases readLoop (recording ops) len (readBytes_buf len).buf_size fuel
      (w.log (Event.malloc (readBytes_buf len).buf_size true)) off 0 <;> rfl
  · rfl
  · exact readLoop_plain ops len (readBytes_buf len).buf_size fuel w off 0

theorem bufPrefix_length (buf : List Nat) (n : Nat) : (bufPrefix buf n).length = n := by
  unfold bufPrefix
  rw [List.length_append, List.length_take, List.length_replicate]
  omega

theorem bufPrefix_of_nonpos (buf : List Nat) (n : Int) (h : n ≤ 0) :
    bufPrefix buf n.toNat = [] := by
  have : n.toNat = 0 := by omega
  simp [bufPrefix, this]

theorem SetByteArrayRegion_store (w : World σ) (off n : Int) (buf : List Nat)
    (h : validRange w.bytes.length off n) :
    SetByteArrayRegion w off n buf =
      { chan := w.chan
        bytes := w.bytes.take off.toNat ++ bufPrefix buf n.toNat ++
          w.bytes.drop (off.toNat + n.toNat)
        pending := w.pending
        trace := w.trace ++ [Event.SetByteArrayRegion off n buf] } := by
  simp [SetByteArrayRegion, h, World.log]

/-- The read loop over the recording version of a channel whose reads return
at most the size asked, into a valid rest of the destination range: the
array afterwards is the array before with the bytes the reads delivered, as
the channel recorded them, stored from `off` on. -/
theorem readLoop_frame (ops : Ops σ) (len buf_size : Int) (hmax : len ≤ JINT_MAX)
    (hb : 0 < buf_size)
    (hread : ∀ fd sz s, 0 < sz → (ops.IO_Read fd sz s).1.1 ≤ sz) :
    ∀ (fuel : Nat) (w : World (σ × List Nat)) (off nread : Int), 0 ≤ nread → nread ≤ len →
      validRange w.bytes.length off (len - nread) → (w.bytes.length : Int) ≤ JINT_MAX →
      (len - nread).toNat < fuel →
      ∃ w' r D, readLoop (recording ops) len buf_size fuel w off nread = some (w', r) ∧
        w'.chan.2 = w.chan.2 ++ D ∧
        (D.length : Int) ≤ len - nread ∧
        w'.bytes = w.bytes.take off.toNat ++ D ++ w.bytes.drop (off.toNat + D.length) ∧
        (0 ≤ r → r = nread + D.length) := by
  intro fuel
  induction fuel with
  | zero => intro w off nread _ _ _ _ h; omega
  | succ fuel ih =>
    intro w off nread h0 h1 hv hbmax hf
    have hsame : w.bytes = w.bytes.take off.toNat ++ [] ++ w.bytes.drop (off.toNat + 0) := by
      simp
    by_cases hlt : nread < len
    · rcases hg : ops.getFD w.chan.1 with ⟨fd, t1⟩
      have hfd : (recording ops).getFD w.chan = (fd, (t1, w.chan.2)) := by
        simp [recording, hg]
      by_cases hc : fd = -1
      · exact ⟨_, _, [], readLoop_closed (recording ops) len buf_size fuel w off nread fd _ hlt hfd
          hc, by simp [throwExc, World.call], by simp; omega, hsame,
          fun h => absurd h (by decide)⟩
      · rcases hr : ops.IO_Read fd (min (len - nread) buf_size) t1 with ⟨⟨n, buf⟩, t2⟩
        have hrd : (recording ops).IO_Read fd (min (len - nread) buf_size) (t1, w.chan.2) =
            ((n, buf), (t2, w.chan.2 ++ bufPrefix buf n.toNat)) := by
          simp [recording, hr]
        have hn : n ≤ min (len - nread) buf_size := by
          have := hread fd (min (len - nread) buf_size) t1 (by omega)
          rwa [hr] at this
        by_cases hpos : 0 < n
        · have hv2 : validRange ((w.call (t1, w.chan.2) (Event.getFD fd)).call
              (t2, w.chan.2 ++ bufPrefix buf n.toNat)
              (Event.IO_Read fd (min (len - nread) buf_size) n)).bytes.length off n := by
            unfold validRange at hv ⊢
            simp only [World.call]
            omega
          have hset := SetByteArrayRegion_store ((w.call (t1, w.chan.2) (Event.getFD fd)).call
              (t2, w.chan.2 ++ bufPrefix buf n.toNat)
              (Event.IO_Read fd (min (len - nread) buf_size) n)) off n buf hv2
          have hclen := bufPrefix_length buf n.toNat
          by_cases hs : n < min (len - nread) buf_size
          · refine ⟨_, _, bufPrefix buf n.toNat, readLoop_short (recording ops) len buf_size fuel w
              off nread fd _ _ n buf hmax h0 hlt hfd hc hrd hpos hs, ?_, by rw [hclen]; omega, ?_,
              fun _ => by rw [hclen]; omega⟩
            · rw [hset]
              rfl
            · rw [hset, hclen]
              rfl
          · rw [readLoop_full (recording ops) len buf_size fuel w off nread fd _ _ n buf hmax h0
              hlt hfd hc hrd hpos hs]
            have hw : wrap32 (nread + n) = nread + n := by
              unfold JINT_MAX at hmax
              exact wrap32_of_range (by omega) (by omega)
            have hwo : wrap32 (off + n) = off + n := by
              unfold validRange at hv
              unfold JINT_MAX at hbmax
              exact wrap32_of_range (by omega) (by omega)
            rw [hw, hwo, hset]
            generalize bufPrefix buf n.toNat = c at hclen ⊢
            obtain ⟨w', r, D, hw', hd', hl', hb', hr'⟩ := ih
              { chan := (t2, w.chan.2 ++ c),
                bytes := w.bytes.take off.toNat ++ c ++ w.bytes.drop (off.toNat + n.toNat),
                pending := w.pending,
                trace := ((w.call (t1, w.chan.2) (Event.getFD fd)).call (t2, w.chan.2 ++ c)
                  (Event.IO_Read fd (min (len - nread) buf_size) n)).trace ++
                  [Event.SetByteArrayRegion off n buf] }
              (off + n) (nread + n) (by omega) (by omega)
              (by
                unfold validRange at hv ⊢
                simp only [List.length_append, List.length_take, List.length_drop]
                omega)
              (by
                unfold validRange at hv
                unfold JINT_MAX at hbmax ⊢
                simp only [List.length_append, List.length_take, List.length_drop]
                omega)
              (by omega)
            refine ⟨w', r, c ++ D, hw', ?_, ?_, ?_, ?_⟩
            · rw [hd']
              simp only [List.append_assoc]
            · rw [List.length_append]
              push_cast
              omega
            · rw [hb']
              simp only
              unfold validRange at hv
              have e1 : (off + n).toNat = off.toNat + c.length := by omega
              have e2 : off.toNat + n.toNat = off.toNat + c.length := by omega
              rw [e1, e2]
              exact store_store w.bytes c D off.toNat (by omega)
            · intro hr
              rw [hr' hr, List.length_append]
              push_cast
              omega
        · have hnil := bufPrefix_of_nonpos buf n (by omega)
          by_cases he : n = -1
          · refine ⟨_, _, [], readLoop_error (recording ops) len buf_size fuel w off nread fd _ _ n
              buf hmax h0 hlt hfd hc hrd he, ?_, by simp; omega, hsame, fun _ => by simp⟩
            simp [throwExc, World.call, hnil]
          · refine ⟨_, _, [], readLoop_eof (recording ops) len buf_size fuel w off nread fd _ _ n
              buf hmax h0 hlt hfd hc hrd (by omega) he, ?_, by simp; omega, hsame, ?_⟩
            · simp [World.call, hnil]
            · intro hr
              by_cases hz : nread = 0
              · rw [if_pos hz] at hr
                exact absurd hr (by decide)
              · rw [if_neg hz]
                simp
    · exact ⟨_, _, [], readLoop_done (recording ops) len buf_size fuel w off nread hlt, by simp,
        by simp; omega, hsame, fun _ => by simp⟩

/-- What storing `D` at `off` leaves of an array. -/
theorem stored_frame (bytes D : List Nat) (o n : Nat) (hD : D.length ≤ n)
    (hv : o + n ≤ bytes.length) :
    (bytes.take o ++ D ++ bytes.drop (o + D.length)).length = bytes.length ∧
    (bytes.take o ++ D ++ bytes.drop (o + D.length)).take o = bytes.take o ∧
    (bytes.take o ++ D ++ bytes.drop (o + D.length)).drop (o + n) = bytes.drop (o + n) ∧
    ((bytes.take o ++ D ++ bytes.drop (o + D.length)).drop o).take D.length = D := by
  have hl : (bytes.take o).length = o := by
    rw [List.length_take]; omega
  have hl2 : (bytes.take o ++ D).length = o + D.length := by
    rw [List.length_append, hl]
  refine ⟨?_, ?_, ?_, ?_⟩
  · simp only [List.length_append, List.length_take, List.length_drop]
    omega
  · rw [List.append_assoc, List.take_left' hl]
  · have e : o + n = (o + D.length) + (n - D.length) := by omega
    rw [e, ← List.drop_drop, List.drop_left' hl2, List.drop_drop]
  · rw [List.append_assoc, List.drop_left' hl, List.take_left' rfl]

/-- The relay over the recording version of a channel whose reads return at
most the size asked, into a valid destination range: it returns, and the array
afterwards is the array before with the recorded bytes stored from `off` on. -/
theorem readBytes_recording_frame (ops : Ops σ) (fuel : Nat) (w : World (σ × List Nat))
    (off len : Int) (hlen : 1 ≤ len) (hv : validRange w.bytes.length off len)
    (hbmax : (w.bytes.length : Int) ≤ JINT_MAX)
    (hread : ∀ fd sz s, 0 < sz → (ops.IO_Read fd sz s).1.1 ≤ sz)
    (hfuel : len.toNat < fuel) :
    ∃ wR r D, readBytes (recording ops) fuel w off len = some (wR, r) ∧
      wR.chan.2 = w.chan.2 ++ D ∧ (D.length : Int) ≤ len ∧
      wR.bytes = w.bytes.take off.toNat ++ D ++ w.bytes.drop (off.toNat + D.length) ∧
      (0 ≤ r → r = D.length) := by
  have hlmax : len ≤ JINT_MAX := by
    unfold validRange at hv
    omega
  by_cases hm : (readBytes_buf len).heap = true →
      (recording ops).malloc (readBytes_buf len).buf_size = true
  · obtain ⟨hc, hb, hpe⟩ := (readBytes_buf len).enter_fields w
    obtain ⟨w', r, D, hw', hd', hl', hb', hr'⟩ := readLoop_frame ops len
      (readBytes_buf len).buf_size hlmax (readBytes_buf_pos len) hread fuel
      ((readBytes_buf len).enter w) off 0 (le_refl 0) (by omega)
      (by rw [hb, sub_zero]; exact hv) (by rw [hb]; exact hbmax) (by simpa using hfuel)
    rw [hb] at hb'
    rw [hc] at hd'
    rw [sub_zero] at hl'
    rw [readBytes_eq_loop (recording ops) fuel w off len hm, hw']
    refine ⟨(readBytes_buf len).leave w', r, D, rfl, ?_, hl', ?_, ?_⟩
    · rw [((readBytes_buf len).leave_fields w').1, hd']
    · rw [((readBytes_buf len).leave_fields w').2.1, hb']
    · intro hr
      have := hr' hr
      omega
  · have hh : (readBytes_buf len).heap = true := by
      by_contra hh
      exact hm (fun h => absurd h hh)
    have hf : (recording ops).malloc (readBytes_buf len).buf_size = false := by
      by_contra hf
      exact hm (fun _ => by simpa using hf)
    refine ⟨throwExc Exc.OutOfMemory (w.log (Event.malloc (readBytes_buf len).buf_size false)),
      0, [], ?_, ?_, by simp; omega, ?_, fun _ => rfl⟩
    · simp [readBytes, hh, hf]
    · simp [throwExc, World.log]
    · simp [throwExc, World.log]

/-- C19 (read frame). For every destination array, valid sub-range
`(off, len)` with `len ≥ 1`, and every channel whose single-shot read never
returns more than the size requested, `readBytes` returns, the array keeps its
length, and the bytes before `off` and from `off + len` on are unchanged.
When it returns `r ≥ 0`, the bytes at `[off, off + r)` are exactly the bytes
`D` its single-shot reads delivered, in order, and the bytes from `off + r` on
are unchanged as well. Here `D` is what the channel itself records: the same
call over the recording version of the channel returns the same value and the
same world, and its record, started empty, is `D`. -/
theorem readBytes_frame (ops : Ops σ) (fuel : Nat) (w : World σ) (off len : Int)
    (hlen : 1 ≤ len) (hv : validRange w.bytes.length off len)
    (hbmax : (w.bytes.length : Int) ≤ JINT_MAX)
    (hread : ∀ fd sz s, 0 < sz → (ops.IO_Read fd sz s).1.1 ≤ sz)
    (hfuel : len.toNat < fuel) :
    ∃ w' r D, readBytes ops fuel w off len = some (w', r) ∧
      (∃ wR, readBytes (recording ops) fuel (w.withRecord []) off len = some (wR, r) ∧
        wR.plain = w' ∧ wR.chan.2 = D) ∧
      w'.bytes.length = w.bytes.length ∧
      w'.bytes.take off.toNat = w.bytes.take off.toNat ∧
      w'.bytes.drop (off.toNat + len.toNat) = w.bytes.drop (off.toNat + len.toNat) ∧
      (0 ≤ r → slice w'.bytes off r = D ∧ (D.length : Int) = r ∧
        w'.bytes.drop (off.toNat + r.toNat) = w.bytes.drop (off.toNat + r.toNat)) := by
  have hvn : off.toNat + len.toNat ≤ w.bytes.length := by
    unfold validRange at hv
    omega
  obtain ⟨wR, r, D, hrec, hlog, hDl, hbytes, hrD⟩ := readBytes_recording_frame ops fuel
    (w.withRecord []) off len hlen hv hbmax hread hfuel
  have hplain : readBytes ops fuel w off len = some (wR.plain, r) := by
    have := readBytes_plain ops fuel (w.withRecord []) off len
    rw [hrec] at this
    exact this
  have hb : wR.plain.bytes = w.bytes.take off.toNat ++ D ++ w.bytes.drop (off.toNat + D.length) :=
    hbytes
  have hDn : D.length ≤ len.toNat := by omega
  obtain ⟨f1, f2, f3, f4⟩ := stored_frame w.bytes D off.toNat len.toNat hDn hvn
  refine ⟨wR.plain, r, D, hplain, ⟨wR, hrec, rfl, ?_⟩, ?_, ?_, ?_, ?_⟩
  · rw [hlog]
    rfl
  · rw [hb, f1]
  · rw [hb, f2]
  · rw [hb, f3]
  · intro hr
    have hrD' : r = D.length := hrD hr
    have hrn : r.toNat = D.length := by omega
    rw [hb]
    refine ⟨?_, by omega, ?_⟩
    · unfold slice
      rw [hrn]
      exact f4
    · rw [hrn]
      exact (stored_frame w.bytes D off.toNat D.length (le_refl _) (by omega)).2.2.1

/-- Witness of C19: a read of 5 bytes into the middle of an array of 7, from a
byte queue holding 7, 8, 9. It returns 3, the record is 7, 8, 9, and the
array afterwards holds 7, 8, 9 at indices 1 to 3. -/
theorem readBytes_frame_witness :
    (∃ w' r D, readBytes queueOps 6 (World.init [7, 8, 9] [0, 1, 2, 3, 4, 5, 6]) 1 5
        = some (w', r) ∧
      (∃ wR, readBytes (recording queueOps) 6
          ((World.init [7, 8, 9] [0, 1, 2, 3, 4, 5, 6]).withRecord []) 1 5 = some (wR, r) ∧
        wR.plain = w' ∧ wR.chan.2 = D) ∧
      w'.bytes.length = [0, 1, 2, 3, 4, 5, 6].length ∧
      w'.bytes.take (1 : Int).toNat = [0, 1, 2, 3, 4, 5, 6].take (1 : Int).toNat ∧
      w'.bytes.drop ((1 : Int).toNat + (5 : Int).toNat) =
        [0, 1, 2, 3, 4, 5, 6].drop ((1 : Int).toNat + (5 : Int).toNat) ∧
      (0 ≤ r → slice w'.bytes 1 r = D ∧ (D.length : Int) = r ∧
        w'.bytes.drop ((1 : Int).toNat + r.toNat) =
          [0, 1, 2, 3, 4, 5, 6].drop ((1 : Int).toNat + r.toNat))) ∧
    (readBytes queueOps 6 (World.init [7, 8, 9] [0, 1, 2, 3, 4, 5, 6]) 1 5).map
        (fun p => (p.2, p.1.bytes)) = some (3, [0, 7, 8, 9, 4, 5, 6]) ∧
    (readBytes (recording queueOps) 6
        ((World.init [7, 8, 9] [0, 1, 2, 3, 4, 5, 6]).withRecord []) 1 5).map
        (fun p => (p.2, p.1.bytes, p.1.chan.2)) = some (3, [0, 7, 8, 9, 4, 5, 6], [7, 8, 9]) :=
  ⟨readBytes_frame queueOps 6 (World.init [7, 8, 9] [0, 1, 2, 3, 4, 5, 6]) 1 5 (by decide)
    (by decide) (by decide) queueOps_read_le (by decide), by decide, by decide⟩

end IoUtil
